import Mathlib

/-!
EmpowerQOSManager: station queues and traffic-rule queues.

A shallow embedding of `src/elements/empower/empowerqosmanager.hh`:

* `AggregationQueue` : the bounded ring buffer of frames kept for one station,
  with `push`, `pull`, `top` and the Ethernet to 802.11 rewrite `wifi_encap`;
* `TrafficRuleQueue` : the per traffic-rule table of station queues with its
  round-robin list of active stations, with `enqueue` and `dequeue`.

Bytes are natural numbers, a frame is the list of its data bytes, `uint32_t`
counters are natural numbers reduced modulo `2^32` where the source can wrap.
-/

set_option linter.unusedVariables false

/-! ## Bytes, addresses and packets -/

/-- The number of values of a `uint32_t`. -/
def UINT32 : Nat := 4294967296

/-- A frame: the bytes between `data()` and `end_data()` of a Click `Packet`. -/
abbrev Packet := List Nat

/-- Click `EtherAddress`: six bytes. -/
structure EtherAddress where
  b0 : Nat
  b1 : Nat
  b2 : Nat
  b3 : Nat
  b4 : Nat
  b5 : Nat
deriving DecidableEq, Repr

/-- The six bytes behind `EtherAddress::data()`. -/
def EtherAddress.data (a : EtherAddress) : List Nat :=
  [a.b0, a.b1, a.b2, a.b3, a.b4, a.b5]

/-- The constructor `EtherAddress(const unsigned char *)`: reads six bytes
starting at offset `off` of the buffer. -/
def EtherAddress.ofBytes (buf : List Nat) (off : Nat) : EtherAddress :=
  { b0 := buf.getD off 0, b1 := buf.getD (off + 1) 0, b2 := buf.getD (off + 2) 0,
    b3 := buf.getD (off + 3) 0, b4 := buf.getD (off + 4) 0, b5 := buf.getD (off + 5) 0 }

/-- The `n` bytes of a buffer starting at offset `off` (the source operand of a
`memcpy` out of a packet). -/
def readBytes (buf : List Nat) (off n : Nat) : List Nat :=
  (buf.drop off).take n

/-- Effect of `memcpy(buf + off, src, src.length)` on the buffer. -/
def memcpy (buf : List Nat) (off : Nat) (src : List Nat) : List Nat :=
  buf.take off ++ src ++ buf.drop (off + src.length)

/-- Effect of `memset(buf, v, n)` on the buffer. -/
def memset (buf : List Nat) (v n : Nat) : List Nat :=
  List.replicate n v ++ buf.drop n

/-- Click `Packet::pull(n)`: drop `n` bytes from the front of the data. -/
def Packet.pull (p : Packet) (n : Nat) : Packet :=
  p.drop n

/-- Click `Packet::push(n)`: expose `n` more bytes in front of the data. The
call fails (null result) when the head room cannot be obtained; when it succeeds
the exposed bytes hold whatever the buffer held there, given by `room`. -/
def Packet.push (room : Option (Nat → Nat)) (n : Nat) (p : Packet) : Option Packet :=
  match room with
  | none => none
  | some f => some ((List.range n).map f ++ p)

/-! ## Constants of `clicknet/ether.h`, `clicknet/llc.h` and `clicknet/wifi.h` -/

/-- Modelled from the spec: `sizeof(struct click_ether)`, declared in
`clicknet/ether.h`; the 14-byte wired header (destination, source, type). -/
def SIZEOF_CLICK_ETHER : Nat := 14

/-- Modelled from the spec: `sizeof(struct click_llc)`, declared in
`clicknet/llc.h`; the 8-byte LLC/SNAP header. -/
def SIZEOF_CLICK_LLC : Nat := 8

/-- Modelled from the spec: `sizeof(struct click_wifi)`, declared in
`clicknet/wifi.h`; the 24-byte wireless header: frame control (2), duration (2),
address 1 (6), address 2 (6), address 3 (6), sequence (2). -/
def SIZEOF_CLICK_WIFI : Nat := 24

/-- Modelled from the spec: offset of `i_fc` in `struct click_wifi`. -/
def OFF_I_FC : Nat := 0

/-- Modelled from the spec: offset of `i_addr1` in `struct click_wifi`. -/
def OFF_I_ADDR1 : Nat := 4

/-- Modelled from the spec: offset of `i_addr2` in `struct click_wifi`. -/
def OFF_I_ADDR2 : Nat := 10

/-- Modelled from the spec: offset of `i_addr3` in `struct click_wifi`. -/
def OFF_I_ADDR3 : Nat := 16

/-- Modelled from the spec: `WIFI_FC0_VERSION_0` of `clicknet/wifi.h`. -/
def WIFI_FC0_VERSION_0 : Nat := 0x00

/-- Modelled from the spec: `WIFI_FC0_TYPE_DATA` of `clicknet/wifi.h`. -/
def WIFI_FC0_TYPE_DATA : Nat := 0x08

/-- Modelled from the spec: `WIFI_FC1_DIR_MASK` of `clicknet/wifi.h`. -/
def WIFI_FC1_DIR_MASK : Nat := 0x03

/-- Modelled from the spec: `WIFI_FC1_DIR_FROMDS` of `clicknet/wifi.h`, the
from-infrastructure direction bit. -/
def WIFI_FC1_DIR_FROMDS : Nat := 0x02

/-- Modelled from the spec: `WIFI_LLC_HEADER` of `clicknet/wifi.h`, the six
bytes `aa aa 03 00 00 00`; its length is `WIFI_LLC_HEADER_LEN`. -/
def WIFI_LLC_HEADER : List Nat := [0xaa, 0xaa, 0x03, 0x00, 0x00, 0x00]

/-! ## Allocation outcomes and results -/

/-- What the three buffer operations of `wifi_encap` do on one call:
`uniqueify` tells whether `p->uniqueify()` yields a private copy, `llc` and
`wifi` are the outcomes of the two `q->push(..)` calls. -/
structure Alloc where
  uniqueify : Bool
  llc : Option (Nat → Nat)
  wifi : Option (Nat → Nat)

/-- The encapsulation succeeds: the private copy and both head-room extensions
are obtained. -/
def Alloc.Succeeds (o : Alloc) : Prop :=
  o.uniqueify = true ∧ o.llc.isSome = true ∧ o.wifi.isSome = true

/-- An allocation outcome in which everything is obtained and the exposed head
room is zero filled. -/
def Alloc.plain : Alloc :=
  { uniqueify := true, llc := some (fun _ => 0), wifi := some (fun _ => 0) }

/-- Result of an operation returning a `Packet*`: a frame, the null pointer, or
a fault when the source dereferences a null pointer or an end iterator. -/
inductive Outcome where
  | frame (p : Packet)
  | null
  | fault
deriving DecidableEq, Repr

/-! ## AggregationQueue -/

/-- The state of an `AggregationQueue`; a slot of `_q` is `none` when it holds
the null pointer. -/
structure AggregationQueue where
  _q : List (Option Packet)
  _capacity : Nat
  _ra : EtherAddress
  _ta : EtherAddress
  _size : Nat
  _drops : Nat
  _head : Nat
  _tail : Nat
deriving DecidableEq, Repr

/-- The constructor `AggregationQueue(capacity, ra, ta)`. The source leaves the
slots of the new array uninitialised; its destructor tests `if (_q[i])` on every
slot, so unused slots are taken to be null. -/
def AggregationQueue.ctor (capacity : Nat) (ra ta : EtherAddress) : AggregationQueue :=
  { _q := List.replicate capacity none
    _capacity := capacity
    _ra := ra
    _ta := ta
    _size := 0
    _drops := 0
    _head := 0
    _tail := 0 }

/-- The pointer stored in `_q[i]`. -/
def AggregationQueue.slot (s : AggregationQueue) (i : Nat) : Option Packet :=
  (s._q.get? i).join

/-- `AggregationQueue::wifi_encap(p, ra, sa, ta)`. -/
def AggregationQueue.wifi_encap (o : Alloc) (p : Packet) (ra sa ta : EtherAddress) : Outcome :=
  -- WritablePacket *q = p->uniqueify(); if (!q) return 0;
  if o.uniqueify = false then Outcome.null else
  let q : Packet := p
  let mode := WIFI_FC1_DIR_FROMDS
  -- memcpy(&ethtype, q->data() + 12, 2);
  let ethtype := readBytes q 12 2
  -- q->pull(sizeof(struct click_ether)); q = q->push(sizeof(struct click_llc));
  match Packet.push o.llc SIZEOF_CLICK_LLC (Packet.pull q SIZEOF_CLICK_ETHER) with
  | none => Outcome.fault -- if (!q) { q->kill(); ... } : kill() on the null q
  | some q =>
    let q := memcpy q 0 WIFI_LLC_HEADER
    let q := memcpy q 6 ethtype
    -- q = q->push(sizeof(struct click_wifi));
    match Packet.push o.wifi SIZEOF_CLICK_WIFI q with
    | none => Outcome.fault -- if (!q) { q->kill(); ... } : kill() on the null q
    | some q =>
      let q := memset q 0 SIZEOF_CLICK_WIFI
      -- w->i_fc[0] = (uint8_t) (WIFI_FC0_VERSION_0 | WIFI_FC0_TYPE_DATA);
      let q := memcpy q OFF_I_FC [(WIFI_FC0_VERSION_0 ||| WIFI_FC0_TYPE_DATA) % 256]
      -- w->i_fc[1] = 0;
      let q := memcpy q (OFF_I_FC + 1) [0]
      -- w->i_fc[1] |= (uint8_t) (WIFI_FC1_DIR_MASK & mode);
      let q := memcpy q (OFF_I_FC + 1) [q.getD (OFF_I_FC + 1) 0 ||| ((WIFI_FC1_DIR_MASK &&& mode) % 256)]
      let q := memcpy q OFF_I_ADDR1 ra.data
      let q := memcpy q OFF_I_ADDR2 ta.data
      let q := memcpy q OFF_I_ADDR3 sa.data
      Outcome.frame q

/-- `AggregationQueue::pull()`. -/
def AggregationQueue.pull (o : Alloc) (s : AggregationQueue) : AggregationQueue × Outcome :=
  let r : AggregationQueue × Option Packet :=
    if 0 < s._size then
      ({ s with
          _q := s._q.set s._head none
          _head := ((s._head + 1) % UINT32) % s._capacity
          _size := s._size - 1 },
        s.slot s._head)
    else (s, none)
  match r.2 with
  | some p => (r.1, AggregationQueue.wifi_encap o p s._ra (EtherAddress.ofBytes p 6) s._ta)
  | none => (r.1, Outcome.null)

/-- `AggregationQueue::push(p)`. -/
def AggregationQueue.push (p : Packet) (s : AggregationQueue) : AggregationQueue × Bool :=
  if s._size = s._capacity then
    ({ s with _drops := (s._drops + 1) % UINT32 }, false)
  else
    ({ s with
        _q := s._q.set s._tail (some p)
        _tail := ((s._tail + 1) % UINT32) % s._capacity
        _size := (s._size + 1) % UINT32 },
      true)

/-- `AggregationQueue::top()`. -/
def AggregationQueue.top (s : AggregationQueue) : AggregationQueue × Option Packet :=
  if s._head ≠ s._tail then
    (s, s.slot (((s._head + 1) % UINT32) % s._capacity))
  else (s, none)

/-- Repeated `push`, in list order; returns the final state and the results. -/
def AggregationQueue.pushAll : List Packet → AggregationQueue → AggregationQueue × List Bool
  | [], s => (s, [])
  | p :: ps, s =>
    let r := s.push p
    let rs := AggregationQueue.pushAll ps r.1
    (rs.1, r.2 :: rs.2)

/-- Repeated `pull`, one call per allocation outcome of the list; returns the
final state and the results in call order. -/
def AggregationQueue.pullAll : List Alloc → AggregationQueue → AggregationQueue × List Outcome
  | [], s => (s, [])
  | o :: os, s =>
    let r := s.pull o
    let rs := AggregationQueue.pullAll os r.1
    (rs.1, r.2 :: rs.2)

/-! ## TrafficRule and the station table -/

/-- The key of a traffic class, `TrafficRule`. -/
structure TrafficRule where
  _ssid : String
  _dscp : Int
deriving DecidableEq, Repr

/-- Click `HashTable<EtherAddress, AggregationQueue*>` as an association list;
the pointed-to queues are stored in place. -/
abbrev AggregationQueues := List (EtherAddress × AggregationQueue)

/-- `HashTable::find(key)`: the value stored under the key, `none` for `end()`. -/
def HashTable.find : AggregationQueues → EtherAddress → Option AggregationQueue
  | [], _ => none
  | (k, v) :: m, a => if k = a then some v else HashTable.find m a

/-- `HashTable::set(key, value)`: replace the value of the key or insert it. -/
def HashTable.set : AggregationQueues → EtherAddress → AggregationQueue → AggregationQueues
  | [], a, v => [(a, v)]
  | (k, w) :: m, a, v => if k = a then (k, v) :: m else (k, w) :: HashTable.set m a v

/-! ## TrafficRuleQueue -/

/-- The state of a `TrafficRuleQueue`. -/
structure TrafficRuleQueue where
  _queues : AggregationQueues
  _active_list : List EtherAddress
  _tr : TrafficRule
  _capacity : Nat
  _size : Nat
  _drops : Nat
  _deficit : Nat
  _quantum : Nat
  _amsdu_aggregation : Bool
deriving DecidableEq, Repr

/-- The constructor `TrafficRuleQueue(tr, capacity, quantum)`. -/
def TrafficRuleQueue.ctor (tr : TrafficRule) (capacity quantum : Nat) : TrafficRuleQueue :=
  { _queues := []
    _active_list := []
    _tr := tr
    _capacity := capacity
    _size := 0
    _drops := 0
    _deficit := 0
    _quantum := quantum
    _amsdu_aggregation := false }

/-- `TrafficRuleQueue::enqueue(p, ra, ta)`. The station queue is reached through
a pointer in the source; here the pushed-to queue is written back into the
table. -/
def TrafficRuleQueue.enqueue (p : Packet) (ra ta : EtherAddress) (t : TrafficRuleQueue) :
    TrafficRuleQueue × Bool :=
  -- if (_queues.find(ra) == _queues.end()) { ... }
  let t1 : TrafficRuleQueue :=
    match HashTable.find t._queues ra with
    | none =>
      { t with
          _queues := HashTable.set t._queues ra (AggregationQueue.ctor t._capacity ra ta)
          _active_list := t._active_list ++ [ra] }
    | some _ => t
  -- _queues.get(ra): the queue found above, or else the one just created
  let queue : AggregationQueue :=
    match HashTable.find t._queues ra with
    | none => AggregationQueue.ctor t._capacity ra ta
    | some queue => queue
  -- if (_queues.get(ra)->push(p)) { ... }
  let r := queue.push p
  let t2 : TrafficRuleQueue := { t1 with _queues := HashTable.set t1._queues ra r.1 }
  if r.2 = true then
    let t3 : TrafficRuleQueue := { t2 with _size := (t2._size + 1) % UINT32 }
    if ra ∈ t3._active_list then (t3, true)
    else ({ t3 with _active_list := t3._active_list ++ [ra] }, true)
  else
    ({ t2 with _drops := (t2._drops + 1) % UINT32 }, false)

/-- The body of `TrafficRuleQueue::dequeue()`, by recursion on the active list
`al` that the call finds in `_active_list`; `os n` is the allocation outcome met
by the `n`-th station-queue pull of the call. -/
def TrafficRuleQueue.dequeueFrom :
    List EtherAddress → (Nat → Alloc) → TrafficRuleQueue → TrafficRuleQueue × Outcome
  -- if (_active_list.empty()) return 0;
  | [], _, t => ({ t with _active_list := [] }, Outcome.null)
  -- EtherAddress ra = _active_list[0]; _active_list.pop_front();
  | ra :: rest, os, t =>
    match HashTable.find t._queues ra with
    | none => ({ t with _active_list := rest }, Outcome.fault) -- active.value() at end()
    | some queue =>
      let r := queue.pull (os 0)
      let t1 : TrafficRuleQueue :=
        { t with _queues := HashTable.set t._queues ra r.1, _active_list := rest }
      match r.2 with
      | Outcome.frame f =>
        ({ t1 with
            _active_list := rest ++ [ra]
            _size := (t1._size + UINT32 - 1) % UINT32 },
          Outcome.frame f)
      -- if (!p) return dequeue();
      | Outcome.null => TrafficRuleQueue.dequeueFrom rest (fun n => os (n + 1)) t1
      | Outcome.fault => (t1, Outcome.fault)

/-- `TrafficRuleQueue::dequeue()`. -/
def TrafficRuleQueue.dequeue (os : Nat → Alloc) (t : TrafficRuleQueue) :
    TrafficRuleQueue × Outcome :=
  TrafficRuleQueue.dequeueFrom t._active_list os t

/-- Consecutive `dequeue` calls: `n` of them, the `i`-th with the allocation
outcomes `oss i`; returns the final state and the results in call order. -/
def TrafficRuleQueue.dequeueN :
    Nat → (Nat → Nat → Alloc) → TrafficRuleQueue → TrafficRuleQueue × List Outcome
  | 0, _, t => (t, [])
  | n + 1, oss, t =>
    let r := t.dequeue (oss 0)
    let rs := TrafficRuleQueue.dequeueN n (fun i => oss (i + 1)) r.1
    (rs.1, r.2 :: rs.2)


/-! ## Abstraction and invariants of the station queue -/

/-- The frames buffered by a station queue, oldest first: the non-null slots
met in the `_size` positions starting at `_head`. -/
def AggregationQueue.frames (s : AggregationQueue) : List Packet :=
  (List.range s._size).filterMap (fun i => s.slot ((s._head + i) % s._capacity))

/-- The ring-buffer invariant of a station queue. -/
structure AggregationQueue.Inv (s : AggregationQueue) : Prop where
  cap_lt : s._capacity < UINT32
  len : s._q.length = s._capacity
  size_le : s._size ≤ s._capacity
  head_lt : 0 < s._capacity → s._head < s._capacity
  tail_eq : s._tail = (s._head + s._size) % s._capacity
  full : ∀ i, i < s._size → (s.slot ((s._head + i) % s._capacity)).isSome = true

/-- The station-queue states reachable from the constructor by `push`, `pull`
and `top` calls; the capacity is a `uint32_t`. -/
inductive AggregationQueue.Reachable : AggregationQueue → Prop where
  | ctor (capacity : Nat) (ra ta : EtherAddress) (h : capacity < UINT32) :
      AggregationQueue.Reachable (AggregationQueue.ctor capacity ra ta)
  | push (p : Packet) (s : AggregationQueue) (h : AggregationQueue.Reachable s) :
      AggregationQueue.Reachable (s.push p).1
  | pull (o : Alloc) (s : AggregationQueue) (h : AggregationQueue.Reachable s) :
      AggregationQueue.Reachable (s.pull o).1
  | top (s : AggregationQueue) (h : AggregationQueue.Reachable s) :
      AggregationQueue.Reachable s.top.1

/-! ## Abstraction and invariants of the traffic-rule queue -/

/-- The station has a station queue holding at least one frame. -/
def TrafficRuleQueue.pending (t : TrafficRuleQueue) (a : EtherAddress) : Bool :=
  match HashTable.find t._queues a with
  | some q => decide (0 < q._size)
  | none => false

/-- The part of the invariant of a traffic-rule queue that concerns the station
table: every station queue is a well-formed ring buffer, is stored under its own
receiver address and has the configured capacity. -/
structure TrafficRuleQueue.QInv (t : TrafficRuleQueue) : Prop where
  cap_lt : t._capacity < UINT32
  queues : ∀ a q, HashTable.find t._queues a = some q →
    q.Inv ∧ q._ra = a ∧ q._capacity = t._capacity

/-- The invariant of a traffic-rule queue: the table invariant, no station
twice in the rotation list, and a station queue for every listed station. -/
structure TrafficRuleQueue.Inv (t : TrafficRuleQueue) : Prop where
  qinv : t.QInv
  nodup : t._active_list.Nodup
  listed : ∀ a, a ∈ t._active_list → (HashTable.find t._queues a).isSome = true

/-- The traffic-rule queue states reachable from the constructor by `enqueue`
and `dequeue` calls, under any allocation outcomes; the capacity is a
`uint32_t`. -/
inductive TrafficRuleQueue.Reachable : TrafficRuleQueue → Prop where
  | ctor (tr : TrafficRule) (capacity quantum : Nat) (h : capacity < UINT32) :
      TrafficRuleQueue.Reachable (TrafficRuleQueue.ctor tr capacity quantum)
  | enqueue (p : Packet) (ra ta : EtherAddress) (t : TrafficRuleQueue)
      (h : TrafficRuleQueue.Reachable t) :
      TrafficRuleQueue.Reachable (t.enqueue p ra ta).1
  | dequeue (os : Nat → Alloc) (t : TrafficRuleQueue)
      (h : TrafficRuleQueue.Reachable t) :
      TrafficRuleQueue.Reachable (t.dequeue os).1

/-- What a traffic-rule queue holds for a station: the transmitter address of
its station queue and the frames buffered there, oldest first; `none` when the
station has no station queue. -/
def TrafficRuleQueue.station (t : TrafficRuleQueue) (s : EtherAddress) :
    Option (EtherAddress × List Packet) :=
  (HashTable.find t._queues s).map (fun q => (q._ta, q.frames))

/-! ## TrafficRule: equality and hash code -/

/-- `TrafficRule::operator==(other)`, called on `a`. -/
def TrafficRule.operator_eq (a other : TrafficRule) : Bool :=
  (other._ssid == a._ssid) && (other._dscp == a._dscp)

/-- `TrafficRule::operator!=(other)`, called on `a`. -/
def TrafficRule.operator_ne (a other : TrafficRule) : Bool :=
  (other._ssid != a._ssid) || (other._dscp != a._dscp)

/-- `TrafficRule::hashcode()`, called on `a`: `hash_str` and `hash_int` are
Click's `hashcode` overloads for `String` and `int`, `w` is the width in bits of
`hashcode_t`. -/
def TrafficRule.hashcode (hash_str : String → Nat) (hash_int : Int → Nat) (w : Nat)
    (a : TrafficRule) : Nat :=
  (hash_str a._ssid + hash_int a._dscp) % 2 ^ w

/-! ## Buffer accesses of the station queue -/

/-- The calls of a station queue. -/
inductive AggregationQueue.Call where
  | push (p : Packet)
  | pull (o : Alloc)
  | top

/-- The index at which a call reads or writes `_q` in a state, `none` when the
call takes the branch that does not touch the buffer. -/
def AggregationQueue.index_used : AggregationQueue.Call → AggregationQueue → Option Nat
  | AggregationQueue.Call.push _, s =>
    if s._size = s._capacity then none else some s._tail
  | AggregationQueue.Call.pull _, s =>
    if 0 < s._size then some s._head else none
  | AggregationQueue.Call.top, s =>
    if s._head ≠ s._tail then some (((s._head + 1) % UINT32) % s._capacity) else none

/-- The divisor of the `%` that a call evaluates in a state, `none` when the
call takes the branch without a `%`. -/
def AggregationQueue.divisor_used : AggregationQueue.Call → AggregationQueue → Option Nat
  | AggregationQueue.Call.push _, s =>
    if s._size = s._capacity then none else some s._capacity
  | AggregationQueue.Call.pull _, s =>
    if 0 < s._size then some s._capacity else none
  | AggregationQueue.Call.top, s =>
    if s._head ≠ s._tail then some s._capacity else none

/-! ## The recursion of dequeue, with its call depth -/

/-- `TrafficRuleQueue::dequeue()` as the source writes it, every call reading
`_active_list` anew. `fuel` is the number of nested calls allowed (`none` when
that depth does not suffice); the third component of the result counts the
station-queue pulls performed. -/
def TrafficRuleQueue.dequeueDepth :
    Nat → (Nat → Alloc) → TrafficRuleQueue → Option (TrafficRuleQueue × Outcome × Nat)
  | 0, _, _ => none
  | fuel + 1, os, t =>
    match t._active_list with
    -- if (_active_list.empty()) return 0;
    | [] => some (t, Outcome.null, 0)
    -- EtherAddress ra = _active_list[0]; _active_list.pop_front();
    | ra :: rest =>
      match HashTable.find t._queues ra with
      | none => some ({ t with _active_list := rest }, Outcome.fault, 0)
      | some queue =>
        let r := queue.pull (os 0)
        let t1 : TrafficRuleQueue :=
          { t with _queues := HashTable.set t._queues ra r.1, _active_list := rest }
        match r.2 with
        | Outcome.frame f =>
          some ({ t1 with
              _active_list := rest ++ [ra]
              _size := (t1._size + UINT32 - 1) % UINT32 },
            Outcome.frame f, 1)
        -- if (!p) return dequeue();
        | Outcome.null =>
          (TrafficRuleQueue.dequeueDepth fuel (fun n => os (n + 1)) t1).map
            (fun x => (x.1, x.2.1, x.2.2 + 1))
        | Outcome.fault => some (t1, Outcome.fault, 1)

/-! ## The bounded FIFO list that the ring buffer is compared with -/

/-- A call of `push` or `pull` on a station queue. -/
inductive QueueOp where
  | push (p : Packet)
  | pull (o : Alloc)

/-- The result of a `push` or `pull` call. -/
inductive QueueRet where
  | pushed (ok : Bool)
  | pulled (r : Outcome)

/-- The calls of a list made in order on a station queue, from a given state:
the final state and the results in call order. -/
def AggregationQueue.run : List QueueOp → AggregationQueue → AggregationQueue × List QueueRet
  | [], s => (s, [])
  | QueueOp.push p :: ops, s =>
    let r := s.push p
    let rs := AggregationQueue.run ops r.1
    (rs.1, QueueRet.pushed r.2 :: rs.2)
  | QueueOp.pull o :: ops, s =>
    let r := s.pull o
    let rs := AggregationQueue.run ops r.1
    (rs.1, QueueRet.pulled r.2 :: rs.2)

/-- The abstract station queue: a list of at most `capacity` frames, oldest
first, a count of refused frames, and the two addresses used by the
encapsulation. -/
structure AbstractQueue where
  capacity : Nat
  ra : EtherAddress
  ta : EtherAddress
  items : List Packet
  drops : Nat

/-- The empty abstract queue. -/
def AbstractQueue.empty (capacity : Nat) (ra ta : EtherAddress) : AbstractQueue :=
  { capacity := capacity, ra := ra, ta := ta, items := [], drops := 0 }

/-- Abstract `push`: append at the back when the list is shorter than the
capacity and return true; otherwise count a drop and return false. -/
def AbstractQueue.push (p : Packet) (a : AbstractQueue) : AbstractQueue × Bool :=
  if a.items.length < a.capacity then ({ a with items := a.items ++ [p] }, true)
  else ({ a with drops := a.drops + 1 }, false)

/-- Abstract `pull`: remove the front element and return its encapsulation; on
the empty list return no frame and leave the state unchanged. -/
def AbstractQueue.pull (o : Alloc) (a : AbstractQueue) : AbstractQueue × Outcome :=
  match a.items with
  | [] => (a, Outcome.null)
  | p :: rest =>
    ({ a with items := rest },
      AggregationQueue.wifi_encap o p a.ra (EtherAddress.ofBytes p 6) a.ta)

/-- The calls of a list made in order on an abstract queue. -/
def AbstractQueue.run : List QueueOp → AbstractQueue → AbstractQueue × List QueueRet
  | [], a => (a, [])
  | QueueOp.push p :: ops, a =>
    let r := a.push p
    let rs := AbstractQueue.run ops r.1
    (rs.1, QueueRet.pushed r.2 :: rs.2)
  | QueueOp.pull o :: ops, a =>
    let r := a.pull o
    let rs := AbstractQueue.run ops r.1
    (rs.1, QueueRet.pulled r.2 :: rs.2)

/-- The ring buffer `s` represents the abstract queue `a`. -/
structure Refines (s : AggregationQueue) (a : AbstractQueue) : Prop where
  inv : s.Inv
  items : s.frames = a.items
  capacity : s._capacity = a.capacity
  ra : s._ra = a.ra
  ta : s._ta = a.ta
  drops : s._drops = a.drops % UINT32

/-! ## Reachability with succeeding encapsulation, and the aggregate counters -/

/-- The traffic-rule queue states reachable from the constructor by `enqueue`
and `dequeue` calls in which every encapsulation succeeds; the capacity is a
`uint32_t`. -/
inductive TrafficRuleQueue.ReachableOk : TrafficRuleQueue → Prop where
  | ctor (tr : TrafficRule) (capacity quantum : Nat) (h : capacity < UINT32) :
      TrafficRuleQueue.ReachableOk (TrafficRuleQueue.ctor tr capacity quantum)
  | enqueue (p : Packet) (ra ta : EtherAddress) (t : TrafficRuleQueue)
      (h : TrafficRuleQueue.ReachableOk t) :
      TrafficRuleQueue.ReachableOk (t.enqueue p ra ta).1
  | dequeue (os : Nat → Alloc) (t : TrafficRuleQueue)
      (h : TrafficRuleQueue.ReachableOk t) (hos : ∀ n, (os n).Succeeds) :
      TrafficRuleQueue.ReachableOk (t.dequeue os).1

/-- The sum of the sizes of the station queues of a traffic-rule queue. -/
def TrafficRuleQueue.sum_sizes (t : TrafficRuleQueue) : Nat :=
  (t._queues.map (fun kv => kv.2._size)).sum

/-- The sum of the drop counters of the station queues of a traffic-rule
queue. -/
def TrafficRuleQueue.sum_drops (t : TrafficRuleQueue) : Nat :=
  (t._queues.map (fun kv => kv.2._drops)).sum

/-- Repeated `enqueue` of the same frame for the same station: `n` calls. -/
def TrafficRuleQueue.enqueueN :
    Nat → Packet → EtherAddress → EtherAddress → TrafficRuleQueue → TrafficRuleQueue
  | 0, _, _, _, t => t
  | n + 1, p, ra, ta, t => TrafficRuleQueue.enqueueN n p ra ta (t.enqueue p ra ta).1

/-! ## Histories of a traffic-rule queue -/

/-- A call of `enqueue` or `dequeue` on a traffic-rule queue. -/
inductive TrafficRuleQueue.Call where
  | enqueue (p : Packet) (ra ta : EtherAddress)
  | dequeue (os : Nat → Alloc)

/-- The state after one call. -/
def TrafficRuleQueue.call : TrafficRuleQueue.Call → TrafficRuleQueue → TrafficRuleQueue
  | TrafficRuleQueue.Call.enqueue p ra ta, t => (t.enqueue p ra ta).1
  | TrafficRuleQueue.Call.dequeue os, t => (t.dequeue os).1

/-- The state after the calls of a list, made in order. -/
def TrafficRuleQueue.run : List TrafficRuleQueue.Call → TrafficRuleQueue → TrafficRuleQueue
  | [], t => t
  | c :: cs, t => TrafficRuleQueue.run cs (t.call c)

/-- The transmitter address passed with the first `enqueue` for station `a` in
a list of calls, `none` when the list has no `enqueue` for `a`. -/
def TrafficRuleQueue.first_ta : List TrafficRuleQueue.Call → EtherAddress → Option EtherAddress
  | [], _ => none
  | TrafficRuleQueue.Call.enqueue _ ra ta :: cs, a =>
    if ra = a then some ta else TrafficRuleQueue.first_ta cs a
  | TrafficRuleQueue.Call.dequeue _ :: cs, a => TrafficRuleQueue.first_ta cs a

/-! ## The scheduler -/

/-- Click `HashTable<TrafficRule, V>::find(key)` on an association list. -/
def RuleTable.find {V : Type} : List (TrafficRule × V) → TrafficRule → Option V
  | [], _ => none
  | (k, v) :: m, a => if k = a then some v else RuleTable.find m a

/-- Click `HashTable<TrafficRule, V>::set(key, value)` on an association list. -/
def RuleTable.set {V : Type} : List (TrafficRule × V) → TrafficRule → V → List (TrafficRule × V)
  | [], a, v => [(a, v)]
  | (k, w) :: m, a, v => if k = a then (k, v) :: m else (k, w) :: RuleTable.set m a v

theorem mod_offset_inj {c h i j : Nat} (hi : i < c) (hj : j < c)
    (e : (h + i) % c = (h + j) % c) : i = j := by
  have h1 : i % c = j % c := Nat.ModEq.add_left_cancel' h e
  rwa [Nat.mod_eq_of_lt hi, Nat.mod_eq_of_lt hj] at h1

theorem list_length_six {l : List Nat} (h : l.length = 6) :
    ∃ a b c d e f, l = [a, b, c, d, e, f] := by
  rcases l with _ | ⟨a, _ | ⟨b, _ | ⟨c, _ | ⟨d, _ | ⟨e, _ | ⟨f, _ | ⟨g, l⟩⟩⟩⟩⟩⟩⟩ <;>
    simp at h
  exact ⟨a, b, c, d, e, f, rfl⟩

theorem list_length_two {l : List Nat} (h : l.length = 2) : ∃ a b, l = [a, b] := by
  rcases l with _ | ⟨a, _ | ⟨b, _ | ⟨c, l⟩⟩⟩ <;> simp at h
  exact ⟨a, b, rfl⟩

theorem exists_first_split {α : Type} (P : α → Bool) (l : List α)
    (h : ∃ a, a ∈ l ∧ P a = true) :
    ∃ pre a post, l = pre ++ a :: post ∧ P a = true ∧ ∀ b, b ∈ pre → P b = false := by
  induction l with
  | nil => simp at h
  | cons x xs ih =>
    by_cases hx : P x = true
    · exact ⟨[], x, xs, rfl, hx, by simp⟩
    · have hx' : P x = false := by simpa using hx
      have h2 : ∃ a, a ∈ xs ∧ P a = true := by
        obtain ⟨a, ha, hp⟩ := h
        rcases List.mem_cons.mp ha with rfl | ha'
        · exact absurd hp hx
        · exact ⟨a, ha', hp⟩
      obtain ⟨pre, a, post, e, hp, hpre⟩ := ih h2
      refine ⟨x :: pre, a, post, by simp [e], hp, ?_⟩
      intro b hb
      rcases List.mem_cons.mp hb with rfl | hb'
      · exact hx'
      · exact hpre b hb'

/-! ## The encapsulation -/

theorem wifi_encap_layout (o : Alloc) (ho : o.Succeeds) (p : Packet) (hp : 14 ≤ p.length)
    (ra sa ta : EtherAddress) :
    AggregationQueue.wifi_encap o p ra sa ta =
      Outcome.frame ([WIFI_FC0_VERSION_0 ||| WIFI_FC0_TYPE_DATA, WIFI_FC1_DIR_FROMDS, 0, 0]
        ++ ra.data ++ ta.data ++ sa.data ++ [0, 0]
        ++ WIFI_LLC_HEADER ++ readBytes p 12 2 ++ p.drop 14) := by
  obtain ⟨hu, hl, hw⟩ := ho
  obtain ⟨f, hf⟩ := Option.isSome_iff_exists.mp hl
  obtain ⟨g, hg⟩ := Option.isSome_iff_exists.mp hw
  have h2 : (readBytes p 12 2).length = 2 := by
    simp [readBytes, List.length_take, List.length_drop]; omega
  obtain ⟨e0, e1, he⟩ := list_length_two h2
  simp [AggregationQueue.wifi_encap, hu, hf, hg, he, Packet.push, Packet.pull, memcpy, memset,
    SIZEOF_CLICK_LLC, SIZEOF_CLICK_ETHER, SIZEOF_CLICK_WIFI, WIFI_LLC_HEADER, OFF_I_FC,
    OFF_I_ADDR1, OFF_I_ADDR2, OFF_I_ADDR3, WIFI_FC0_VERSION_0, WIFI_FC0_TYPE_DATA,
    WIFI_FC1_DIR_MASK, WIFI_FC1_DIR_FROMDS, EtherAddress.data, List.range_succ]
  decide

theorem wifi_encap_is_frame (o : Alloc) (ho : o.Succeeds) (p : Packet)
    (ra sa ta : EtherAddress) :
    ∃ f, AggregationQueue.wifi_encap o p ra sa ta = Outcome.frame f := by
  obtain ⟨hu, hl, hw⟩ := ho
  obtain ⟨f, hf⟩ := Option.isSome_iff_exists.mp hl
  obtain ⟨g, hg⟩ := Option.isSome_iff_exists.mp hw
  simp [AggregationQueue.wifi_encap, hu, hf, hg, Packet.push]

/-! ## The ring buffer -/

theorem slot_set_ne {s s' : AggregationQueue} {i j : Nat} {v : Option Packet}
    (hq : s'._q = s._q.set i v) (h : i ≠ j) : s'.slot j = s.slot j := by
  simp [AggregationQueue.slot, hq, List.getElem?_set_ne h]

theorem slot_set_eq {s s' : AggregationQueue} {i : Nat} {v : Option Packet}
    (hq : s'._q = s._q.set i v) (h : i < s._q.length) : s'.slot i = v := by
  simp [AggregationQueue.slot, hq, h]

theorem aq_inv_ctor (c : Nat) (ra ta : EtherAddress) (h : c < UINT32) :
    (AggregationQueue.ctor c ra ta).Inv where
  cap_lt := h
  len := by simp [AggregationQueue.ctor]
  size_le := by simp [AggregationQueue.ctor]
  head_lt := by intro h0; simpa [AggregationQueue.ctor] using h0
  tail_eq := by simp [AggregationQueue.ctor]
  full := by intro i hi; simp [AggregationQueue.ctor] at hi

theorem push_full (p : Packet) (s : AggregationQueue) (h : s._size = s._capacity) :
    s.push p = ({ s with _drops := (s._drops + 1) % UINT32 }, false) := by
  simp [AggregationQueue.push, h]

theorem push_room (p : Packet) (s : AggregationQueue) (hi : s.Inv)
    (h : s._size < s._capacity) :
    s.push p = ({ s with
        _q := s._q.set s._tail (some p)
        _tail := (s._tail + 1) % s._capacity
        _size := s._size + 1 }, true) := by
  have hc := hi.cap_lt
  have ht : s._tail < s._capacity := by
    rw [hi.tail_eq]; exact Nat.mod_lt _ (by omega)
  have h1 : (s._tail + 1) % UINT32 = s._tail + 1 := Nat.mod_eq_of_lt (by omega)
  have h2 : (s._size + 1) % UINT32 = s._size + 1 := Nat.mod_eq_of_lt (by omega)
  have hne : s._size ≠ s._capacity := by omega
  simp [AggregationQueue.push, hne, h1, h2]

theorem pull_empty (o : Alloc) (s : AggregationQueue) (h : s._size = 0) :
    s.pull o = (s, Outcome.null) := by
  simp [AggregationQueue.pull, h]

theorem pull_some (o : Alloc) (s : AggregationQueue) (hi : s.Inv) (h : 0 < s._size) :
    ∃ p, s.slot s._head = some p ∧
      s.pull o = ({ s with
          _q := s._q.set s._head none
          _head := (s._head + 1) % s._capacity
          _size := s._size - 1 },
        AggregationQueue.wifi_encap o p s._ra (EtherAddress.ofBytes p 6) s._ta) := by
  have hc := hi.cap_lt
  have hs := hi.size_le
  have hh : s._head < s._capacity := hi.head_lt (by omega)
  have h1 : (s._head + 1) % UINT32 = s._head + 1 := Nat.mod_eq_of_lt (by omega)
  have hf := hi.full 0 h
  rw [Nat.add_zero, Nat.mod_eq_of_lt hh] at hf
  obtain ⟨p, hp⟩ := Option.isSome_iff_exists.mp hf
  exact ⟨p, hp, by simp [AggregationQueue.pull, h, h1, hp]⟩

theorem aq_inv_push (p : Packet) (s : AggregationQueue) (hi : s.Inv) :
    (s.push p).1.Inv := by
  by_cases h : s._size = s._capacity
  · rw [push_full p s h]
    exact ⟨hi.cap_lt, hi.len, hi.size_le, hi.head_lt, hi.tail_eq, hi.full⟩
  · have hlt : s._size < s._capacity := lt_of_le_of_ne hi.size_le h
    have hc : 0 < s._capacity := by omega
    have ht : s._tail < s._capacity := by rw [hi.tail_eq]; exact Nat.mod_lt _ hc
    rw [push_room p s hi hlt]
    refine ⟨hi.cap_lt, ?_, ?_, hi.head_lt, ?_, ?_⟩
    · simp [hi.len]
    · show s._size + 1 ≤ s._capacity
      omega
    · show (s._tail + 1) % s._capacity = (s._head + (s._size + 1)) % s._capacity
      rw [hi.tail_eq, Nat.mod_add_mod, Nat.add_assoc]
    · intro i hi'
      have hi2 : i < s._size + 1 := hi'
      by_cases e : i = s._size
      · subst e
        have : (s._head + s._size) % s._capacity = s._tail := hi.tail_eq.symm
        have key : ∀ s' : AggregationQueue, s'._q = s._q.set s._tail (some p) →
            (s'.slot ((s._head + s._size) % s._capacity)).isSome = true := by
          intro s' hq
          rw [this, slot_set_eq hq (by rw [hi.len]; exact ht)]
          rfl
        exact key _ rfl
      · have hlt' : i < s._size := by omega
        have hne : s._tail ≠ (s._head + i) % s._capacity := by
          rw [hi.tail_eq]
          intro e'
          exact e (mod_offset_inj (by omega) (by omega) e').symm
        have key : ∀ s' : AggregationQueue, s'._q = s._q.set s._tail (some p) →
            (s'.slot ((s._head + i) % s._capacity)).isSome = true := by
          intro s' hq
          rw [slot_set_ne hq hne]
          exact hi.full i hlt'
        exact key _ rfl

theorem aq_inv_pull (o : Alloc) (s : AggregationQueue) (hi : s.Inv) :
    (s.pull o).1.Inv := by
  by_cases h : s._size = 0
  · rw [pull_empty o s h]; exact hi
  · have hpos : 0 < s._size := Nat.pos_of_ne_zero h
    have hs := hi.size_le
    have hc : 0 < s._capacity := by omega
    have hh : s._head < s._capacity := hi.head_lt hc
    obtain ⟨p, hp, e⟩ := pull_some o s hi hpos
    rw [e]
    refine ⟨hi.cap_lt, ?_, ?_, ?_, ?_, ?_⟩
    · simp [hi.len]
    · show s._size - 1 ≤ s._capacity
      omega
    · intro _
      exact Nat.mod_lt _ hc
    · show s._tail = ((s._head + 1) % s._capacity + (s._size - 1)) % s._capacity
      rw [hi.tail_eq, Nat.mod_add_mod]
      congr 1
      omega
    · intro i hi'
      have hi2 : i < s._size - 1 := hi'
      have hidx : ((s._head + 1) % s._capacity + i) % s._capacity
          = (s._head + (i + 1)) % s._capacity := by
        rw [Nat.mod_add_mod]; congr 1; omega
      have hne : s._head ≠ (s._head + (i + 1)) % s._capacity := by
        intro e'
        have e2 : (s._head + (i + 1)) % s._capacity = (s._head + 0) % s._capacity := by
          simpa [Nat.mod_eq_of_lt hh] using e'.symm
        have := mod_offset_inj (by omega) hc e2
        omega
      have key : ∀ s' : AggregationQueue, s'._q = s._q.set s._head none →
          (s'.slot (((s._head + 1) % s._capacity + i) % s._capacity)).isSome = true := by
        intro s' hq
        rw [hidx, slot_set_ne hq hne]
        exact hi.full (i + 1) (by omega)
      exact key _ rfl

theorem aq_reachable_inv {s : AggregationQueue} (h : s.Reachable) : s.Inv := by
  induction h with
  | ctor c ra ta h => exact aq_inv_ctor c ra ta h
  | push p s _ ih => exact aq_inv_push p s ih
  | pull o s _ ih => exact aq_inv_pull o s ih
  | top s _ ih =>
    have : s.top.1 = s := by
      unfold AggregationQueue.top
      split <;> rfl
    rw [this]; exact ih

theorem filterMap_length_of_isSome {α β : Type} (f : α → Option β) (l : List α)
    (h : ∀ x, x ∈ l → (f x).isSome = true) : (l.filterMap f).length = l.length := by
  induction l with
  | nil => rfl
  | cons x xs ih =>
    obtain ⟨y, hy⟩ := Option.isSome_iff_exists.mp (h x (List.mem_cons_self x xs))
    rw [List.filterMap_cons_some hy, List.length_cons, List.length_cons,
      ih (fun z hz => h z (List.mem_cons_of_mem x hz))]

theorem frames_ctor (c : Nat) (ra ta : EtherAddress) :
    (AggregationQueue.ctor c ra ta).frames = [] := by
  simp [AggregationQueue.frames, AggregationQueue.ctor]

theorem frames_length (s : AggregationQueue) (hi : s.Inv) : s.frames.length = s._size := by
  unfold AggregationQueue.frames
  rw [filterMap_length_of_isSome, List.length_range]
  intro i hi'
  exact hi.full i (List.mem_range.mp hi')

theorem frames_push_full (p : Packet) (s : AggregationQueue) (h : s._size = s._capacity) :
    (s.push p).1.frames = s.frames := by
  rw [push_full p s h]
  rfl

theorem frames_push_room (p : Packet) (s : AggregationQueue) (hi : s.Inv)
    (h : s._size < s._capacity) : (s.push p).1.frames = s.frames ++ [p] := by
  have hc : 0 < s._capacity := by omega
  have ht : s._tail < s._capacity := by rw [hi.tail_eq]; exact Nat.mod_lt _ hc
  rw [push_room p s hi h]
  have key : ∀ s' : AggregationQueue, s'._q = s._q.set s._tail (some p) →
      s'._size = s._size + 1 → s'._head = s._head → s'._capacity = s._capacity →
      s'.frames = s.frames ++ [p] := by
    intro s' hq hsz hhd hcap
    unfold AggregationQueue.frames
    rw [hsz, hhd, hcap, List.range_succ, List.filterMap_append]
    congr 1
    · apply List.filterMap_congr
      intro i hi'
      have hlt : i < s._size := List.mem_range.mp hi'
      have hne : s._tail ≠ (s._head + i) % s._capacity := by
        rw [hi.tail_eq]
        intro e'
        have := mod_offset_inj (by omega) (by omega) e'
        omega
      exact slot_set_ne hq hne
    · have e : s'.slot ((s._head + s._size) % s._capacity) = some p := by
        rw [← hi.tail_eq]
        exact slot_set_eq hq (by rw [hi.len]; exact ht)
      simp [e]
  exact key _ rfl rfl rfl rfl

theorem frames_pull_empty (o : Alloc) (s : AggregationQueue) (h : s._size = 0) :
    (s.pull o).1.frames = s.frames := by
  rw [pull_empty o s h]

theorem frames_pull_some (o : Alloc) (s : AggregationQueue) (hi : s.Inv) (h : 0 < s._size) :
    ∃ p, s.slot s._head = some p ∧ s.frames = p :: (s.pull o).1.frames ∧
      (s.pull o).2 = AggregationQueue.wifi_encap o p s._ra (EtherAddress.ofBytes p 6) s._ta := by
  have hs := hi.size_le
  have hc : 0 < s._capacity := by omega
  have hh : s._head < s._capacity := hi.head_lt hc
  obtain ⟨p, hp, e⟩ := pull_some o s hi h
  refine ⟨p, hp, ?_, by rw [e]⟩
  rw [e]
  have key : ∀ s' : AggregationQueue, s'._q = s._q.set s._head none →
      s'._size = s._size - 1 → s'._head = (s._head + 1) % s._capacity →
      s'._capacity = s._capacity → s.frames = p :: s'.frames := by
    intro s' hq hsz hhd hcap
    unfold AggregationQueue.frames
    rw [hsz, hhd, hcap]
    obtain ⟨n, hn⟩ : ∃ n, s._size = n + 1 := ⟨s._size - 1, by omega⟩
    rw [hn, List.range_succ_eq_map, List.filterMap_cons_some
      (by rw [Nat.add_zero, Nat.mod_eq_of_lt hh]; exact hp), List.filterMap_map]
    congr 1
    apply List.filterMap_congr
    intro i hi'
    have hlt : i < n := by simpa using List.mem_range.mp hi'
    have hidx : ((s._head + 1) % s._capacity + i) % s._capacity
        = (s._head + (i + 1)) % s._capacity := by
      rw [Nat.mod_add_mod]; congr 1; omega
    have hne : s._head ≠ (s._head + (i + 1)) % s._capacity := by
      intro e'
      have e2 : (s._head + (i + 1)) % s._capacity = (s._head + 0) % s._capacity := by
        simpa [Nat.mod_eq_of_lt hh] using e'.symm
      have := mod_offset_inj (by omega) hc e2
      omega
    show s.slot ((s._head + Nat.succ i) % s._capacity) = _
    rw [hidx, slot_set_ne hq hne]
  exact key _ rfl rfl rfl rfl

theorem push_fields (p : Packet) (s : AggregationQueue) :
    (s.push p).1._ra = s._ra ∧ (s.push p).1._ta = s._ta ∧
      (s.push p).1._capacity = s._capacity := by
  unfold AggregationQueue.push
  split <;> exact ⟨rfl, rfl, rfl⟩

theorem pull_fields (o : Alloc) (s : AggregationQueue) :
    (s.pull o).1._ra = s._ra ∧ (s.pull o).1._ta = s._ta ∧
      (s.pull o).1._capacity = s._capacity ∧ (s.pull o).1._drops = s._drops := by
  unfold AggregationQueue.pull
  by_cases h : 0 < s._size
  · simp only [h, if_true]
    split <;> simp
  · simp only [h, if_false]
    simp

theorem ofBytes_data (p : Packet) (hp : 12 ≤ p.length) :
    (EtherAddress.ofBytes p 6).data = readBytes p 6 6 := by
  have h6 : (readBytes p 6 6).length = 6 := by
    simp [readBytes, List.length_take, List.length_drop]; omega
  obtain ⟨a, b, c, d, e, f, h⟩ := list_length_six h6
  have key : ∀ i, i < 6 → p.getD (6 + i) 0 = (readBytes p 6 6).getD i 0 := by
    intro i hi
    simp [readBytes, List.getD_eq_getElem?_getD, List.getElem?_take, hi, List.getElem?_drop]
  have k0 := key 0 (by omega)
  have k1 := key 1 (by omega)
  have k2 := key 2 (by omega)
  have k3 := key 3 (by omega)
  have k4 := key 4 (by omega)
  have k5 := key 5 (by omega)
  rw [h] at k0 k1 k2 k3 k4 k5
  simp at k0 k1 k2 k3 k4 k5
  rw [h]
  simp [EtherAddress.ofBytes, EtherAddress.data, k0, k1, k2, k3, k4, k5]

theorem pushAll_room (ps : List Packet) (s : AggregationQueue) (hi : s.Inv)
    (h : s._size + ps.length ≤ s._capacity) :
    (AggregationQueue.pushAll ps s).1.Inv ∧
      (AggregationQueue.pushAll ps s).1.frames = s.frames ++ ps ∧
      (AggregationQueue.pushAll ps s).2 = List.replicate ps.length true ∧
      (AggregationQueue.pushAll ps s).1._ra = s._ra ∧
      (AggregationQueue.pushAll ps s).1._ta = s._ta := by
  induction ps generalizing s with
  | nil => simp [AggregationQueue.pushAll, hi]
  | cons p ps ih =>
    have hlt : s._size < s._capacity := by simp at h; omega
    have e := push_room p s hi hlt
    have hi1 := aq_inv_push p s hi
    have hsz : (s.push p).1._size = s._size + 1 := by rw [e]
    have hcap := (push_fields p s).2.2
    obtain ⟨i2, f2, r2, ra2, ta2⟩ := ih (s.push p).1 hi1 (by
      rw [hsz, hcap]; simp at h; omega)
    refine ⟨i2, ?_, ?_, ?_, ?_⟩
    · show (AggregationQueue.pushAll ps (s.push p).1).1.frames = _
      rw [f2, frames_push_room p s hi hlt]; simp
    · show (s.push p).2 :: (AggregationQueue.pushAll ps (s.push p).1).2 = _
      rw [r2, e]; rfl
    · show (AggregationQueue.pushAll ps (s.push p).1).1._ra = _
      rw [ra2, (push_fields p s).1]
    · show (AggregationQueue.pushAll ps (s.push p).1).1._ta = _
      rw [ta2, (push_fields p s).2.1]

theorem pullAll_results (os : List Alloc) (s : AggregationQueue) (hi : s.Inv) :
    (AggregationQueue.pullAll os s).2 =
      List.zipWith
        (fun o p => AggregationQueue.wifi_encap o p s._ra (EtherAddress.ofBytes p 6) s._ta)
        os s.frames
      ++ List.replicate (os.length - s.frames.length) Outcome.null := by
  induction os generalizing s with
  | nil => simp [AggregationQueue.pullAll]
  | cons o os ih =>
    have hi1 := aq_inv_pull o s hi
    have hf := pull_fields o s
    show (s.pull o).2 :: (AggregationQueue.pullAll os (s.pull o).1).2 = _
    rw [ih (s.pull o).1 hi1, hf.1, hf.2.1]
    by_cases h : s._size = 0
    · have hfr : s.frames = [] := by
        apply List.eq_nil_of_length_eq_zero
        rw [frames_length s hi, h]
      rw [frames_pull_empty o s h, hfr, pull_empty o s h]
      simp [List.replicate_succ]
    · obtain ⟨p, _, hfr, hr⟩ := frames_pull_some o s hi (Nat.pos_of_ne_zero h)
      rw [hfr, hr]
      simp

/-! ## The station table -/

theorem find_set_self (m : AggregationQueues) (a : EtherAddress) (v : AggregationQueue) :
    HashTable.find (HashTable.set m a v) a = some v := by
  induction m with
  | nil => simp [HashTable.set, HashTable.find]
  | cons x m ih =>
    obtain ⟨k, w⟩ := x
    by_cases h : k = a
    · simp [HashTable.set, HashTable.find, h]
    · simp [HashTable.set, HashTable.find, h, ih]

theorem find_set_ne (m : AggregationQueues) (a b : EtherAddress) (v : AggregationQueue)
    (hab : a ≠ b) : HashTable.find (HashTable.set m a v) b = HashTable.find m b := by
  induction m with
  | nil => simp [HashTable.set, HashTable.find, hab]
  | cons x m ih =>
    obtain ⟨k, w⟩ := x
    by_cases h : k = a
    · subst h
      simp [HashTable.set, HashTable.find, hab]
    · by_cases h2 : k = b
      · subst h2
        simp [HashTable.set, HashTable.find, h]
      · simp [HashTable.set, HashTable.find, h, h2, ih]

theorem find_set (m : AggregationQueues) (a b : EtherAddress) (v : AggregationQueue) :
    HashTable.find (HashTable.set m a v) b = if b = a then some v else HashTable.find m b := by
  by_cases h : b = a
  · subst h; simp [find_set_self]
  · simp [h, find_set_ne m a b v (Ne.symm h)]

theorem set_find_self (m : AggregationQueues) (a : EtherAddress) (v : AggregationQueue)
    (h : HashTable.find m a = some v) : HashTable.set m a v = m := by
  induction m with
  | nil => simp [HashTable.find] at h
  | cons x m ih =>
    obtain ⟨k, w⟩ := x
    by_cases hk : k = a
    · simp [HashTable.find, hk] at h
      simp [HashTable.set, hk, h]
    · simp [HashTable.find, hk] at h
      simp [HashTable.set, hk, ih h]

theorem set_set (m : AggregationQueues) (a : EtherAddress) (v w : AggregationQueue) :
    HashTable.set (HashTable.set m a v) a w = HashTable.set m a w := by
  induction m with
  | nil => simp [HashTable.set]
  | cons x m ih =>
    obtain ⟨k, u⟩ := x
    by_cases hk : k = a
    · simp [HashTable.set, hk]
    · simp [HashTable.set, hk, ih]

/-! ## Enqueue -/

/-- The station queue that `enqueue` pushes to: the one stored for the station,
or the newly constructed one. -/
theorem enqueue_eq (p : Packet) (ra ta : EtherAddress) (t : TrafficRuleQueue)
    (queue : AggregationQueue)
    (hq : queue = (HashTable.find t._queues ra).getD (AggregationQueue.ctor t._capacity ra ta))
    (hl : ra ∈ t._active_list → (HashTable.find t._queues ra).isSome = true) :
    t.enqueue p ra ta =
      if (queue.push p).2 = true then
        ({ t with
            _queues := HashTable.set t._queues ra (queue.push p).1
            _active_list :=
              if ra ∈ t._active_list then t._active_list else t._active_list ++ [ra]
            _size := (t._size + 1) % UINT32 }, true)
      else
        ({ t with
            _queues := HashTable.set t._queues ra (queue.push p).1
            _active_list :=
              if (HashTable.find t._queues ra).isSome = true then t._active_list
              else t._active_list ++ [ra]
            _drops := (t._drops + 1) % UINT32 }, false) := by
  subst hq
  unfold TrafficRuleQueue.enqueue
  cases hf : HashTable.find t._queues ra with
  | none =>
    simp only [Option.getD_none, set_set]
    have hm : ra ∉ t._active_list := by
      intro hm
      have := hl hm
      simp [hf] at this
    by_cases hp : ((AggregationQueue.ctor t._capacity ra ta).push p).2 = true
    · simp [hp, hm]
    · simp [hp]
  | some q =>
    simp only [Option.getD_some]
    by_cases hp : (q.push p).2 = true
    · by_cases hm : ra ∈ t._active_list <;> simp [hp, hm]
    · simp [hp]

theorem qinv_set (t t' : TrafficRuleQueue) (h : t.QInv) (a : EtherAddress)
    (q : AggregationQueue) (hq : q.Inv ∧ q._ra = a ∧ q._capacity = t._capacity)
    (hqs : t'._queues = HashTable.set t._queues a q) (hcap : t'._capacity = t._capacity) :
    t'.QInv := by
  refine ⟨by rw [hcap]; exact h.cap_lt, ?_⟩
  intro b qb hb
  rw [hqs, find_set] at hb
  rw [hcap]
  by_cases e : b = a
  · simp [e] at hb
    subst hb
    rw [e]; exact hq
  · simp [e] at hb
    exact h.queues b qb hb

theorem enqueue_queue_inv (ra ta : EtherAddress) (t : TrafficRuleQueue) (h : t.QInv) :
    ((HashTable.find t._queues ra).getD (AggregationQueue.ctor t._capacity ra ta)).Inv ∧
    ((HashTable.find t._queues ra).getD (AggregationQueue.ctor t._capacity ra ta))._ra = ra ∧
    ((HashTable.find t._queues ra).getD (AggregationQueue.ctor t._capacity ra ta))._capacity
      = t._capacity := by
  cases hf : HashTable.find t._queues ra with
  | none =>
    exact ⟨aq_inv_ctor _ _ _ h.cap_lt, rfl, rfl⟩
  | some q => exact h.queues ra q hf

theorem trq_inv_enqueue (p : Packet) (ra ta : EtherAddress)
    (t : TrafficRuleQueue) (h : t.Inv) : (t.enqueue p ra ta).1.Inv := by
  obtain ⟨qi, qra, qcap⟩ := enqueue_queue_inv ra ta t h.qinv
  have hq' : ((((HashTable.find t._queues ra).getD
      (AggregationQueue.ctor t._capacity ra ta)).push p).1).Inv ∧
      ((((HashTable.find t._queues ra).getD
      (AggregationQueue.ctor t._capacity ra ta)).push p).1)._ra = ra ∧
      ((((HashTable.find t._queues ra).getD
      (AggregationQueue.ctor t._capacity ra ta)).push p).1)._capacity = t._capacity := by
    refine ⟨aq_inv_push p _ qi, ?_, ?_⟩
    · rw [(push_fields p _).1, qra]
    · rw [(push_fields p _).2.2, qcap]
  rw [enqueue_eq p ra ta t _ rfl (h.listed ra)]
  have hlisted : ∀ (q' : AggregationQueue) (l : List EtherAddress),
      (∀ a, a ∈ l → a ∈ t._active_list ∨ a = ra) →
      ∀ a, a ∈ l → (HashTable.find (HashTable.set t._queues ra q') a).isSome = true := by
    intro q' l hl a ha
    rw [find_set]
    by_cases e : a = ra
    · simp [e]
    · simp only [e, if_false]
      rcases hl a ha with h1 | h1
      · exact h.listed a h1
      · exact absurd h1 e
  split
  · refine ⟨qinv_set t _ h.qinv ra _ hq' rfl rfl, ?_, ?_⟩
    · show (if ra ∈ t._active_list then t._active_list else t._active_list ++ [ra]).Nodup
      by_cases hm : ra ∈ t._active_list
      · simp only [hm, if_true]; exact h.nodup
      · simp only [hm, if_false]
        exact List.nodup_append.mpr ⟨h.nodup, List.nodup_singleton ra, by simpa using hm⟩
    · apply hlisted
      intro a ha
      by_cases hm : ra ∈ t._active_list
      · simp only [hm, if_true] at ha; exact Or.inl ha
      · simp only [hm, if_false] at ha
        rcases List.mem_append.mp ha with h1 | h1
        · exact Or.inl h1
        · exact Or.inr (by simpa using h1)
  · refine ⟨qinv_set t _ h.qinv ra _ hq' rfl rfl, ?_, ?_⟩
    · show (if (HashTable.find t._queues ra).isSome = true then t._active_list
        else t._active_list ++ [ra]).Nodup
      by_cases hs : (HashTable.find t._queues ra).isSome = true
      · simp only [hs, if_true]; exact h.nodup
      · simp only [hs, if_false]
        have hm : ra ∉ t._active_list := fun hm => hs (h.listed ra hm)
        exact List.nodup_append.mpr ⟨h.nodup, List.nodup_singleton ra, by simpa using hm⟩
    · apply hlisted
      intro a ha
      by_cases hs : (HashTable.find t._queues ra).isSome = true
      · simp only [hs, if_true] at ha; exact Or.inl ha
      · simp only [hs, if_false] at ha
        rcases List.mem_append.mp ha with h1 | h1
        · exact Or.inl h1
        · exact Or.inr (by simpa using h1)

/-! ## Dequeue -/

theorem dequeueFrom_list_irrelevant (al x : List EtherAddress) (os : Nat → Alloc)
    (t : TrafficRuleQueue) :
    TrafficRuleQueue.dequeueFrom al os { t with _active_list := x }
      = TrafficRuleQueue.dequeueFrom al os t := by
  cases al with
  | nil => rfl
  | cons a rest => rfl

theorem trq_inv_dequeueFrom (al : List EtherAddress) (os : Nat → Alloc)
    (t : TrafficRuleQueue) (hq : t.QInv) (hn : al.Nodup)
    (hl : ∀ a, a ∈ al → (HashTable.find t._queues a).isSome = true) :
    (TrafficRuleQueue.dequeueFrom al os t).1.Inv := by
  induction al generalizing os t with
  | nil =>
    exact ⟨⟨hq.cap_lt, hq.queues⟩, List.nodup_nil,
      fun a ha => absurd ha (List.not_mem_nil a)⟩
  | cons ra rest ih =>
    have hrest : rest.Nodup := (List.nodup_cons.mp hn).2
    have hra : ra ∉ rest := (List.nodup_cons.mp hn).1
    obtain ⟨queue, hf⟩ := Option.isSome_iff_exists.mp (hl ra (List.mem_cons_self ra rest))
    obtain ⟨qi, qra, qcap⟩ := hq.queues ra queue hf
    have hpf := pull_fields (os 0) queue
    have hq1 : ∀ t1 : TrafficRuleQueue,
        t1._queues = HashTable.set t._queues ra (queue.pull (os 0)).1 →
        t1._capacity = t._capacity → t1.QInv := by
      intro t1 e1 e2
      exact qinv_set t t1 hq ra _
        ⟨aq_inv_pull _ _ qi, by rw [hpf.1, qra], by rw [hpf.2.2.1, qcap]⟩ e1 e2
    have hl1 : ∀ a, a ∈ ra :: rest →
        (HashTable.find (HashTable.set t._queues ra (queue.pull (os 0)).1) a).isSome = true := by
      intro a ha
      rw [find_set]
      by_cases e : a = ra
      · simp [e]
      · simp only [e, if_false]; exact hl a ha
    unfold TrafficRuleQueue.dequeueFrom
    simp only [hf]
    cases hr : (queue.pull (os 0)).2 with
    | frame f =>
      simp only []
      refine ⟨hq1 _ rfl rfl, ?_, ?_⟩
      · show (rest ++ [ra]).Nodup
        exact List.nodup_append.mpr ⟨hrest, List.nodup_singleton ra, by simpa using hra⟩
      · intro a ha
        have ha' : a ∈ rest ++ [ra] := ha
        apply hl1
        rcases List.mem_append.mp ha' with h1 | h1
        · exact List.mem_cons_of_mem ra h1
        · have : a = ra := by simpa using h1
          rw [this]; exact List.mem_cons_self ra rest
    | null =>
      simp only []
      exact ih _ _ (hq1 _ rfl rfl) hrest
        (fun a ha => hl1 a (List.mem_cons_of_mem ra ha))
    | fault =>
      simp only []
      refine ⟨hq1 _ rfl rfl, hrest, ?_⟩
      intro a ha
      exact hl1 a (List.mem_cons_of_mem ra ha)

theorem trq_inv_ctor (tr : TrafficRule) (c quantum : Nat) (h : c < UINT32) :
    (TrafficRuleQueue.ctor tr c quantum).Inv := by
  refine ⟨⟨h, ?_⟩, List.nodup_nil, ?_⟩
  · intro a q hf
    simp [TrafficRuleQueue.ctor, HashTable.find] at hf
  · intro a ha
    simp [TrafficRuleQueue.ctor] at ha

theorem trq_inv_dequeue (os : Nat → Alloc) (t : TrafficRuleQueue) (h : t.Inv) :
    (t.dequeue os).1.Inv :=
  trq_inv_dequeueFrom t._active_list os t h.qinv h.nodup h.listed

theorem trq_reachable_inv {t : TrafficRuleQueue} (h : t.Reachable) : t.Inv := by
  induction h with
  | ctor tr c quantum h => exact trq_inv_ctor tr c quantum h
  | enqueue p ra ta t _ ih => exact trq_inv_enqueue p ra ta t ih
  | dequeue os t _ ih => exact trq_inv_dequeue os t ih

theorem pending_false_size (t : TrafficRuleQueue) (a : EtherAddress) (q : AggregationQueue)
    (hf : HashTable.find t._queues a = some q) (hp : t.pending a = false) : q._size = 0 := by
  simp [TrafficRuleQueue.pending, hf] at hp
  exact hp

theorem pending_true_size (t : TrafficRuleQueue) (a : EtherAddress)
    (hp : t.pending a = true) :
    ∃ q, HashTable.find t._queues a = some q ∧ 0 < q._size := by
  unfold TrafficRuleQueue.pending at hp
  cases hf : HashTable.find t._queues a with
  | none => simp [hf] at hp
  | some q =>
    simp [hf] at hp
    exact ⟨q, rfl, hp⟩

/-- One step of `dequeue` over a listed station whose queue is empty: the
station is dropped from the rotation and the call retries. -/
theorem dequeueFrom_skip (b : EtherAddress) (rest : List EtherAddress) (os : Nat → Alloc)
    (t : TrafficRuleQueue) (hs : (HashTable.find t._queues b).isSome = true)
    (hp : t.pending b = false) :
    TrafficRuleQueue.dequeueFrom (b :: rest) os t
      = TrafficRuleQueue.dequeueFrom rest (fun n => os (n + 1)) t := by
  obtain ⟨qb, hf⟩ := Option.isSome_iff_exists.mp hs
  have h0 := pending_false_size t b qb hf hp
  rw [← dequeueFrom_list_irrelevant rest rest (fun n => os (n + 1)) t]
  conv_lhs => unfold TrafficRuleQueue.dequeueFrom
  simp only [hf, pull_empty (os 0) qb h0, set_find_self _ _ _ hf]

theorem dequeueFrom_none (al : List EtherAddress) (os : Nat → Alloc) (t : TrafficRuleQueue)
    (hl : ∀ b, b ∈ al → (HashTable.find t._queues b).isSome = true)
    (hp : ∀ b, b ∈ al → t.pending b = false) :
    TrafficRuleQueue.dequeueFrom al os t = ({ t with _active_list := [] }, Outcome.null) := by
  induction al generalizing os with
  | nil => rfl
  | cons b rest ih =>
    rw [dequeueFrom_skip b rest os t (hl b (List.mem_cons_self b rest))
      (hp b (List.mem_cons_self b rest))]
    exact ih _ (fun c hc => hl c (List.mem_cons_of_mem b hc))
      (fun c hc => hp c (List.mem_cons_of_mem b hc))

theorem dequeueFrom_some (pre : List EtherAddress) (a : EtherAddress)
    (post : List EtherAddress) (os : Nat → Alloc) (t : TrafficRuleQueue)
    (q : AggregationQueue) (hq : t.QInv)
    (hl : ∀ b, b ∈ pre → (HashTable.find t._queues b).isSome = true)
    (hp : ∀ b, b ∈ pre → t.pending b = false)
    (hfa : HashTable.find t._queues a = some q) (hsz : 0 < q._size)
    (ho : (os pre.length).Succeeds) :
    ∃ p f, q.frames = p :: (q.pull (os pre.length)).1.frames ∧
      AggregationQueue.wifi_encap (os pre.length) p q._ra (EtherAddress.ofBytes p 6) q._ta
        = Outcome.frame f ∧
      TrafficRuleQueue.dequeueFrom (pre ++ a :: post) os t =
        ({ t with
            _queues := HashTable.set t._queues a (q.pull (os pre.length)).1
            _active_list := post ++ [a]
            _size := (t._size + UINT32 - 1) % UINT32 },
          Outcome.frame f) := by
  induction pre generalizing os with
  | nil =>
    obtain ⟨p, _, hfr, hr⟩ := frames_pull_some (os 0) q (hq.queues a q hfa).1 hsz
    obtain ⟨f, hf⟩ := wifi_encap_is_frame (os 0) ho p q._ra (EtherAddress.ofBytes p 6) q._ta
    refine ⟨p, f, hfr, hf, ?_⟩
    rw [hf] at hr
    show TrafficRuleQueue.dequeueFrom (a :: post) os t = _
    conv_lhs => unfold TrafficRuleQueue.dequeueFrom
    simp only [hfa, hr]
    rfl
  | cons b pre ih =>
    show ∃ p f, _ ∧ _ ∧ TrafficRuleQueue.dequeueFrom (b :: (pre ++ a :: post)) os t = _
    rw [dequeueFrom_skip b _ os t (hl b (List.mem_cons_self b pre))
      (hp b (List.mem_cons_self b pre))]
    exact ih (fun n => os (n + 1)) (fun c hc => hl c (List.mem_cons_of_mem b hc))
      (fun c hc => hp c (List.mem_cons_of_mem b hc)) ho

theorem zipWith_encap_layout (ra ta : EtherAddress) (ps : List Packet) (os : List Alloc)
    (hlen : ps.length ≤ os.length) (hos : ∀ o, o ∈ os → o.Succeeds)
    (h14 : ∀ p, p ∈ ps → 14 ≤ p.length) :
    List.zipWith
        (fun o p => AggregationQueue.wifi_encap o p ra (EtherAddress.ofBytes p 6) ta) os ps
      = ps.map (fun p => Outcome.frame
          ([WIFI_FC0_VERSION_0 ||| WIFI_FC0_TYPE_DATA, WIFI_FC1_DIR_FROMDS, 0, 0]
            ++ ra.data ++ ta.data ++ readBytes p 6 6 ++ [0, 0]
            ++ WIFI_LLC_HEADER ++ readBytes p 12 2 ++ p.drop 14)) := by
  induction ps generalizing os with
  | nil => simp
  | cons p ps ih =>
    cases os with
    | nil => simp at hlen
    | cons o os =>
      have hp : 14 ≤ p.length := h14 p (List.mem_cons_self p ps)
      rw [List.zipWith_cons_cons, List.map_cons,
        wifi_encap_layout o (hos o (List.mem_cons_self o os)) p hp,
        ofBytes_data p (by omega),
        ih os (by simpa using hlen) (fun o' ho' => hos o' (List.mem_cons_of_mem o ho'))
          (fun p' hp' => h14 p' (List.mem_cons_of_mem p hp'))]

/-! ## Station queue: verified properties -/

/-- C1: a station queue of capacity `c` created empty accepts any `k ≤ c` frames
of at least 14 bytes; with encapsulation succeeding, the following `k` pulls
return the wifi encapsulations (receiver `ra`, transmitter `ta`) of the pushed
frames in push order, and one more pull returns no frame. -/
theorem C1_push_then_pull_fifo (c : Nat) (ra ta : EtherAddress) (ps : List Packet)
    (os : List Alloc) (hc : c < UINT32) (hk : ps.length ≤ c)
    (h14 : ∀ p, p ∈ ps → 14 ≤ p.length) (hos : ∀ o, o ∈ os → o.Succeeds)
    (hn : os.length = ps.length + 1) :
    (AggregationQueue.pushAll ps (AggregationQueue.ctor c ra ta)).2
        = List.replicate ps.length true ∧
      (AggregationQueue.pullAll os
          (AggregationQueue.pushAll ps (AggregationQueue.ctor c ra ta)).1).2
        = ps.map (fun p => Outcome.frame
            ([WIFI_FC0_VERSION_0 ||| WIFI_FC0_TYPE_DATA, WIFI_FC1_DIR_FROMDS, 0, 0]
              ++ ra.data ++ ta.data ++ readBytes p 6 6 ++ [0, 0]
              ++ WIFI_LLC_HEADER ++ readBytes p 12 2 ++ p.drop 14))
          ++ [Outcome.null] := by
  obtain ⟨hi, hfr, hres, hra, hta⟩ :=
    pushAll_room ps (AggregationQueue.ctor c ra ta) (aq_inv_ctor c ra ta hc)
      (by simpa [AggregationQueue.ctor] using hk)
  refine ⟨hres, ?_⟩
  rw [pullAll_results os _ hi, hfr, hra, hta, frames_ctor, List.nil_append, hn,
    zipWith_encap_layout _ _ ps os (by omega) hos h14]
  simp [AggregationQueue.ctor]

/-- C1 at a queue of capacity 2 with two frames. -/
theorem C1_push_then_pull_fifo_witness :
    (2 : Nat) < UINT32 ∧
      (AggregationQueue.pullAll [Alloc.plain, Alloc.plain, Alloc.plain]
          (AggregationQueue.pushAll
            [[1, 1, 1, 1, 1, 1, 2, 2, 2, 2, 2, 2, 8, 0, 41],
             [1, 1, 1, 1, 1, 1, 3, 3, 3, 3, 3, 3, 8, 6, 42, 43]]
            (AggregationQueue.ctor 2 ⟨5, 5, 5, 5, 5, 5⟩ ⟨7, 7, 7, 7, 7, 7⟩)).1).2
        = [Outcome.frame [8, 2, 0, 0, 5, 5, 5, 5, 5, 5, 7, 7, 7, 7, 7, 7, 2, 2, 2, 2, 2, 2,
             0, 0, 0xaa, 0xaa, 3, 0, 0, 0, 8, 0, 41],
           Outcome.frame [8, 2, 0, 0, 5, 5, 5, 5, 5, 5, 7, 7, 7, 7, 7, 7, 3, 3, 3, 3, 3, 3,
             0, 0, 0xaa, 0xaa, 3, 0, 0, 0, 8, 6, 42, 43],
           Outcome.null] :=
  ⟨by decide,
   (C1_push_then_pull_fifo 2 ⟨5, 5, 5, 5, 5, 5⟩ ⟨7, 7, 7, 7, 7, 7⟩
      [[1, 1, 1, 1, 1, 1, 2, 2, 2, 2, 2, 2, 8, 0, 41],
       [1, 1, 1, 1, 1, 1, 3, 3, 3, 3, 3, 3, 8, 6, 42, 43]]
      [Alloc.plain, Alloc.plain, Alloc.plain] (by decide) (by decide)
      (by intro p hp; simp at hp; rcases hp with rfl | rfl <;> decide)
      (by intro o ho; simp at ho; subst ho; simp [Alloc.Succeeds, Alloc.plain])
      (by decide)).2⟩

/-- C2: when the frame at the head of a non-empty station queue is the wired
frame `d ++ src ++ t ++ P` (destination, source, protocol type, payload) and the
encapsulation succeeds, `pull` returns exactly the 24-byte wireless header
(frame control `version 0 | data`, then the from-DS bit alone, zero duration,
address 1 = `_ra`, address 2 = `_ta`, address 3 = `src`, zero sequence), the
LLC/SNAP header `aa aa 03 00 00 00` followed by `t`, and the payload `P`; the
result is 18 bytes longer than the input and `d` is gone. -/
theorem C2_pull_encapsulation_layout (s : AggregationQueue) (o : Alloc)
    (d src t P : List Nat) (hsz : 0 < s._size)
    (hhead : s.slot s._head = some (d ++ src ++ t ++ P))
    (hd : d.length = 6) (hsrc : src.length = 6) (ht : t.length = 2) (ho : o.Succeeds) :
    (s.pull o).2 = Outcome.frame
        ([WIFI_FC0_VERSION_0 ||| WIFI_FC0_TYPE_DATA, WIFI_FC1_DIR_FROMDS, 0, 0]
          ++ s._ra.data ++ s._ta.data ++ src ++ [0, 0]
          ++ [0xaa, 0xaa, 0x03, 0x00, 0x00, 0x00] ++ t ++ P) ∧
      ([WIFI_FC0_VERSION_0 ||| WIFI_FC0_TYPE_DATA, WIFI_FC1_DIR_FROMDS, 0, 0]
          ++ s._ra.data ++ s._ta.data ++ src ++ [0, 0]
          ++ [0xaa, 0xaa, 0x03, 0x00, 0x00, 0x00] ++ t ++ P).length
        = (d ++ src ++ t ++ P).length + 18 := by
  obtain ⟨d0, d1, d2, d3, d4, d5, rfl⟩ := list_length_six hd
  obtain ⟨s0, s1, s2, s3, s4, s5, rfl⟩ := list_length_six hsrc
  obtain ⟨t0, t1, rfl⟩ := list_length_two ht
  constructor
  · have hp : (s.pull o).2 = AggregationQueue.wifi_encap o
        ([d0, d1, d2, d3, d4, d5] ++ [s0, s1, s2, s3, s4, s5] ++ [t0, t1] ++ P) s._ra
        (EtherAddress.ofBytes
          ([d0, d1, d2, d3, d4, d5] ++ [s0, s1, s2, s3, s4, s5] ++ [t0, t1] ++ P) 6) s._ta := by
      simp [AggregationQueue.pull, hsz, hhead]
    rw [hp, wifi_encap_layout o ho _ (by simp)]
    simp [EtherAddress.ofBytes, EtherAddress.data, readBytes, WIFI_LLC_HEADER]
  · simp [EtherAddress.data]

/-- C2 at a one-frame queue: the frame pulled for a 16-byte wired frame. -/
theorem C2_pull_encapsulation_layout_witness :
    ((AggregationQueue.ctor 1 ⟨5, 5, 5, 5, 5, 5⟩ ⟨7, 7, 7, 7, 7, 7⟩).push
        ([1, 1, 1, 1, 1, 1] ++ [3, 3, 3, 3, 3, 3] ++ [8, 6] ++ [42, 43])).1.slot 0
        = some ([1, 1, 1, 1, 1, 1] ++ [3, 3, 3, 3, 3, 3] ++ [8, 6] ++ [42, 43]) ∧
      (((AggregationQueue.ctor 1 ⟨5, 5, 5, 5, 5, 5⟩ ⟨7, 7, 7, 7, 7, 7⟩).push
        ([1, 1, 1, 1, 1, 1] ++ [3, 3, 3, 3, 3, 3] ++ [8, 6] ++ [42, 43])).1.pull Alloc.plain).2
        = Outcome.frame [8, 2, 0, 0, 5, 5, 5, 5, 5, 5, 7, 7, 7, 7, 7, 7, 3, 3, 3, 3, 3, 3,
            0, 0, 0xaa, 0xaa, 3, 0, 0, 0, 8, 6, 42, 43] :=
  ⟨by decide,
   (C2_pull_encapsulation_layout
      ((AggregationQueue.ctor 1 ⟨5, 5, 5, 5, 5, 5⟩ ⟨7, 7, 7, 7, 7, 7⟩).push
        ([1, 1, 1, 1, 1, 1] ++ [3, 3, 3, 3, 3, 3] ++ [8, 6] ++ [42, 43])).1
      Alloc.plain [1, 1, 1, 1, 1, 1] [3, 3, 3, 3, 3, 3] [8, 6] [42, 43]
      (by decide) (by decide) (by decide) (by decide) (by decide)
      (by simp [Alloc.Succeeds, Alloc.plain])).1⟩

/-- C6: on a full station queue `push` returns false, adds one to the drop
counter (modulo 2^32) and leaves size, head, tail and the buffer unchanged; on a
queue with room it returns true, adds exactly one to the size and leaves the
drop counter unchanged. -/
theorem C6_push_full_or_room (s : AggregationQueue) (p : Packet)
    (hc : s._capacity < UINT32) :
    (s._size = s._capacity →
      (s.push p).2 = false ∧ (s.push p).1._drops = (s._drops + 1) % UINT32 ∧
      (s.push p).1._size = s._size ∧ (s.push p).1._head = s._head ∧
      (s.push p).1._tail = s._tail ∧ (s.push p).1._q = s._q) ∧
    (s._size < s._capacity →
      (s.push p).2 = true ∧ (s.push p).1._size = s._size + 1 ∧
      (s.push p).1._drops = s._drops) := by
  constructor
  · intro h
    rw [push_full p s h]
    exact ⟨rfl, rfl, rfl, rfl, rfl, rfl⟩
  · intro h
    have hne : s._size ≠ s._capacity := by omega
    have h2 : (s._size + 1) % UINT32 = s._size + 1 := Nat.mod_eq_of_lt (by omega)
    simp [AggregationQueue.push, hne, h2]

/-- C6 at a full queue of capacity 1: the second push is refused. -/
theorem C6_push_full_or_room_witness :
    (1 : Nat) < UINT32 ∧
      (((AggregationQueue.ctor 1 ⟨5, 5, 5, 5, 5, 5⟩ ⟨7, 7, 7, 7, 7, 7⟩).push [1]).1.push [2]).2
        = false ∧
      (((AggregationQueue.ctor 1 ⟨5, 5, 5, 5, 5, 5⟩ ⟨7, 7, 7, 7, 7, 7⟩).push [1]).1.push [2]).1._drops
        = 1 ∧
      (((AggregationQueue.ctor 1 ⟨5, 5, 5, 5, 5, 5⟩ ⟨7, 7, 7, 7, 7, 7⟩).push [1]).1.push [2]).1._size
        = 1 :=
  ⟨by decide,
   ((C6_push_full_or_room
      ((AggregationQueue.ctor 1 ⟨5, 5, 5, 5, 5, 5⟩ ⟨7, 7, 7, 7, 7, 7⟩).push [1]).1 [2]
      (by decide)).1 (by decide)).1,
   ((C6_push_full_or_room
      ((AggregationQueue.ctor 1 ⟨5, 5, 5, 5, 5, 5⟩ ⟨7, 7, 7, 7, 7, 7⟩).push [1]).1 [2]
      (by decide)).1 (by decide)).2.1,
   ((C6_push_full_or_room
      ((AggregationQueue.ctor 1 ⟨5, 5, 5, 5, 5, 5⟩ ⟨7, 7, 7, 7, 7, 7⟩).push [1]).1 [2]
      (by decide)).1 (by decide)).2.2.1⟩

/-- C7: in every station-queue state reachable from the constructor by `push`,
`pull` and `top` calls the size is at most the capacity. -/
theorem C7_size_le_capacity (s : AggregationQueue) (h : s.Reachable) :
    s._size ≤ s._capacity :=
  (aq_reachable_inv h).size_le

/-- C7 at the state reached by two pushes into a queue of capacity 1. -/
theorem C7_size_le_capacity_witness :
    (((AggregationQueue.ctor 1 ⟨5, 5, 5, 5, 5, 5⟩ ⟨7, 7, 7, 7, 7, 7⟩).push [1]).1.push [2]).1._size
      ≤ (((AggregationQueue.ctor 1 ⟨5, 5, 5, 5, 5, 5⟩ ⟨7, 7, 7, 7, 7, 7⟩).push [1]).1.push
          [2]).1._capacity :=
  C7_size_le_capacity _
    (AggregationQueue.Reachable.push [2] _
      (AggregationQueue.Reachable.push [1] _
        (AggregationQueue.Reachable.ctor 1 ⟨5, 5, 5, 5, 5, 5⟩ ⟨7, 7, 7, 7, 7, 7⟩ (by decide))))

/-- C9: `top()` reads the slot after the head. With frames `a`, `b` pushed in
that order into a queue of capacity 3, the oldest frame is `a` and `pull`
delivers the encapsulation of `a`, yet `top()` returns `b`; on a full queue of
capacity 2 (head = tail) `top()` returns no frame at all. -/
theorem C9_top_reads_slot_after_head :
    (AggregationQueue.pushAll [[1, 1, 1, 1, 1, 1, 2, 2, 2, 2, 2, 2, 8, 0, 41],
        [1, 1, 1, 1, 1, 1, 3, 3, 3, 3, 3, 3, 8, 0, 42]]
        (AggregationQueue.ctor 3 ⟨5, 5, 5, 5, 5, 5⟩ ⟨7, 7, 7, 7, 7, 7⟩)).1.frames
      = [[1, 1, 1, 1, 1, 1, 2, 2, 2, 2, 2, 2, 8, 0, 41],
         [1, 1, 1, 1, 1, 1, 3, 3, 3, 3, 3, 3, 8, 0, 42]] ∧
    (AggregationQueue.pushAll [[1, 1, 1, 1, 1, 1, 2, 2, 2, 2, 2, 2, 8, 0, 41],
        [1, 1, 1, 1, 1, 1, 3, 3, 3, 3, 3, 3, 8, 0, 42]]
        (AggregationQueue.ctor 3 ⟨5, 5, 5, 5, 5, 5⟩ ⟨7, 7, 7, 7, 7, 7⟩)).1.top.2
      = some [1, 1, 1, 1, 1, 1, 3, 3, 3, 3, 3, 3, 8, 0, 42] ∧
    ((AggregationQueue.pushAll [[1, 1, 1, 1, 1, 1, 2, 2, 2, 2, 2, 2, 8, 0, 41],
        [1, 1, 1, 1, 1, 1, 3, 3, 3, 3, 3, 3, 8, 0, 42]]
        (AggregationQueue.ctor 3 ⟨5, 5, 5, 5, 5, 5⟩ ⟨7, 7, 7, 7, 7, 7⟩)).1.pull Alloc.plain).2
      = Outcome.frame [8, 2, 0, 0, 5, 5, 5, 5, 5, 5, 7, 7, 7, 7, 7, 7, 2, 2, 2, 2, 2, 2,
          0, 0, 0xaa, 0xaa, 3, 0, 0, 0, 8, 0, 41] ∧
    (AggregationQueue.pushAll [[1, 1, 1, 1, 1, 1, 2, 2, 2, 2, 2, 2, 8, 0, 41],
        [1, 1, 1, 1, 1, 1, 3, 3, 3, 3, 3, 3, 8, 0, 42]]
        (AggregationQueue.ctor 2 ⟨5, 5, 5, 5, 5, 5⟩ ⟨7, 7, 7, 7, 7, 7⟩)).1._size = 2 ∧
    (AggregationQueue.pushAll [[1, 1, 1, 1, 1, 1, 2, 2, 2, 2, 2, 2, 8, 0, 41],
        [1, 1, 1, 1, 1, 1, 3, 3, 3, 3, 3, 3, 8, 0, 42]]
        (AggregationQueue.ctor 2 ⟨5, 5, 5, 5, 5, 5⟩ ⟨7, 7, 7, 7, 7, 7⟩)).1.top.2 = none := by
  decide

/-- C10, as stated, fails: on a one-frame queue whose head frame cannot be
given a private copy, `pull` returns no frame and removes the frame, but the
drop counter stays 0 instead of becoming 1; and when the private copy is
obtained but the head room for the LLC header is not, `pull` does not return
at all: it calls `kill()` through the null pointer. -/
theorem C10_counterexample :
    0 < ((AggregationQueue.ctor 2 ⟨5, 5, 5, 5, 5, 5⟩ ⟨7, 7, 7, 7, 7, 7⟩).push
        [1, 1, 1, 1, 1, 1, 2, 2, 2, 2, 2, 2, 8, 0, 41]).1._size ∧
    (((AggregationQueue.ctor 2 ⟨5, 5, 5, 5, 5, 5⟩ ⟨7, 7, 7, 7, 7, 7⟩).push
        [1, 1, 1, 1, 1, 1, 2, 2, 2, 2, 2, 2, 8, 0, 41]).1.pull
          { uniqueify := false, llc := none, wifi := none }).2 = Outcome.null ∧
    (((AggregationQueue.ctor 2 ⟨5, 5, 5, 5, 5, 5⟩ ⟨7, 7, 7, 7, 7, 7⟩).push
        [1, 1, 1, 1, 1, 1, 2, 2, 2, 2, 2, 2, 8, 0, 41]).1.pull
          { uniqueify := false, llc := none, wifi := none }).1._size = 0 ∧
    ¬ ((((AggregationQueue.ctor 2 ⟨5, 5, 5, 5, 5, 5⟩ ⟨7, 7, 7, 7, 7, 7⟩).push
        [1, 1, 1, 1, 1, 1, 2, 2, 2, 2, 2, 2, 8, 0, 41]).1.pull
          { uniqueify := false, llc := none, wifi := none }).1._drops
        = (((AggregationQueue.ctor 2 ⟨5, 5, 5, 5, 5, 5⟩ ⟨7, 7, 7, 7, 7, 7⟩).push
            [1, 1, 1, 1, 1, 1, 2, 2, 2, 2, 2, 2, 8, 0, 41]).1._drops + 1) % UINT32) ∧
    (((AggregationQueue.ctor 2 ⟨5, 5, 5, 5, 5, 5⟩ ⟨7, 7, 7, 7, 7, 7⟩).push
        [1, 1, 1, 1, 1, 1, 2, 2, 2, 2, 2, 2, 8, 0, 41]).1.pull
          { uniqueify := true, llc := none, wifi := none }).2 = Outcome.fault := by
  decide

/-- C10, amended: on a reachable non-empty station queue whose head frame
cannot be given a private copy, `pull` returns no frame, the oldest frame leaves
the queue (the size decreases by one, the other frames stay in order) and the
drop counter is unchanged. -/
theorem C10_pull_private_copy_fails (s : AggregationQueue) (o : Alloc)
    (hr : s.Reachable) (hsz : 0 < s._size) (ho : o.uniqueify = false) :
    (s.pull o).2 = Outcome.null ∧
      (s.pull o).1._size + 1 = s._size ∧
      (∃ p, s.frames = p :: (s.pull o).1.frames) ∧
      (s.pull o).1._drops = s._drops := by
  obtain ⟨p, hp, hfr, hres⟩ := frames_pull_some o s (aq_reachable_inv hr) hsz
  obtain ⟨p', _, e⟩ := pull_some o s (aq_reachable_inv hr) hsz
  refine ⟨?_, ?_, ⟨p, hfr⟩, (pull_fields o s).2.2.2⟩
  · rw [hres]
    simp [AggregationQueue.wifi_encap, ho]
  · rw [e]
    show s._size - 1 + 1 = s._size
    omega

/-- C10 amended, at a one-frame queue. -/
theorem C10_pull_private_copy_fails_witness :
    0 < ((AggregationQueue.ctor 2 ⟨5, 5, 5, 5, 5, 5⟩ ⟨7, 7, 7, 7, 7, 7⟩).push
        [1, 1, 1, 1, 1, 1, 2, 2, 2, 2, 2, 2, 8, 0, 41]).1._size ∧
    (((AggregationQueue.ctor 2 ⟨5, 5, 5, 5, 5, 5⟩ ⟨7, 7, 7, 7, 7, 7⟩).push
        [1, 1, 1, 1, 1, 1, 2, 2, 2, 2, 2, 2, 8, 0, 41]).1.pull
          { uniqueify := false, llc := none, wifi := none }).1._drops
      = ((AggregationQueue.ctor 2 ⟨5, 5, 5, 5, 5, 5⟩ ⟨7, 7, 7, 7, 7, 7⟩).push
        [1, 1, 1, 1, 1, 1, 2, 2, 2, 2, 2, 2, 8, 0, 41]).1._drops :=
  ⟨by decide,
   (C10_pull_private_copy_fails _ { uniqueify := false, llc := none, wifi := none }
      (AggregationQueue.Reachable.push [1, 1, 1, 1, 1, 1, 2, 2, 2, 2, 2, 2, 8, 0, 41] _
        (AggregationQueue.Reachable.ctor 2 ⟨5, 5, 5, 5, 5, 5⟩ ⟨7, 7, 7, 7, 7, 7⟩ (by decide)))
      (by decide) rfl).2.2.2⟩

/-! ## Traffic-rule queue: verified properties -/

/-- A refused `enqueue` on a reachable traffic-rule queue of non-zero capacity:
the aggregate drop counter gains one, the aggregate size and the rotation list
are unchanged. -/
theorem enqueue_refused_of_capacity_pos (t : TrafficRuleQueue) (p : Packet)
    (ra ta : EtherAddress) (hr : t.Reachable) (hc : 0 < t._capacity)
    (h : (t.enqueue p ra ta).2 = false) :
    (t.enqueue p ra ta).1._drops = (t._drops + 1) % UINT32 ∧
      (t.enqueue p ra ta).1._size = t._size ∧
      (t.enqueue p ra ta).1._active_list = t._active_list := by
  have hi := (trq_reachable_inv hr)
  have e := enqueue_eq p ra ta t _ rfl (hi.listed ra)
  by_cases hp : (((HashTable.find t._queues ra).getD
      (AggregationQueue.ctor t._capacity ra ta)).push p).2 = true
  · simp only [hp, if_true] at e
    rw [e] at h
    exact absurd h (by simp)
  · simp only [hp, if_false] at e
    have hs : (HashTable.find t._queues ra).isSome = true := by
      cases hf : HashTable.find t._queues ra with
      | some q => rfl
      | none =>
        exfalso
        apply hp
        rw [hf]
        have hne : (0 : Nat) ≠ t._capacity := by omega
        simp [AggregationQueue.push, AggregationQueue.ctor, hne]
    rw [e]
    refine ⟨rfl, rfl, ?_⟩
    show (if (HashTable.find t._queues ra).isSome = true then t._active_list
      else t._active_list ++ [ra]) = t._active_list
    simp only [hs, if_true]

/-- C8: with the configured capacity 0, the first `enqueue` for a station is
refused (the new station queue is full at once) and counted as a drop, yet the
station has been appended to the rotation list, which was empty before the
call. -/
theorem C8_refused_enqueue_lists_new_station :
    (TrafficRuleQueue.ctor ⟨"net", 0⟩ 0 100)._active_list = [] ∧
    ((TrafficRuleQueue.ctor ⟨"net", 0⟩ 0 100).enqueue
        [1, 1, 1, 1, 1, 1, 2, 2, 2, 2, 2, 2, 8, 0, 41]
        ⟨5, 5, 5, 5, 5, 5⟩ ⟨7, 7, 7, 7, 7, 7⟩).2 = false ∧
    ((TrafficRuleQueue.ctor ⟨"net", 0⟩ 0 100).enqueue
        [1, 1, 1, 1, 1, 1, 2, 2, 2, 2, 2, 2, 8, 0, 41]
        ⟨5, 5, 5, 5, 5, 5⟩ ⟨7, 7, 7, 7, 7, 7⟩).1._drops = 1 ∧
    ((TrafficRuleQueue.ctor ⟨"net", 0⟩ 0 100).enqueue
        [1, 1, 1, 1, 1, 1, 2, 2, 2, 2, 2, 2, 8, 0, 41]
        ⟨5, 5, 5, 5, 5, 5⟩ ⟨7, 7, 7, 7, 7, 7⟩).1._size = 0 ∧
    ((TrafficRuleQueue.ctor ⟨"net", 0⟩ 0 100).enqueue
        [1, 1, 1, 1, 1, 1, 2, 2, 2, 2, 2, 2, 8, 0, 41]
        ⟨5, 5, 5, 5, 5, 5⟩ ⟨7, 7, 7, 7, 7, 7⟩).1._active_list = [⟨5, 5, 5, 5, 5, 5⟩] := by
  decide

theorem forall₂_imp_of_mem {α β : Type} {R S : α → β → Prop} {l₁ : List α} {l₂ : List β}
    (h : List.Forall₂ R l₁ l₂) (hi : ∀ a b, a ∈ l₁ → R a b → S a b) :
    List.Forall₂ S l₁ l₂ := by
  induction h with
  | nil => exact List.Forall₂.nil
  | cons hab _ ih =>
    exact List.Forall₂.cons (hi _ _ (List.mem_cons_self _ _) hab)
      (ih (fun a b ha hr => hi a b (List.mem_cons_of_mem _ ha) hr))

theorem pending_congr (t t' : TrafficRuleQueue) (s : EtherAddress)
    (h : HashTable.find t'._queues s = HashTable.find t._queues s) :
    t'.pending s = t.pending s := by
  simp [TrafficRuleQueue.pending, h]

/-- A sweep of the rotation: when the stations `xs` at the front of the rotation
list all have frames, `xs.length` dequeues serve them in list order, each with
the encapsulation of its oldest frame, and move them behind the rest. -/
theorem dequeueN_sweep (xs : List EtherAddress) :
    ∀ (ys : List EtherAddress) (oss : Nat → Nat → Alloc) (t : TrafficRuleQueue),
      t.Inv → t._active_list = xs ++ ys → (∀ s, s ∈ xs → t.pending s = true) →
      (∀ i j, (oss i j).Succeeds) →
      ∃ fs, (t.dequeueN xs.length oss).2 = fs.map Outcome.frame ∧
        List.Forall₂ (fun s f => ∃ q p o, Alloc.Succeeds o ∧
          HashTable.find t._queues s = some q ∧ q.frames.head? = some p ∧
          AggregationQueue.wifi_encap o p s (EtherAddress.ofBytes p 6) q._ta
            = Outcome.frame f) xs fs ∧
        (t.dequeueN xs.length oss).1._active_list = ys ++ xs := by
  induction xs with
  | nil =>
    intro ys oss t _ hal _ _
    exact ⟨[], rfl, List.Forall₂.nil, by simpa using hal⟩
  | cons x xs ih =>
    intro ys oss t hi hal hp hos
    obtain ⟨q, hfx, hsz⟩ := pending_true_size t x (hp x (List.mem_cons_self x xs))
    obtain ⟨p, f, hfr, hf, hd⟩ :=
      dequeueFrom_some [] x (xs ++ ys) (oss 0) t q hi.qinv (by simp) (by simp) hfx hsz
        (hos 0 0)
    have hd' : t.dequeue (oss 0) =
        ({ t with
            _queues := HashTable.set t._queues x (q.pull (oss 0 0)).1
            _active_list := (xs ++ ys) ++ [x]
            _size := (t._size + UINT32 - 1) % UINT32 },
          Outcome.frame f) := by
      unfold TrafficRuleQueue.dequeue
      rw [hal]
      exact hd
    have hnd : (x :: (xs ++ ys)).Nodup := by
      have := hi.nodup
      rw [hal] at this
      exact this
    have hx : ∀ s, s ∈ xs → s ≠ x := by
      intro s hs e
      subst e
      exact (List.nodup_cons.mp hnd).1 (List.mem_append_left ys hs)
    have hfind : ∀ s, s ∈ xs →
        HashTable.find (t.dequeue (oss 0)).1._queues s = HashTable.find t._queues s := by
      intro s hs
      rw [hd']
      exact find_set_ne _ _ _ _ (Ne.symm (hx s hs))
    have hi1 := trq_inv_dequeue (oss 0) t hi
    obtain ⟨fs, hres, hall, hfin⟩ := ih (ys ++ [x]) (fun i => oss (i + 1)) (t.dequeue (oss 0)).1
      hi1 (by rw [hd']; simp)
      (fun s hs => by rw [pending_congr t _ s (hfind s hs)]; exact hp s (List.mem_cons_of_mem x hs))
      (fun i j => hos (i + 1) j)
    refine ⟨f :: fs, ?_, ?_, ?_⟩
    · show (t.dequeue (oss 0)).2 :: (TrafficRuleQueue.dequeueN xs.length
        (fun i => oss (i + 1)) (t.dequeue (oss 0)).1).2 = _
      rw [hres, hd']
      rfl
    · refine List.Forall₂.cons ⟨q, p, oss 0 0, hos 0 0, hfx, by rw [hfr]; rfl, ?_⟩ ?_
      · rw [← (hi.qinv.queues x q hfx).2.1]
        exact hf
      · apply forall₂_imp_of_mem hall
        intro s g hs hr
        obtain ⟨q1, p1, o1, ho1, hq1, hp1, he1⟩ := hr
        exact ⟨q1, p1, o1, ho1, by rw [← hfind s hs]; exact hq1, hp1, he1⟩
    · show (TrafficRuleQueue.dequeueN xs.length (fun i => oss (i + 1))
        (t.dequeue (oss 0)).1).1._active_list = _
      rw [hfin]
      simp

theorem station_ctor (tr : TrafficRule) (c quantum : Nat) (s : EtherAddress) :
    (TrafficRuleQueue.ctor tr c quantum).station s = none := by
  simp [TrafficRuleQueue.station, TrafficRuleQueue.ctor, HashTable.find]

/-- The effect of an accepted `enqueue` on the stations. -/
theorem station_enqueue (t : TrafficRuleQueue) (p : Packet) (ra ta : EtherAddress)
    (hi : t.Inv)
    (hroom : (((t.station ra).map Prod.snd).getD []).length < t._capacity) :
    (t.enqueue p ra ta).2 = true ∧
      (t.enqueue p ra ta).1._active_list
        = (if ra ∈ t._active_list then t._active_list else t._active_list ++ [ra]) ∧
      ∀ s, (t.enqueue p ra ta).1.station s =
        if s = ra then
          some (((t.station ra).map Prod.fst).getD ta,
            ((t.station ra).map Prod.snd).getD [] ++ [p])
        else t.station s := by
  obtain ⟨qi, qra, qcap⟩ := enqueue_queue_inv ra ta t hi.qinv
  have e := enqueue_eq p ra ta t _ rfl (hi.listed ra)
  have hta : ((HashTable.find t._queues ra).getD (AggregationQueue.ctor t._capacity ra ta))._ta
      = ((t.station ra).map Prod.fst).getD ta := by
    cases hf : HashTable.find t._queues ra <;>
      simp [TrafficRuleQueue.station, hf, AggregationQueue.ctor]
  have hfr : ((HashTable.find t._queues ra).getD (AggregationQueue.ctor t._capacity ra ta)).frames
      = ((t.station ra).map Prod.snd).getD [] := by
    cases hf : HashTable.find t._queues ra <;>
      simp [TrafficRuleQueue.station, hf, frames_ctor]
  have hlt : ((HashTable.find t._queues ra).getD
      (AggregationQueue.ctor t._capacity ra ta))._size
      < ((HashTable.find t._queues ra).getD
        (AggregationQueue.ctor t._capacity ra ta))._capacity := by
    rw [qcap, ← frames_length _ qi, hfr]
    exact hroom
  have hpush := push_room p _ qi hlt
  have hp2 : (((HashTable.find t._queues ra).getD
      (AggregationQueue.ctor t._capacity ra ta)).push p).2 = true := by rw [hpush]
  simp only [hp2, if_true] at e
  refine ⟨by rw [e], by rw [e], ?_⟩
  intro s
  rw [e]
  show (HashTable.find (HashTable.set t._queues ra _) s).map _ = _
  rw [find_set]
  by_cases hs : s = ra
  · simp only [hs, if_true, Option.map_some']
    rw [(push_fields p _).2.1, frames_push_room p _ qi hlt, hta, hfr]
  · simp only [hs, if_false]
    rfl

/-- The effect on the stations of a `dequeue` that finds frames at the first
listed station. -/
theorem station_dequeue (t : TrafficRuleQueue) (os : Nat → Alloc) (a : EtherAddress)
    (post : List EtherAddress) (ta : EtherAddress) (p : Packet) (fs : List Packet)
    (hi : t.Inv) (hal : t._active_list = a :: post)
    (hst : t.station a = some (ta, p :: fs)) (ho : (os 0).Succeeds) :
    (t.dequeue os).1._active_list = post ++ [a] ∧
      ∀ s, (t.dequeue os).1.station s = if s = a then some (ta, fs) else t.station s := by
  obtain ⟨q, hfa, hq⟩ : ∃ q, HashTable.find t._queues a = some q ∧
      (q._ta, q.frames) = (ta, p :: fs) := by
    unfold TrafficRuleQueue.station at hst
    cases hf : HashTable.find t._queues a with
    | none => simp [hf] at hst
    | some q =>
      rw [hf] at hst
      exact ⟨q, rfl, by simpa using hst⟩
  have hqta : q._ta = ta := congrArg Prod.fst hq
  have hqfr : q.frames = p :: fs := congrArg Prod.snd hq
  have hqi := (hi.qinv.queues a q hfa).1
  have hsz : 0 < q._size := by
    rw [← frames_length q hqi, hqfr]
    simp
  obtain ⟨p', f, hfr, hf, hd⟩ :=
    dequeueFrom_some [] a post os t q hi.qinv (by simp) (by simp) hfa hsz ho
  have hd' : t.dequeue os =
      ({ t with
          _queues := HashTable.set t._queues a (q.pull (os 0)).1
          _active_list := post ++ [a]
          _size := (t._size + UINT32 - 1) % UINT32 },
        Outcome.frame f) := by
    unfold TrafficRuleQueue.dequeue
    rw [hal]
    exact hd
  have hfs : (q.pull (os 0)).1.frames = fs := by
    have h1 : p' :: (q.pull (os 0)).1.frames = p :: fs := hfr.symm.trans hqfr
    exact (List.cons.inj h1).2
  refine ⟨by rw [hd'], ?_⟩
  intro s
  rw [hd']
  show (HashTable.find (HashTable.set t._queues a _) s).map _ = _
  rw [find_set]
  by_cases hs : s = a
  · simp only [hs, if_true, Option.map_some']
    rw [(pull_fields (os 0) q).2.1, hfs, hqta]
  · simp only [hs, if_false]
    rfl

theorem pending_of_station (t : TrafficRuleQueue) (s ta : EtherAddress) (p : Packet)
    (fs : List Packet) (hi : t.Inv) (hst : t.station s = some (ta, p :: fs)) :
    t.pending s = true := by
  unfold TrafficRuleQueue.station at hst
  cases hf : HashTable.find t._queues s with
  | none => simp [hf] at hst
  | some q =>
    rw [hf] at hst
    have hq : (q._ta, q.frames) = (ta, p :: fs) := by simpa using hst
    have hqfr : q.frames = p :: fs := congrArg Prod.snd hq
    have hsz : 0 < q._size := by
      rw [← frames_length q (hi.qinv.queues s q hf).1, hqfr]
      simp
    simp [TrafficRuleQueue.pending, hf, hsz]

theorem enqueue_capacity (p : Packet) (ra ta : EtherAddress) (t : TrafficRuleQueue) :
    (t.enqueue p ra ta).1._capacity = t._capacity := by
  unfold TrafficRuleQueue.enqueue
  cases hf : HashTable.find t._queues ra <;> simp only [] <;> split <;> (try split) <;> rfl

theorem dequeueFrom_capacity (al : List EtherAddress) (os : Nat → Alloc)
    (t : TrafficRuleQueue) :
    (TrafficRuleQueue.dequeueFrom al os t).1._capacity = t._capacity := by
  induction al generalizing os t with
  | nil => rfl
  | cons ra rest ih =>
    unfold TrafficRuleQueue.dequeueFrom
    cases hf : HashTable.find t._queues ra with
    | none => rfl
    | some queue =>
      simp only []
      cases hr : (queue.pull (os 0)).2 with
      | frame f => rfl
      | null => simp only []; rw [ih]
      | fault => rfl

theorem served_of_station (t : TrafficRuleQueue) (s ta : EtherAddress) (p : Packet)
    (fs : List Packet) (f : Packet) (hst : t.station s = some (ta, p :: fs))
    (h14 : 14 ≤ p.length)
    (hR : ∃ q p' o, Alloc.Succeeds o ∧ HashTable.find t._queues s = some q ∧
      q.frames.head? = some p' ∧
      AggregationQueue.wifi_encap o p' s (EtherAddress.ofBytes p' 6) q._ta = Outcome.frame f) :
    Outcome.frame f
      = AggregationQueue.wifi_encap Alloc.plain p s (EtherAddress.ofBytes p 6) ta := by
  obtain ⟨q, p', o, ho, hfq, hhead, he⟩ := hR
  unfold TrafficRuleQueue.station at hst
  rw [hfq] at hst
  have hq : (q._ta, q.frames) = (ta, p :: fs) := by simpa using hst
  have hqta : q._ta = ta := congrArg Prod.fst hq
  have hqfr : q.frames = p :: fs := congrArg Prod.snd hq
  rw [hqfr] at hhead
  have hpp : p = p' := by simpa using hhead
  subst hpp
  rw [← he, hqta, wifi_encap_layout o ho p h14,
    wifi_encap_layout Alloc.plain (by simp [Alloc.Succeeds, Alloc.plain]) p h14]

/-- A sweep over a rotation of three stations with frames of at least 14
bytes. -/
theorem dequeueN_sweep_three (t : TrafficRuleQueue) (oss : Nat → Nat → Alloc)
    (X Y Z tx ty tz : EtherAddress) (px py pz : Packet) (fx fy fz : List Packet)
    (hi : t.Inv) (hos : ∀ i j, (oss i j).Succeeds) (hal : t._active_list = [X, Y, Z])
    (hX : t.station X = some (tx, px :: fx)) (hY : t.station Y = some (ty, py :: fy))
    (hZ : t.station Z = some (tz, pz :: fz))
    (h14x : 14 ≤ px.length) (h14y : 14 ≤ py.length) (h14z : 14 ≤ pz.length) :
    (t.dequeueN 3 oss).2 =
      [AggregationQueue.wifi_encap Alloc.plain px X (EtherAddress.ofBytes px 6) tx,
       AggregationQueue.wifi_encap Alloc.plain py Y (EtherAddress.ofBytes py 6) ty,
       AggregationQueue.wifi_encap Alloc.plain pz Z (EtherAddress.ofBytes pz 6) tz] := by
  have hp : ∀ s, s ∈ [X, Y, Z] → t.pending s = true := by
    intro s hs
    simp at hs
    rcases hs with rfl | rfl | rfl
    · exact pending_of_station t _ tx px fx hi hX
    · exact pending_of_station t _ ty py fy hi hY
    · exact pending_of_station t _ tz pz fz hi hZ
  obtain ⟨fs, hres, hall, _⟩ := dequeueN_sweep [X, Y, Z] [] oss t hi (by simpa using hal) hp hos
  have hres' : (t.dequeueN 3 oss).2 = fs.map Outcome.frame := hres
  rw [hres']
  cases hall with
  | cons h1 hall =>
    cases hall with
    | cons h2 hall =>
      cases hall with
      | cons h3 hall =>
        cases hall
        simp only [List.map_cons, List.map_nil]
        rw [served_of_station t X tx px fx _ hX h14x h1,
          served_of_station t Y ty py fy _ hY h14y h2,
          served_of_station t Z tz pz fz _ hZ h14z h3]

/-- C3: on a reachable traffic-rule queue whose listed stations all have
frames, with encapsulation succeeding, as many dequeues as there are listed
stations return one frame per station in list order, each the encapsulation of
that station's oldest frame, and leave the rotation list as it was. In
particular, for distinct stations `A`, `B`, `C` enqueued in that order on a new
queue with one frame each, three dequeues serve `A`, `B`, `C`; and when `A`
receives a further frame after having been served, the next three dequeues
serve `B`, `C` and only then `A`. -/
theorem C3_round_robin (t : TrafficRuleQueue) (oss : Nat → Nat → Alloc)
    (tr : TrafficRule) (c quantum : Nat) (A B C taA taB taC taA' : EtherAddress)
    (a b c' a2 : Packet)
    (hr : t.Reachable) (hos : ∀ i j, (oss i j).Succeeds)
    (hp : ∀ s, s ∈ t._active_list → t.pending s = true)
    (hc0 : 0 < c) (hc : c < UINT32) (hAB : A ≠ B) (hAC : A ≠ C) (hBC : B ≠ C)
    (h14a : 14 ≤ a.length) (h14b : 14 ≤ b.length) (h14c : 14 ≤ c'.length)
    (h14a2 : 14 ≤ a2.length) :
    (∃ fs, (t.dequeueN t._active_list.length oss).2 = fs.map Outcome.frame ∧
      List.Forall₂ (fun s f => ∃ q p o, Alloc.Succeeds o ∧
        HashTable.find t._queues s = some q ∧ q.frames.head? = some p ∧
        AggregationQueue.wifi_encap o p s (EtherAddress.ofBytes p 6) q._ta
          = Outcome.frame f) t._active_list fs ∧
      (t.dequeueN t._active_list.length oss).1._active_list = t._active_list) ∧
    (((((TrafficRuleQueue.ctor tr c quantum).enqueue a A taA).1.enqueue b B taB).1.enqueue
        c' C taC).1.dequeueN 3 oss).2 =
      [AggregationQueue.wifi_encap Alloc.plain a A (EtherAddress.ofBytes a 6) taA,
       AggregationQueue.wifi_encap Alloc.plain b B (EtherAddress.ofBytes b 6) taB,
       AggregationQueue.wifi_encap Alloc.plain c' C (EtherAddress.ofBytes c' 6) taC] ∧
    (((((((TrafficRuleQueue.ctor tr c quantum).enqueue a A taA).1.enqueue b B taB).1.enqueue
        c' C taC).1.dequeue (oss 0)).1.enqueue a2 A taA').1.dequeueN 3 oss).2 =
      [AggregationQueue.wifi_encap Alloc.plain b B (EtherAddress.ofBytes b 6) taB,
       AggregationQueue.wifi_encap Alloc.plain c' C (EtherAddress.ofBytes c' 6) taC,
       AggregationQueue.wifi_encap Alloc.plain a2 A (EtherAddress.ofBytes a2 6) taA] := by
  refine ⟨?_, ?_⟩
  · obtain ⟨fs, h1, h2, h3⟩ :=
      dequeueN_sweep t._active_list [] oss t (trq_reachable_inv hr) (by simp) hp hos
    exact ⟨fs, h1, h2, by simpa using h3⟩
  · have hBA : B ≠ A := Ne.symm hAB
    have hCA : C ≠ A := Ne.symm hAC
    have hCB : C ≠ B := Ne.symm hBC
    -- the three enqueues
    have hi0 := trq_inv_ctor tr c quantum hc
    have e1 := station_enqueue (TrafficRuleQueue.ctor tr c quantum) a A taA hi0
      (by rw [station_ctor]; exact hc0)
    have hi1 := trq_inv_enqueue a A taA _ hi0
    have hcap1 : ((TrafficRuleQueue.ctor tr c quantum).enqueue a A taA).1._capacity = c := by
      rw [enqueue_capacity]; rfl
    obtain ⟨-, hal1, hst1⟩ := e1
    simp only [station_ctor] at hst1
    have hal1' : ((TrafficRuleQueue.ctor tr c quantum).enqueue a A taA).1._active_list = [A] := by
      rw [hal1]; simp [TrafficRuleQueue.ctor]
    have e2 := station_enqueue _ b B taB hi1
      (by rw [hst1 B, hcap1]; simpa [hBA] using hc0)
    have hi2 := trq_inv_enqueue b B taB _ hi1
    have hcap2 : (((TrafficRuleQueue.ctor tr c quantum).enqueue a A taA).1.enqueue
        b B taB).1._capacity = c := by
      rw [enqueue_capacity]; exact hcap1
    obtain ⟨-, hal2, hst2⟩ := e2
    have hal2' : (((TrafficRuleQueue.ctor tr c quantum).enqueue a A taA).1.enqueue
        b B taB).1._active_list = [A, B] := by
      rw [hal2, hal1']; simp [hBA]
    have e3 := station_enqueue _ c' C taC hi2
      (by rw [hst2 C, hst1 C, hcap2]; simpa [hCA, hCB] using hc0)
    have hi3 := trq_inv_enqueue c' C taC _ hi2
    have hcap3 : ((((TrafficRuleQueue.ctor tr c quantum).enqueue a A taA).1.enqueue
        b B taB).1.enqueue c' C taC).1._capacity = c := by
      rw [enqueue_capacity]; exact hcap2
    obtain ⟨-, hal3, hst3⟩ := e3
    have hal3' : ((((TrafficRuleQueue.ctor tr c quantum).enqueue a A taA).1.enqueue
        b B taB).1.enqueue c' C taC).1._active_list = [A, B, C] := by
      rw [hal3, hal2']; simp [hCA, hCB]
    have hA3 : ((((TrafficRuleQueue.ctor tr c quantum).enqueue a A taA).1.enqueue
        b B taB).1.enqueue c' C taC).1.station A = some (taA, [a]) := by
      rw [hst3 A, hst2 A, hst1 A]; simp [hAB, hAC]
    have hB3 : ((((TrafficRuleQueue.ctor tr c quantum).enqueue a A taA).1.enqueue
        b B taB).1.enqueue c' C taC).1.station B = some (taB, [b]) := by
      rw [hst3 B, hst2 B, hst1 B]; simp [hBA, hBC]
    have hC3 : ((((TrafficRuleQueue.ctor tr c quantum).enqueue a A taA).1.enqueue
        b B taB).1.enqueue c' C taC).1.station C = some (taC, [c']) := by
      rw [hst3 C, hst2 C, hst1 C]; simp [hCA, hCB]
    refine ⟨dequeueN_sweep_three _ oss A B C taA taB taC a b c' [] [] [] hi3 hos hal3'
      hA3 hB3 hC3 h14a h14b h14c, ?_⟩
    -- A is served, then receives a further frame
    obtain ⟨hal4, hst4⟩ := station_dequeue _ (oss 0) A [B, C] taA a [] hi3 hal3' hA3 (hos 0 0)
    have hi4 := trq_inv_dequeue (oss 0) _ hi3
    have hcap4 : (((((TrafficRuleQueue.ctor tr c quantum).enqueue a A taA).1.enqueue
        b B taB).1.enqueue c' C taC).1.dequeue (oss 0)).1._capacity = c := by
      unfold TrafficRuleQueue.dequeue
      rw [dequeueFrom_capacity]
      exact hcap3
    have e5 := station_enqueue _ a2 A taA' hi4 (by rw [hst4 A, hcap4]; simpa using hc0)
    have hi5 := trq_inv_enqueue a2 A taA' _ hi4
    obtain ⟨-, hal5, hst5⟩ := e5
    have hal5' : ((((((TrafficRuleQueue.ctor tr c quantum).enqueue a A taA).1.enqueue
        b B taB).1.enqueue c' C taC).1.dequeue (oss 0)).1.enqueue
          a2 A taA').1._active_list = [B, C, A] := by
      rw [hal5, hal4]; simp
    have hA5 : ((((((TrafficRuleQueue.ctor tr c quantum).enqueue a A taA).1.enqueue
        b B taB).1.enqueue c' C taC).1.dequeue (oss 0)).1.enqueue
          a2 A taA').1.station A = some (taA, [a2]) := by
      rw [hst5 A, hst4 A]; simp
    have hB5 : ((((((TrafficRuleQueue.ctor tr c quantum).enqueue a A taA).1.enqueue
        b B taB).1.enqueue c' C taC).1.dequeue (oss 0)).1.enqueue
          a2 A taA').1.station B = some (taB, [b]) := by
      rw [hst5 B, hst4 B, hB3]; simp [hBA]
    have hC5 : ((((((TrafficRuleQueue.ctor tr c quantum).enqueue a A taA).1.enqueue
        b B taB).1.enqueue c' C taC).1.dequeue (oss 0)).1.enqueue
          a2 A taA').1.station C = some (taC, [c']) := by
      rw [hst5 C, hst4 C, hC3]; simp [hCA]
    exact dequeueN_sweep_three _ oss B C A taB taC taA b c' a2 [] [] [] hi5 hos hal5'
      hB5 hC5 hA5 h14b h14c h14a2

/-- C3 at three stations with one 15-byte frame each, capacity 2. -/
theorem C3_round_robin_witness :
    (∀ s, s ∈ ((((TrafficRuleQueue.ctor ⟨"net", 0⟩ 2 100).enqueue
        [1, 1, 1, 1, 1, 1, 2, 2, 2, 2, 2, 2, 8, 0, 41] ⟨5, 5, 5, 5, 5, 1⟩
        ⟨7, 7, 7, 7, 7, 7⟩).1.enqueue
        [1, 1, 1, 1, 1, 1, 2, 2, 2, 2, 2, 2, 8, 0, 42] ⟨5, 5, 5, 5, 5, 2⟩
        ⟨7, 7, 7, 7, 7, 7⟩).1.enqueue
        [1, 1, 1, 1, 1, 1, 2, 2, 2, 2, 2, 2, 8, 0, 43] ⟨5, 5, 5, 5, 5, 3⟩
        ⟨7, 7, 7, 7, 7, 7⟩).1._active_list →
      ((((TrafficRuleQueue.ctor ⟨"net", 0⟩ 2 100).enqueue
        [1, 1, 1, 1, 1, 1, 2, 2, 2, 2, 2, 2, 8, 0, 41] ⟨5, 5, 5, 5, 5, 1⟩
        ⟨7, 7, 7, 7, 7, 7⟩).1.enqueue
        [1, 1, 1, 1, 1, 1, 2, 2, 2, 2, 2, 2, 8, 0, 42] ⟨5, 5, 5, 5, 5, 2⟩
        ⟨7, 7, 7, 7, 7, 7⟩).1.enqueue
        [1, 1, 1, 1, 1, 1, 2, 2, 2, 2, 2, 2, 8, 0, 43] ⟨5, 5, 5, 5, 5, 3⟩
        ⟨7, 7, 7, 7, 7, 7⟩).1.pending s = true) ∧
    (((((TrafficRuleQueue.ctor ⟨"net", 0⟩ 2 100).enqueue
        [1, 1, 1, 1, 1, 1, 2, 2, 2, 2, 2, 2, 8, 0, 41] ⟨5, 5, 5, 5, 5, 1⟩
        ⟨7, 7, 7, 7, 7, 7⟩).1.enqueue
        [1, 1, 1, 1, 1, 1, 2, 2, 2, 2, 2, 2, 8, 0, 42] ⟨5, 5, 5, 5, 5, 2⟩
        ⟨7, 7, 7, 7, 7, 7⟩).1.enqueue
        [1, 1, 1, 1, 1, 1, 2, 2, 2, 2, 2, 2, 8, 0, 43] ⟨5, 5, 5, 5, 5, 3⟩
        ⟨7, 7, 7, 7, 7, 7⟩).1.dequeueN 3 (fun _ _ => Alloc.plain)).2 =
      [Outcome.frame [8, 2, 0, 0, 5, 5, 5, 5, 5, 1, 7, 7, 7, 7, 7, 7, 2, 2, 2, 2, 2, 2,
         0, 0, 0xaa, 0xaa, 3, 0, 0, 0, 8, 0, 41],
       Outcome.frame [8, 2, 0, 0, 5, 5, 5, 5, 5, 2, 7, 7, 7, 7, 7, 7, 2, 2, 2, 2, 2, 2,
         0, 0, 0xaa, 0xaa, 3, 0, 0, 0, 8, 0, 42],
       Outcome.frame [8, 2, 0, 0, 5, 5, 5, 5, 5, 3, 7, 7, 7, 7, 7, 7, 2, 2, 2, 2, 2, 2,
         0, 0, 0xaa, 0xaa, 3, 0, 0, 0, 8, 0, 43]] :=
  ⟨by decide,
   (C3_round_robin
      ((((TrafficRuleQueue.ctor ⟨"net", 0⟩ 2 100).enqueue
        [1, 1, 1, 1, 1, 1, 2, 2, 2, 2, 2, 2, 8, 0, 41] ⟨5, 5, 5, 5, 5, 1⟩
        ⟨7, 7, 7, 7, 7, 7⟩).1.enqueue
        [1, 1, 1, 1, 1, 1, 2, 2, 2, 2, 2, 2, 8, 0, 42] ⟨5, 5, 5, 5, 5, 2⟩
        ⟨7, 7, 7, 7, 7, 7⟩).1.enqueue
        [1, 1, 1, 1, 1, 1, 2, 2, 2, 2, 2, 2, 8, 0, 43] ⟨5, 5, 5, 5, 5, 3⟩
        ⟨7, 7, 7, 7, 7, 7⟩).1
      (fun _ _ => Alloc.plain) ⟨"net", 0⟩ 2 100
      ⟨5, 5, 5, 5, 5, 1⟩ ⟨5, 5, 5, 5, 5, 2⟩ ⟨5, 5, 5, 5, 5, 3⟩
      ⟨7, 7, 7, 7, 7, 7⟩ ⟨7, 7, 7, 7, 7, 7⟩ ⟨7, 7, 7, 7, 7, 7⟩ ⟨7, 7, 7, 7, 7, 7⟩
      [1, 1, 1, 1, 1, 1, 2, 2, 2, 2, 2, 2, 8, 0, 41]
      [1, 1, 1, 1, 1, 1, 2, 2, 2, 2, 2, 2, 8, 0, 42]
      [1, 1, 1, 1, 1, 1, 2, 2, 2, 2, 2, 2, 8, 0, 43]
      [1, 1, 1, 1, 1, 1, 2, 2, 2, 2, 2, 2, 8, 0, 44]
      (TrafficRuleQueue.Reachable.enqueue _ _ _ _
        (TrafficRuleQueue.Reachable.enqueue _ _ _ _
          (TrafficRuleQueue.Reachable.enqueue _ _ _ _
            (TrafficRuleQueue.Reachable.ctor ⟨"net", 0⟩ 2 100 (by decide)))))
      (fun _ _ => by simp [Alloc.Succeeds, Alloc.plain])
      (by decide) (by decide) (by decide) (by decide) (by decide) (by decide)
      (by decide) (by decide) (by decide) (by decide)).2.1.trans (by decide)⟩

/-! ## TrafficRule: verified properties -/

/-- C11: `a == b` holds exactly when both fields agree, `a != b` is its
negation, `==` is reflexive, symmetric and transitive, and equal traffic rules
have equal hash codes, whatever the string and integer hash functions and the
width of the hash code are. -/
theorem C11_traffic_rule_equality (a b c : TrafficRule) (hash_str : String → Nat)
    (hash_int : Int → Nat) (w : Nat) :
    (a.operator_eq b = true ↔ a._ssid = b._ssid ∧ a._dscp = b._dscp) ∧
    a.operator_ne b = !(a.operator_eq b) ∧
    a.operator_eq a = true ∧
    (a.operator_eq b = true → b.operator_eq a = true) ∧
    (a.operator_eq b = true → b.operator_eq c = true → a.operator_eq c = true) ∧
    (a.operator_eq b = true →
      a.hashcode hash_str hash_int w = b.hashcode hash_str hash_int w) := by
  have hiff : ∀ x y : TrafficRule,
      x.operator_eq y = true ↔ x._ssid = y._ssid ∧ x._dscp = y._dscp := by
    intro x y
    simp only [TrafficRule.operator_eq, Bool.and_eq_true, beq_iff_eq]
    constructor
    · rintro ⟨h1, h2⟩; exact ⟨h1.symm, h2.symm⟩
    · rintro ⟨h1, h2⟩; exact ⟨h1.symm, h2.symm⟩
  refine ⟨hiff a b, ?_, ?_, ?_, ?_, ?_⟩
  · simp [TrafficRule.operator_ne, TrafficRule.operator_eq, bne, Bool.not_and]
  · exact (hiff a a).mpr ⟨rfl, rfl⟩
  · intro h
    obtain ⟨h1, h2⟩ := (hiff a b).mp h
    exact (hiff b a).mpr ⟨h1.symm, h2.symm⟩
  · intro h h'
    obtain ⟨h1, h2⟩ := (hiff a b).mp h
    obtain ⟨h3, h4⟩ := (hiff b c).mp h'
    exact (hiff a c).mpr ⟨h1.trans h3, h2.trans h4⟩
  · intro h
    obtain ⟨h1, h2⟩ := (hiff a b).mp h
    simp [TrafficRule.hashcode, h1, h2]

/-- C11 at two equal traffic rules and one different rule. -/
theorem C11_traffic_rule_equality_witness :
    TrafficRule.operator_eq ⟨"net", 46⟩ ⟨"net", 46⟩ = true ∧
    TrafficRule.hashcode String.length Int.natAbs 32 ⟨"net", 46⟩
      = TrafficRule.hashcode String.length Int.natAbs 32 ⟨"net", 46⟩ ∧
    TrafficRule.operator_ne ⟨"net", 46⟩ ⟨"net", 0⟩
      = !(TrafficRule.operator_eq ⟨"net", 46⟩ ⟨"net", 0⟩) :=
  ⟨by decide,
   (C11_traffic_rule_equality ⟨"net", 46⟩ ⟨"net", 46⟩ ⟨"net", 0⟩
      String.length Int.natAbs 32).2.2.2.2.2 (by decide),
   (C11_traffic_rule_equality ⟨"net", 46⟩ ⟨"net", 0⟩ ⟨"net", 0⟩
      String.length Int.natAbs 32).2.1⟩

/-! ## Station queue: the head-of-queue look-up and the buffer accesses -/

/-- C14: `top()` tests `_head != _tail` for "non-empty". On the reachable full
queue of capacity 2 holding two frames, and on the reachable full queue of
capacity 1 holding one frame, head and tail coincide and `top()` returns no
frame although the size is positive. -/
theorem C14_top_null_on_full_queue :
    0 < (AggregationQueue.pushAll [[1, 1, 1, 1, 1, 1, 2, 2, 2, 2, 2, 2, 8, 0, 41],
        [1, 1, 1, 1, 1, 1, 3, 3, 3, 3, 3, 3, 8, 0, 42]]
        (AggregationQueue.ctor 2 ⟨5, 5, 5, 5, 5, 5⟩ ⟨7, 7, 7, 7, 7, 7⟩)).1._size ∧
    (AggregationQueue.pushAll [[1, 1, 1, 1, 1, 1, 2, 2, 2, 2, 2, 2, 8, 0, 41],
        [1, 1, 1, 1, 1, 1, 3, 3, 3, 3, 3, 3, 8, 0, 42]]
        (AggregationQueue.ctor 2 ⟨5, 5, 5, 5, 5, 5⟩ ⟨7, 7, 7, 7, 7, 7⟩)).1._size
      = (AggregationQueue.pushAll [[1, 1, 1, 1, 1, 1, 2, 2, 2, 2, 2, 2, 8, 0, 41],
        [1, 1, 1, 1, 1, 1, 3, 3, 3, 3, 3, 3, 8, 0, 42]]
        (AggregationQueue.ctor 2 ⟨5, 5, 5, 5, 5, 5⟩ ⟨7, 7, 7, 7, 7, 7⟩)).1._capacity ∧
    (AggregationQueue.pushAll [[1, 1, 1, 1, 1, 1, 2, 2, 2, 2, 2, 2, 8, 0, 41],
        [1, 1, 1, 1, 1, 1, 3, 3, 3, 3, 3, 3, 8, 0, 42]]
        (AggregationQueue.ctor 2 ⟨5, 5, 5, 5, 5, 5⟩ ⟨7, 7, 7, 7, 7, 7⟩)).1.top.2 = none ∧
    ((AggregationQueue.ctor 1 ⟨5, 5, 5, 5, 5, 5⟩ ⟨7, 7, 7, 7, 7, 7⟩).push
        [1, 1, 1, 1, 1, 1, 2, 2, 2, 2, 2, 2, 8, 0, 41]).1._size = 1 ∧
    ((AggregationQueue.ctor 1 ⟨5, 5, 5, 5, 5, 5⟩ ⟨7, 7, 7, 7, 7, 7⟩).push
        [1, 1, 1, 1, 1, 1, 2, 2, 2, 2, 2, 2, 8, 0, 41]).1.top.2 = none := by
  decide

/-- C15: `top()` leaves the station queue as it found it: size, head, tail,
drop counter and every buffer slot are unchanged, and a following `pull` returns
what it would have returned without the `top()` call. -/
theorem C15_top_non_destructive (s : AggregationQueue) (o : Alloc) :
    s.top.1 = s ∧
    s.top.1._size = s._size ∧ s.top.1._head = s._head ∧ s.top.1._tail = s._tail ∧
    s.top.1._drops = s._drops ∧ s.top.1._q = s._q ∧
    s.top.1.pull o = s.pull o := by
  have h : s.top.1 = s := by
    unfold AggregationQueue.top
    split <;> rfl
  rw [h]
  exact ⟨rfl, rfl, rfl, rfl, rfl, rfl, rfl⟩

/-- C17: in a station-queue state reachable from the constructor, for any
capacity including 0: with a non-zero capacity head and tail are below the
capacity and the tail is `(head + size) mod capacity`; every index at which
`push`, `pull` or `top` accesses the buffer is below the capacity (and inside
the array); no call evaluates a modulo by zero; and with capacity 0 the queue is
full, empty and has head = tail, so `push` is refused, `pull` and `top` return
nothing. -/
theorem C17_indices_in_bounds (s : AggregationQueue) (h : s.Reachable) :
    (0 < s._capacity →
      s._head < s._capacity ∧ s._tail < s._capacity ∧
      s._tail = (s._head + s._size) % s._capacity) ∧
    (∀ c i, AggregationQueue.index_used c s = some i →
      i < s._capacity ∧ i < s._q.length) ∧
    (∀ c, AggregationQueue.divisor_used c s ≠ some 0) ∧
    (s._capacity = 0 →
      s._size = s._capacity ∧ ¬ 0 < s._size ∧ s._head = s._tail ∧
      (∀ p, (s.push p).2 = false) ∧ (∀ o, (s.pull o).2 = Outcome.null) ∧
      s.top.2 = none) := by
  have hi := aq_reachable_inv h
  have hsz := hi.size_le
  have htail : 0 < s._capacity → s._tail < s._capacity := by
    intro hc
    rw [hi.tail_eq]
    exact Nat.mod_lt _ hc
  have hzero : s._capacity = 0 → s._size = 0 ∧ s._head = s._tail := by
    intro hc
    have h0 : s._size = 0 := by omega
    refine ⟨h0, ?_⟩
    rw [hi.tail_eq, h0, hc]
    simp
  refine ⟨fun hc => ⟨hi.head_lt hc, htail hc, hi.tail_eq⟩, ?_, ?_, ?_⟩
  · intro c i hci
    rw [hi.len]
    cases c with
    | push p =>
      simp only [AggregationQueue.index_used] at hci
      split at hci
      · exact absurd hci (by simp)
      · rename_i hne
        have hc : 0 < s._capacity := by omega
        have : s._tail = i := by simpa using hci
        rw [← this]
        exact ⟨htail hc, htail hc⟩
    | pull o =>
      simp only [AggregationQueue.index_used] at hci
      split at hci
      · rename_i hpos
        have hc : 0 < s._capacity := by omega
        have : s._head = i := by simpa using hci
        rw [← this]
        exact ⟨hi.head_lt hc, hi.head_lt hc⟩
      · exact absurd hci (by simp)
    | top =>
      simp only [AggregationQueue.index_used] at hci
      split at hci
      · rename_i hne
        have hc : 0 < s._capacity := by
          by_contra hc0
          exact hne (hzero (by omega)).2
        have : (s._head + 1) % UINT32 % s._capacity = i := by simpa using hci
        rw [← this]
        exact ⟨Nat.mod_lt _ hc, Nat.mod_lt _ hc⟩
      · exact absurd hci (by simp)
  · intro c hc
    cases c with
    | push p =>
      simp only [AggregationQueue.divisor_used] at hc
      split at hc
      · exact absurd hc (by simp)
      · rename_i hne
        have : s._capacity = 0 := by simpa using hc
        omega
    | pull o =>
      simp only [AggregationQueue.divisor_used] at hc
      split at hc
      · rename_i hpos
        have : s._capacity = 0 := by simpa using hc
        omega
      · exact absurd hc (by simp)
    | top =>
      simp only [AggregationQueue.divisor_used] at hc
      split at hc
      · rename_i hne
        have : s._capacity = 0 := by simpa using hc
        exact hne (hzero this).2
      · exact absurd hc (by simp)
  · intro hc
    obtain ⟨h0, hht⟩ := hzero hc
    refine ⟨by rw [h0, hc], by omega, hht, ?_, ?_, ?_⟩
    · intro p
      rw [push_full p s (by rw [h0, hc])]
    · intro o
      rw [pull_empty o s h0]
    · simp [AggregationQueue.top, hht]

/-- C17 at the wrapped-around state reached by push, push, pull, push on a queue
of capacity 2. -/
theorem C17_indices_in_bounds_witness :
    ((((((AggregationQueue.ctor 2 ⟨5, 5, 5, 5, 5, 5⟩ ⟨7, 7, 7, 7, 7, 7⟩).push [1]).1.push
      [2]).1.pull Alloc.plain).1.push [3]).1)._head < 2 ∧
    ((((((AggregationQueue.ctor 2 ⟨5, 5, 5, 5, 5, 5⟩ ⟨7, 7, 7, 7, 7, 7⟩).push [1]).1.push
      [2]).1.pull Alloc.plain).1.push [3]).1)._tail < 2 :=
  ⟨((C17_indices_in_bounds _
      (AggregationQueue.Reachable.push [3] _
        (AggregationQueue.Reachable.pull Alloc.plain _
          (AggregationQueue.Reachable.push [2] _
            (AggregationQueue.Reachable.push [1] _
              (AggregationQueue.Reachable.ctor 2 ⟨5, 5, 5, 5, 5, 5⟩ ⟨7, 7, 7, 7, 7, 7⟩
                (by decide))))))).1 (by decide)).1,
   ((C17_indices_in_bounds _
      (AggregationQueue.Reachable.push [3] _
        (AggregationQueue.Reachable.pull Alloc.plain _
          (AggregationQueue.Reachable.push [2] _
            (AggregationQueue.Reachable.push [1] _
              (AggregationQueue.Reachable.ctor 2 ⟨5, 5, 5, 5, 5, 5⟩ ⟨7, 7, 7, 7, 7, 7⟩
                (by decide))))))).1 (by decide)).2.1⟩

/-! ## Depth of the dequeue recursion -/

theorem dequeueDepth_enough (al : List EtherAddress) :
    ∀ (t : TrafficRuleQueue) (os : Nat → Alloc) (fuel : Nat),
      t._active_list = al → al.length + 1 ≤ fuel →
      ∃ k, TrafficRuleQueue.dequeueDepth fuel os t
          = some ((TrafficRuleQueue.dequeueFrom al os t).1,
              (TrafficRuleQueue.dequeueFrom al os t).2, k) ∧
        k ≤ al.length := by
  induction al with
  | nil =>
    intro t os fuel hal hf
    obtain ⟨f, rfl⟩ : ∃ f, fuel = f + 1 := ⟨fuel - 1, by omega⟩
    refine ⟨0, ?_, Nat.le_refl _⟩
    have ht : ({ t with _active_list := [] } : TrafficRuleQueue) = t := by
      cases t
      simp only [] at hal
      subst hal
      rfl
    simp only [TrafficRuleQueue.dequeueDepth, hal, TrafficRuleQueue.dequeueFrom, ht]
  | cons ra rest ih =>
    intro t os fuel hal hf
    obtain ⟨f, rfl⟩ : ∃ f, fuel = f + 1 := ⟨fuel - 1, by omega⟩
    have hf' : rest.length + 1 ≤ f := by simp at hf; omega
    cases hfind : HashTable.find t._queues ra with
    | none =>
      exact ⟨0, by simp only [TrafficRuleQueue.dequeueDepth, hal, hfind,
        TrafficRuleQueue.dequeueFrom], Nat.zero_le _⟩
    | some queue =>
      cases hr : (queue.pull (os 0)).2 with
      | frame g =>
        exact ⟨1, by simp only [TrafficRuleQueue.dequeueDepth, hal, hfind, hr,
          TrafficRuleQueue.dequeueFrom], by simp⟩
      | fault =>
        exact ⟨1, by simp only [TrafficRuleQueue.dequeueDepth, hal, hfind, hr,
          TrafficRuleQueue.dequeueFrom], by simp⟩
      | null =>
        obtain ⟨k, hk, hle⟩ := ih
          { t with
              _queues := HashTable.set t._queues ra (queue.pull (os 0)).1
              _active_list := rest }
          (fun n => os (n + 1)) f rfl hf'
        refine ⟨k + 1, ?_, by simp; omega⟩
        simp only [TrafficRuleQueue.dequeueDepth, hal, hfind, hr,
          TrafficRuleQueue.dequeueFrom, hk, Option.map_some']

/-- C13: the recursive `dequeue` terminates. With `n` stations in the rotation
list on entry, any allowance of at least `n + 1` nested calls lets it return,
with the result of `dequeue`, after at most `n` station-queue pulls; and a retry
is made on a rotation list that is shorter by exactly one station. -/
theorem C13_dequeue_terminates (t : TrafficRuleQueue) (os : Nat → Alloc) (fuel : Nat)
    (hf : t._active_list.length + 1 ≤ fuel) :
    (∃ k, TrafficRuleQueue.dequeueDepth fuel os t
        = some ((t.dequeue os).1, (t.dequeue os).2, k) ∧
      k ≤ t._active_list.length) ∧
    (∀ ra rest queue, t._active_list = ra :: rest →
      HashTable.find t._queues ra = some queue →
      (queue.pull (os 0)).2 = Outcome.null →
      ({ t with
          _queues := HashTable.set t._queues ra (queue.pull (os 0)).1
          _active_list := rest } : TrafficRuleQueue)._active_list.length + 1
        = t._active_list.length ∧
      t.dequeue os =
        ({ t with
          _queues := HashTable.set t._queues ra (queue.pull (os 0)).1
          _active_list := rest } : TrafficRuleQueue).dequeue (fun n => os (n + 1))) := by
  refine ⟨dequeueDepth_enough t._active_list t os fuel rfl hf, ?_⟩
  intro ra rest queue hal hfind hr
  refine ⟨by rw [hal]; rfl, ?_⟩
  unfold TrafficRuleQueue.dequeue
  rw [hal]
  simp only [TrafficRuleQueue.dequeueFrom, hfind, hr]

/-- C13 at a rotation list of one station whose queue is empty: two nested
calls, one station-queue pull. -/
theorem C13_dequeue_terminates_witness :
    ∃ k, TrafficRuleQueue.dequeueDepth 2 (fun _ => Alloc.plain)
        (((TrafficRuleQueue.ctor ⟨"net", 0⟩ 2 100).enqueue [1] ⟨5, 5, 5, 5, 5, 5⟩
          ⟨7, 7, 7, 7, 7, 7⟩).1.dequeue (fun _ => Alloc.plain)).1
      = some
        (((((TrafficRuleQueue.ctor ⟨"net", 0⟩ 2 100).enqueue [1] ⟨5, 5, 5, 5, 5, 5⟩
          ⟨7, 7, 7, 7, 7, 7⟩).1.dequeue (fun _ => Alloc.plain)).1.dequeue
            (fun _ => Alloc.plain)).1,
         ((((TrafficRuleQueue.ctor ⟨"net", 0⟩ 2 100).enqueue [1] ⟨5, 5, 5, 5, 5, 5⟩
          ⟨7, 7, 7, 7, 7, 7⟩).1.dequeue (fun _ => Alloc.plain)).1.dequeue
            (fun _ => Alloc.plain)).2, k) ∧
      k ≤ (((TrafficRuleQueue.ctor ⟨"net", 0⟩ 2 100).enqueue [1] ⟨5, 5, 5, 5, 5, 5⟩
          ⟨7, 7, 7, 7, 7, 7⟩).1.dequeue (fun _ => Alloc.plain)).1._active_list.length :=
  (C13_dequeue_terminates
    (((TrafficRuleQueue.ctor ⟨"net", 0⟩ 2 100).enqueue [1] ⟨5, 5, 5, 5, 5, 5⟩
      ⟨7, 7, 7, 7, 7, 7⟩).1.dequeue (fun _ => Alloc.plain)).1
    (fun _ => Alloc.plain) 2 (by decide)).1

/-! ## The ring buffer refines the bounded FIFO list -/

theorem refines_ctor (c : Nat) (ra ta : EtherAddress) (hc : c < UINT32) :
    Refines (AggregationQueue.ctor c ra ta) (AbstractQueue.empty c ra ta) :=
  ⟨aq_inv_ctor c ra ta hc, frames_ctor c ra ta, rfl, rfl, rfl, rfl⟩

theorem refines_push (p : Packet) (s : AggregationQueue) (a : AbstractQueue)
    (h : Refines s a) :
    Refines (s.push p).1 (a.push p).1 ∧ (s.push p).2 = (a.push p).2 := by
  have hlen : a.items.length = s._size := by rw [← h.items, frames_length s h.inv]
  have hf := push_fields p s
  by_cases hroom : s._size < s._capacity
  · have ha : a.items.length < a.capacity := by rw [hlen, ← h.capacity]; exact hroom
    have e := push_room p s h.inv hroom
    simp only [AbstractQueue.push, ha, if_true]
    refine ⟨⟨aq_inv_push p s h.inv, ?_, ?_, ?_, ?_, ?_⟩, by rw [e]⟩
    · rw [frames_push_room p s h.inv hroom, h.items]
    · rw [hf.2.2]; exact h.capacity
    · rw [hf.1]; exact h.ra
    · rw [hf.2.1]; exact h.ta
    · rw [e]; exact h.drops
  · have hfull : s._size = s._capacity := Nat.le_antisymm h.inv.size_le (Nat.le_of_not_lt hroom)
    have ha : ¬ a.items.length < a.capacity := by rw [hlen, ← h.capacity]; exact hroom
    have e := push_full p s hfull
    simp only [AbstractQueue.push, ha, if_false]
    refine ⟨⟨aq_inv_push p s h.inv, ?_, ?_, ?_, ?_, ?_⟩, by rw [e]⟩
    · rw [frames_push_full p s hfull, h.items]
    · rw [hf.2.2]; exact h.capacity
    · rw [hf.1]; exact h.ra
    · rw [hf.2.1]; exact h.ta
    · rw [e]
      show (s._drops + 1) % UINT32 = (a.drops + 1) % UINT32
      rw [h.drops]
      unfold UINT32
      omega

theorem refines_pull (o : Alloc) (s : AggregationQueue) (a : AbstractQueue)
    (h : Refines s a) :
    Refines (s.pull o).1 (a.pull o).1 ∧ (s.pull o).2 = (a.pull o).2 := by
  have hlen : a.items.length = s._size := by rw [← h.items, frames_length s h.inv]
  have hf := pull_fields o s
  by_cases h0 : s._size = 0
  · have ha : a.items = [] := List.eq_nil_of_length_eq_zero (by rw [hlen, h0])
    rw [pull_empty o s h0]
    simp only [AbstractQueue.pull, ha]
    refine ⟨⟨h.inv, by rw [h.items, ha], h.capacity, h.ra, h.ta, h.drops⟩, ?_⟩
    first | rfl | trivial
  · obtain ⟨p, _, hfr, hr⟩ := frames_pull_some o s h.inv (Nat.pos_of_ne_zero h0)
    have ha : a.items = p :: (s.pull o).1.frames := by rw [← h.items, hfr]
    simp only [AbstractQueue.pull, ha]
    refine ⟨⟨aq_inv_pull o s h.inv, rfl, ?_, ?_, ?_, ?_⟩, ?_⟩
    · rw [hf.2.2.1]; exact h.capacity
    · rw [hf.1]; exact h.ra
    · rw [hf.2.1]; exact h.ta
    · rw [hf.2.2.2]; exact h.drops
    · rw [hr, h.ra, h.ta]

theorem refines_run (ops : List QueueOp) :
    ∀ (s : AggregationQueue) (a : AbstractQueue), Refines s a →
      Refines (AggregationQueue.run ops s).1 (AbstractQueue.run ops a).1 ∧
      (AggregationQueue.run ops s).2 = (AbstractQueue.run ops a).2 := by
  induction ops with
  | nil => intro s a h; exact ⟨h, rfl⟩
  | cons op ops ih =>
    intro s a h
    cases op with
    | push p =>
      obtain ⟨h1, e1⟩ := refines_push p s a h
      obtain ⟨h2, e2⟩ := ih _ _ h1
      refine ⟨h2, ?_⟩
      show QueueRet.pushed (s.push p).2 :: (AggregationQueue.run ops (s.push p).1).2
        = QueueRet.pushed (a.push p).2 :: (AbstractQueue.run ops (a.push p).1).2
      rw [e1, e2]
    | pull o =>
      obtain ⟨h1, e1⟩ := refines_pull o s a h
      obtain ⟨h2, e2⟩ := ih _ _ h1
      refine ⟨h2, ?_⟩
      show QueueRet.pulled (s.pull o).2 :: (AggregationQueue.run ops (s.pull o).1).2
        = QueueRet.pulled (a.pull o).2 :: (AbstractQueue.run ops (a.pull o).1).2
      rw [e1, e2]

theorem run_capacity (ops : List QueueOp) :
    ∀ s : AggregationQueue, (AggregationQueue.run ops s).1._capacity = s._capacity := by
  induction ops with
  | nil => intro s; rfl
  | cons op ops ih =>
    intro s
    cases op with
    | push p =>
      show (AggregationQueue.run ops (s.push p).1).1._capacity = _
      rw [ih, (push_fields p s).2.2]
    | pull o =>
      show (AggregationQueue.run ops (s.pull o).1).1._capacity = _
      rw [ih, (pull_fields o s).2.2.1]

/-- C16: for every capacity and every finite interleaving of `push` and `pull`
calls from the constructor, with encapsulation succeeding, the ring buffer
returns call by call what the bounded FIFO list returns, and ends with the same
observable state: the buffered frames in order, their number as size, and the
drop count (a 32-bit counter on the ring buffer). -/
theorem C16_ring_refines_fifo (c : Nat) (ra ta : EtherAddress) (ops : List QueueOp)
    (hc : c < UINT32) (hok : ∀ o, QueueOp.pull o ∈ ops → o.Succeeds) :
    (AggregationQueue.run ops (AggregationQueue.ctor c ra ta)).2
      = (AbstractQueue.run ops (AbstractQueue.empty c ra ta)).2 ∧
    (AggregationQueue.run ops (AggregationQueue.ctor c ra ta)).1.frames
      = (AbstractQueue.run ops (AbstractQueue.empty c ra ta)).1.items ∧
    (AggregationQueue.run ops (AggregationQueue.ctor c ra ta)).1._size
      = (AbstractQueue.run ops (AbstractQueue.empty c ra ta)).1.items.length ∧
    (AbstractQueue.run ops (AbstractQueue.empty c ra ta)).1.items.length ≤ c ∧
    (AggregationQueue.run ops (AggregationQueue.ctor c ra ta)).1._drops
      = (AbstractQueue.run ops (AbstractQueue.empty c ra ta)).1.drops % UINT32 := by
  obtain ⟨h, e⟩ := refines_run ops _ _ (refines_ctor c ra ta hc)
  have hsz := frames_length _ h.inv
  have hcap := run_capacity ops (AggregationQueue.ctor c ra ta)
  refine ⟨e, h.items, by rw [← h.items, hsz], ?_, h.drops⟩
  rw [← h.items, hsz]
  have := h.inv.size_le
  rw [hcap] at this
  exact this

/-- C16 at a queue of capacity 2 on an interleaving in which a push is refused
and head and tail wrap around the end of the buffer. -/
theorem C16_ring_refines_fifo_witness :
    (AggregationQueue.run
        [QueueOp.push [1], QueueOp.push [2], QueueOp.push [3], QueueOp.pull Alloc.plain,
         QueueOp.push [4], QueueOp.pull Alloc.plain, QueueOp.pull Alloc.plain,
         QueueOp.pull Alloc.plain]
        (AggregationQueue.ctor 2 ⟨5, 5, 5, 5, 5, 5⟩ ⟨7, 7, 7, 7, 7, 7⟩)).1._head = 1 ∧
    (AggregationQueue.run
        [QueueOp.push [1], QueueOp.push [2], QueueOp.push [3], QueueOp.pull Alloc.plain,
         QueueOp.push [4], QueueOp.pull Alloc.plain, QueueOp.pull Alloc.plain,
         QueueOp.pull Alloc.plain]
        (AggregationQueue.ctor 2 ⟨5, 5, 5, 5, 5, 5⟩ ⟨7, 7, 7, 7, 7, 7⟩)).2
      = (AbstractQueue.run
        [QueueOp.push [1], QueueOp.push [2], QueueOp.push [3], QueueOp.pull Alloc.plain,
         QueueOp.push [4], QueueOp.pull Alloc.plain, QueueOp.pull Alloc.plain,
         QueueOp.pull Alloc.plain]
        (AbstractQueue.empty 2 ⟨5, 5, 5, 5, 5, 5⟩ ⟨7, 7, 7, 7, 7, 7⟩)).2 ∧
    (AggregationQueue.run
        [QueueOp.push [1], QueueOp.push [2], QueueOp.push [3], QueueOp.pull Alloc.plain,
         QueueOp.push [4], QueueOp.pull Alloc.plain, QueueOp.pull Alloc.plain,
         QueueOp.pull Alloc.plain]
        (AggregationQueue.ctor 2 ⟨5, 5, 5, 5, 5, 5⟩ ⟨7, 7, 7, 7, 7, 7⟩)).1._drops
      = (AbstractQueue.run
        [QueueOp.push [1], QueueOp.push [2], QueueOp.push [3], QueueOp.pull Alloc.plain,
         QueueOp.push [4], QueueOp.pull Alloc.plain, QueueOp.pull Alloc.plain,
         QueueOp.pull Alloc.plain]
        (AbstractQueue.empty 2 ⟨5, 5, 5, 5, 5, 5⟩ ⟨7, 7, 7, 7, 7, 7⟩)).1.drops % UINT32 :=
  ⟨by decide,
   (C16_ring_refines_fifo 2 ⟨5, 5, 5, 5, 5, 5⟩ ⟨7, 7, 7, 7, 7, 7⟩
      [QueueOp.push [1], QueueOp.push [2], QueueOp.push [3], QueueOp.pull Alloc.plain,
       QueueOp.push [4], QueueOp.pull Alloc.plain, QueueOp.pull Alloc.plain,
       QueueOp.pull Alloc.plain]
      (by decide)
      (by intro o ho; simp at ho; subst ho; simp [Alloc.Succeeds, Alloc.plain])).1,
   (C16_ring_refines_fifo 2 ⟨5, 5, 5, 5, 5, 5⟩ ⟨7, 7, 7, 7, 7, 7⟩
      [QueueOp.push [1], QueueOp.push [2], QueueOp.push [3], QueueOp.pull Alloc.plain,
       QueueOp.push [4], QueueOp.pull Alloc.plain, QueueOp.pull Alloc.plain,
       QueueOp.pull Alloc.plain]
      (by decide)
      (by intro o ho; simp at ho; subst ho; simp [Alloc.Succeeds, Alloc.plain])).2.2.2.2⟩

/-! ## Listed stations and buffered frames -/

theorem reachableOk_reachable {t : TrafficRuleQueue} (h : t.ReachableOk) : t.Reachable := by
  induction h with
  | ctor tr c quantum h => exact TrafficRuleQueue.Reachable.ctor tr c quantum h
  | enqueue p ra ta t _ ih => exact TrafficRuleQueue.Reachable.enqueue p ra ta t ih
  | dequeue os t _ _ ih => exact TrafficRuleQueue.Reachable.dequeue os t ih

/-- The outcome of `dequeue` under succeeding encapsulation, in the two cases
of its rotation list. -/
theorem dequeue_cases (t : TrafficRuleQueue) (os : Nat → Alloc) (hi : t.Inv)
    (hos : ∀ n, (os n).Succeeds) :
    ((∀ a, a ∈ t._active_list → t.pending a = false) ∧
      t.dequeue os = ({ t with _active_list := [] }, Outcome.null)) ∨
    (∃ pre a post q p f, t._active_list = pre ++ a :: post ∧
      (∀ b, b ∈ pre → t.pending b = false) ∧
      HashTable.find t._queues a = some q ∧ 0 < q._size ∧
      q.frames = p :: (q.pull (os pre.length)).1.frames ∧
      t.dequeue os =
        ({ t with
            _queues := HashTable.set t._queues a (q.pull (os pre.length)).1
            _active_list := post ++ [a]
            _size := (t._size + UINT32 - 1) % UINT32 },
          Outcome.frame f)) := by
  by_cases hex : ∃ a, a ∈ t._active_list ∧ t.pending a = true
  · right
    obtain ⟨pre, a, post, hal, hpa, hpre⟩ := exists_first_split t.pending t._active_list hex
    obtain ⟨q, hfa, hsz⟩ := pending_true_size t a hpa
    have hl : ∀ b, b ∈ pre → (HashTable.find t._queues b).isSome = true := by
      intro b hb
      apply hi.listed
      rw [hal]
      exact List.mem_append_left _ hb
    obtain ⟨p, f, hfr, _, hd⟩ :=
      dequeueFrom_some pre a post os t q hi.qinv hl hpre hfa hsz (hos pre.length)
    refine ⟨pre, a, post, q, p, f, hal, hpre, hfa, hsz, hfr, ?_⟩
    unfold TrafficRuleQueue.dequeue
    rw [hal]
    exact hd
  · left
    have hall : ∀ a, a ∈ t._active_list → t.pending a = false := by
      intro a ha
      by_contra hne
      exact hex ⟨a, ha, by simpa using hne⟩
    exact ⟨hall, dequeueFrom_none t._active_list os t hi.listed hall⟩

/-- The outcome of `enqueue`, by whether the station queue has room. -/
theorem enqueue_cases (p : Packet) (ra ta : EtherAddress) (t : TrafficRuleQueue)
    (hi : t.Inv) (queue : AggregationQueue)
    (hq : queue = (HashTable.find t._queues ra).getD (AggregationQueue.ctor t._capacity ra ta)) :
    (queue._size < queue._capacity ∧
      t.enqueue p ra ta =
        ({ t with
            _queues := HashTable.set t._queues ra
              { queue with
                  _q := queue._q.set queue._tail (some p)
                  _tail := (queue._tail + 1) % queue._capacity
                  _size := queue._size + 1 }
            _active_list :=
              if ra ∈ t._active_list then t._active_list else t._active_list ++ [ra]
            _size := (t._size + 1) % UINT32 }, true)) ∨
    (queue._size = queue._capacity ∧
      t.enqueue p ra ta =
        ({ t with
            _queues := HashTable.set t._queues ra
              { queue with _drops := (queue._drops + 1) % UINT32 }
            _active_list :=
              if (HashTable.find t._queues ra).isSome = true then t._active_list
              else t._active_list ++ [ra]
            _drops := (t._drops + 1) % UINT32 }, false)) := by
  obtain ⟨qi, _, _⟩ := enqueue_queue_inv ra ta t hi.qinv
  rw [← hq] at qi
  have e := enqueue_eq p ra ta t queue hq (hi.listed ra)
  by_cases hroom : queue._size < queue._capacity
  · left
    have hp := push_room p queue qi hroom
    refine ⟨hroom, ?_⟩
    rw [e, hp]
    simp
  · right
    have hfull : queue._size = queue._capacity :=
      Nat.le_antisymm qi.size_le (Nat.le_of_not_lt hroom)
    have hp := push_full p queue hfull
    refine ⟨hfull, ?_⟩
    rw [e, hp]
    simp

/-- Under succeeding encapsulation every station with a non-empty station
queue is in the rotation list. -/
theorem reachableOk_pending_listed {t : TrafficRuleQueue} (h : t.ReachableOk) :
    ∀ a q, HashTable.find t._queues a = some q → 0 < q._size → a ∈ t._active_list := by
  induction h with
  | ctor tr c quantum h =>
    intro a q hf
    simp [TrafficRuleQueue.ctor, HashTable.find] at hf
  | enqueue p ra ta t hr ih =>
    have hi := trq_reachable_inv (reachableOk_reachable hr)
    intro a q hf hsz
    rcases enqueue_cases p ra ta t hi _ rfl with ⟨_, e⟩ | ⟨hfull, e⟩
    · rw [e] at hf ⊢
      have hf' : HashTable.find (HashTable.set t._queues ra _) a = some q := hf
      show a ∈ (if ra ∈ t._active_list then t._active_list else t._active_list ++ [ra])
      rw [find_set] at hf'
      by_cases hra : a = ra
      · subst hra
        by_cases hm : a ∈ t._active_list <;> simp [hm]
      · simp only [hra, if_false] at hf'
        have := ih a q hf' hsz
        by_cases hm : ra ∈ t._active_list <;> simp [hm, this]
    · rw [e] at hf ⊢
      have hf' : HashTable.find (HashTable.set t._queues ra _) a = some q := hf
      show a ∈ (if (HashTable.find t._queues ra).isSome = true then t._active_list
        else t._active_list ++ [ra])
      rw [find_set] at hf'
      by_cases hra : a = ra
      · subst hra
        simp only [if_true, Option.some.injEq] at hf'
        cases hfo : HashTable.find t._queues a with
        | none =>
          simp
        | some q0 =>
          have hq0 : q._size = q0._size := by
            rw [← hf', hfo]
            rfl
          have := ih a q0 hfo (by rw [← hq0]; exact hsz)
          simp [this]
      · simp only [hra, if_false] at hf'
        have := ih a q hf' hsz
        by_cases hm : (HashTable.find t._queues ra).isSome = true <;> simp [hm, this]
  | dequeue os t hr hos ih =>
    have hi := trq_reachable_inv (reachableOk_reachable hr)
    intro a q hf hsz
    rcases dequeue_cases t os hi hos with ⟨hall, e⟩ | ⟨pre, b, post, qb, p, f, hal, hpre, hfb, _, _, e⟩
    · rw [e] at hf
      have hf' : HashTable.find t._queues a = some q := hf
      have hm := ih a q hf' hsz
      have := pending_false_size t a q hf' (hall a hm)
      omega
    · rw [e] at hf ⊢
      have hf' : HashTable.find (HashTable.set t._queues b _) a = some q := hf
      show a ∈ post ++ [b]
      rw [find_set] at hf'
      by_cases hab : a = b
      · simp [hab]
      · simp only [hab, if_false] at hf'
        have hm := ih a q hf' hsz
        rw [hal] at hm
        rcases List.mem_append.mp hm with h1 | h1
        · have := pending_false_size t a q hf' (hpre a h1)
          omega
        · rcases List.mem_cons.mp h1 with h2 | h2
          · exact absurd h2 hab
          · exact List.mem_append_left _ h2

/-- C18: in a traffic-rule queue state reachable from the constructor with
encapsulation succeeding, every listed station has a station queue in the
table, every station whose station queue is non-empty is listed, and therefore
`dequeue` returns a frame whenever some station queue holds one. -/
theorem C18_listed_iff_buffered (t : TrafficRuleQueue) (os : Nat → Alloc)
    (hr : t.ReachableOk) (hos : ∀ n, (os n).Succeeds) :
    (∀ a, a ∈ t._active_list → (HashTable.find t._queues a).isSome = true) ∧
    (∀ a q, HashTable.find t._queues a = some q → 0 < q._size → a ∈ t._active_list) ∧
    (t.dequeue os).2 ≠ Outcome.fault ∧
    ((∃ a q, HashTable.find t._queues a = some q ∧ 0 < q._size) →
      ∃ f, (t.dequeue os).2 = Outcome.frame f) := by
  have hi := trq_reachable_inv (reachableOk_reachable hr)
  have hpl := reachableOk_pending_listed hr
  refine ⟨hi.listed, hpl, ?_, ?_⟩
  · rcases dequeue_cases t os hi hos with ⟨_, e⟩ | ⟨pre, b, post, qb, p, f, _, _, _, _, _, e⟩
    · rw [e]; simp
    · rw [e]; simp
  · rintro ⟨a, q, hf, hsz⟩
    rcases dequeue_cases t os hi hos with ⟨hall, e⟩ | ⟨pre, b, post, qb, p, f, _, _, _, _, _, e⟩
    · have := pending_false_size t a q hf (hall a (hpl a q hf hsz))
      omega
    · exact ⟨f, by rw [e]⟩

/-- C18 at the state reached by two enqueues for one station and one dequeue. -/
theorem C18_listed_iff_buffered_witness :
    ((((TrafficRuleQueue.ctor ⟨"net", 0⟩ 2 100).enqueue [1] ⟨5, 5, 5, 5, 5, 5⟩
          ⟨7, 7, 7, 7, 7, 7⟩).1.enqueue [2] ⟨5, 5, 5, 5, 5, 5⟩
          ⟨7, 7, 7, 7, 7, 7⟩).1.dequeue (fun _ => Alloc.plain)).1.pending
        ⟨5, 5, 5, 5, 5, 5⟩ = true ∧
    ∃ f, (((((TrafficRuleQueue.ctor ⟨"net", 0⟩ 2 100).enqueue [1] ⟨5, 5, 5, 5, 5, 5⟩
          ⟨7, 7, 7, 7, 7, 7⟩).1.enqueue [2] ⟨5, 5, 5, 5, 5, 5⟩
          ⟨7, 7, 7, 7, 7, 7⟩).1.dequeue (fun _ => Alloc.plain)).1.dequeue
            (fun _ => Alloc.plain)).2 = Outcome.frame f :=
  ⟨by decide,
   (C18_listed_iff_buffered _ (fun _ => Alloc.plain)
      (TrafficRuleQueue.ReachableOk.dequeue (fun _ => Alloc.plain) _
        (TrafficRuleQueue.ReachableOk.enqueue [2] ⟨5, 5, 5, 5, 5, 5⟩ ⟨7, 7, 7, 7, 7, 7⟩ _
          (TrafficRuleQueue.ReachableOk.enqueue [1] ⟨5, 5, 5, 5, 5, 5⟩ ⟨7, 7, 7, 7, 7, 7⟩ _
            (TrafficRuleQueue.ReachableOk.ctor ⟨"net", 0⟩ 2 100 (by decide))))
        (fun _ => by simp [Alloc.Succeeds, Alloc.plain]))
      (fun _ => by simp [Alloc.Succeeds, Alloc.plain])).2.2.2
      ⟨⟨5, 5, 5, 5, 5, 5⟩, pending_true_size _ ⟨5, 5, 5, 5, 5, 5⟩ (by decide)⟩⟩

/-! ## The aggregate counters -/

theorem sum_set_getD (f : AggregationQueue → Nat) (m : AggregationQueues) (a : EtherAddress)
    (v d : AggregationQueue) (hd : f d = 0) :
    ((HashTable.set m a v).map (fun kv => f kv.2)).sum + f ((HashTable.find m a).getD d)
      = (m.map (fun kv => f kv.2)).sum + f v := by
  induction m with
  | nil => simp [HashTable.set, HashTable.find, hd]
  | cons x m ih =>
    obtain ⟨k, w⟩ := x
    by_cases hk : k = a
    · simp [HashTable.set, HashTable.find, hk]
      omega
    · simp only [HashTable.set, HashTable.find, hk, if_false, List.map_cons, List.sum_cons]
      omega

theorem sum_ge_of_find (f : AggregationQueue → Nat) (m : AggregationQueues) (a : EtherAddress)
    (q : AggregationQueue) (h : HashTable.find m a = some q) :
    f q ≤ (m.map (fun kv => f kv.2)).sum := by
  induction m with
  | nil => simp [HashTable.find] at h
  | cons x m ih =>
    obtain ⟨k, w⟩ := x
    by_cases hk : k = a
    · simp [HashTable.find, hk] at h
      subst h
      simp
    · simp [HashTable.find, hk] at h
      have := ih h
      simp only [List.map_cons, List.sum_cons]
      omega

theorem enqueue_sums (p : Packet) (ra ta : EtherAddress) (t : TrafficRuleQueue) (hi : t.Inv) :
    ((t.enqueue p ra ta).2 = true ∧
      (t.enqueue p ra ta).1._size = (t._size + 1) % UINT32 ∧
      (t.enqueue p ra ta).1._drops = t._drops ∧
      (t.enqueue p ra ta).1.sum_sizes = t.sum_sizes + 1 ∧
      (t.enqueue p ra ta).1.sum_drops = t.sum_drops) ∨
    ((t.enqueue p ra ta).2 = false ∧
      (t.enqueue p ra ta).1._size = t._size ∧
      (t.enqueue p ra ta).1._drops = (t._drops + 1) % UINT32 ∧
      (t.enqueue p ra ta).1.sum_sizes = t.sum_sizes ∧
      (t.enqueue p ra ta).1.sum_drops % UINT32 = (t.sum_drops + 1) % UINT32) := by
  have hs0 : (AggregationQueue.ctor t._capacity ra ta)._size = 0 := rfl
  have hd0 : (AggregationQueue.ctor t._capacity ra ta)._drops = 0 := rfl
  rcases enqueue_cases p ra ta t hi _ rfl with ⟨_, e⟩ | ⟨_, e⟩
  · left
    rw [e]
    refine ⟨rfl, rfl, rfl, ?_, ?_⟩
    · have := sum_set_getD (fun q => q._size) t._queues ra
        { (HashTable.find t._queues ra).getD (AggregationQueue.ctor t._capacity ra ta) with
          _q := ((HashTable.find t._queues ra).getD
            (AggregationQueue.ctor t._capacity ra ta))._q.set
              ((HashTable.find t._queues ra).getD
                (AggregationQueue.ctor t._capacity ra ta))._tail (some p)
          _tail := (((HashTable.find t._queues ra).getD
            (AggregationQueue.ctor t._capacity ra ta))._tail + 1) %
              ((HashTable.find t._queues ra).getD
                (AggregationQueue.ctor t._capacity ra ta))._capacity
          _size := ((HashTable.find t._queues ra).getD
            (AggregationQueue.ctor t._capacity ra ta))._size + 1 }
        (AggregationQueue.ctor t._capacity ra ta) hs0
      simp only [TrafficRuleQueue.sum_sizes]
      simp only [] at this
      omega
    · have := sum_set_getD (fun q => q._drops) t._queues ra
        { (HashTable.find t._queues ra).getD (AggregationQueue.ctor t._capacity ra ta) with
          _q := ((HashTable.find t._queues ra).getD
            (AggregationQueue.ctor t._capacity ra ta))._q.set
              ((HashTable.find t._queues ra).getD
                (AggregationQueue.ctor t._capacity ra ta))._tail (some p)
          _tail := (((HashTable.find t._queues ra).getD
            (AggregationQueue.ctor t._capacity ra ta))._tail + 1) %
              ((HashTable.find t._queues ra).getD
                (AggregationQueue.ctor t._capacity ra ta))._capacity
          _size := ((HashTable.find t._queues ra).getD
            (AggregationQueue.ctor t._capacity ra ta))._size + 1 }
        (AggregationQueue.ctor t._capacity ra ta) hd0
      simp only [TrafficRuleQueue.sum_drops]
      simp only [] at this
      omega
  · right
    rw [e]
    refine ⟨rfl, rfl, rfl, ?_, ?_⟩
    · have := sum_set_getD (fun q => q._size) t._queues ra
        { (HashTable.find t._queues ra).getD (AggregationQueue.ctor t._capacity ra ta) with
          _drops := (((HashTable.find t._queues ra).getD
            (AggregationQueue.ctor t._capacity ra ta))._drops + 1) % UINT32 }
        (AggregationQueue.ctor t._capacity ra ta) hs0
      simp only [TrafficRuleQueue.sum_sizes]
      simp only [] at this
      omega
    · have := sum_set_getD (fun q => q._drops) t._queues ra
        { (HashTable.find t._queues ra).getD (AggregationQueue.ctor t._capacity ra ta) with
          _drops := (((HashTable.find t._queues ra).getD
            (AggregationQueue.ctor t._capacity ra ta))._drops + 1) % UINT32 }
        (AggregationQueue.ctor t._capacity ra ta) hd0
      simp only [TrafficRuleQueue.sum_drops]
      simp only [] at this
      unfold UINT32 at this ⊢
      omega

theorem dequeue_sums (t : TrafficRuleQueue) (os : Nat → Alloc) (hi : t.Inv)
    (hos : ∀ n, (os n).Succeeds) :
    ((t.dequeue os).2 = Outcome.null ∧
      (t.dequeue os).1._size = t._size ∧
      (t.dequeue os).1._drops = t._drops ∧
      (t.dequeue os).1.sum_sizes = t.sum_sizes ∧
      (t.dequeue os).1.sum_drops = t.sum_drops) ∨
    ((∃ f, (t.dequeue os).2 = Outcome.frame f) ∧
      (t.dequeue os).1._size = (t._size + UINT32 - 1) % UINT32 ∧
      (t.dequeue os).1._drops = t._drops ∧
      (t.dequeue os).1.sum_sizes + 1 = t.sum_sizes ∧
      (t.dequeue os).1.sum_drops = t.sum_drops) := by
  rcases dequeue_cases t os hi hos with ⟨_, e⟩ | ⟨pre, b, post, qb, p, f, _, _, hfb, hsz, _, e⟩
  · left
    rw [e]
    exact ⟨rfl, rfl, rfl, rfl, rfl⟩
  · right
    rw [e]
    obtain ⟨p', _, e'⟩ := pull_some (os pre.length) qb (hi.qinv.queues b qb hfb).1 hsz
    have hps : (qb.pull (os pre.length)).1._size = qb._size - 1 := by rw [e']
    have hpd : (qb.pull (os pre.length)).1._drops = qb._drops := (pull_fields _ qb).2.2.2
    refine ⟨⟨f, rfl⟩, rfl, rfl, ?_, ?_⟩
    · have := sum_set_getD (fun q => q._size) t._queues b (qb.pull (os pre.length)).1
        (AggregationQueue.ctor 0 b b) rfl
      rw [hfb] at this
      simp only [Option.getD_some, hps] at this
      simp only [TrafficRuleQueue.sum_sizes]
      omega
    · have := sum_set_getD (fun q => q._drops) t._queues b (qb.pull (os pre.length)).1
        (AggregationQueue.ctor 0 b b) rfl
      rw [hfb] at this
      simp only [Option.getD_some, hpd] at this
      simp only [TrafficRuleQueue.sum_drops]
      omega

theorem reachableOk_counters {t : TrafficRuleQueue} (h : t.ReachableOk) :
    t._size = t.sum_sizes % UINT32 ∧ t._drops = t.sum_drops % UINT32 := by
  induction h with
  | ctor tr c quantum h =>
    simp [TrafficRuleQueue.ctor, TrafficRuleQueue.sum_sizes, TrafficRuleQueue.sum_drops]
  | enqueue p ra ta t hr ih =>
    have hi := trq_reachable_inv (reachableOk_reachable hr)
    obtain ⟨ih1, ih2⟩ := ih
    rcases enqueue_sums p ra ta t hi with ⟨_, h1, h2, h3, h4⟩ | ⟨_, h1, h2, h3, h4⟩
    · rw [h1, h2, h3, h4, ih1]
      refine ⟨?_, ih2⟩
      unfold UINT32
      omega
    · rw [h1, h2, h3, ih2]
      refine ⟨ih1, ?_⟩
      unfold UINT32 at h4 ⊢
      omega
  | dequeue os t hr hos ih =>
    have hi := trq_reachable_inv (reachableOk_reachable hr)
    obtain ⟨ih1, ih2⟩ := ih
    rcases dequeue_sums t os hi hos with ⟨_, h1, h2, h3, h4⟩ | ⟨_, h1, h2, h3, h4⟩
    · rw [h1, h2, h3, h4]
      exact ⟨ih1, ih2⟩
    · rw [h1, h2, h4, ih1]
      refine ⟨?_, ih2⟩
      unfold UINT32
      omega

theorem station_frames_size (t : TrafficRuleQueue) (s ta : EtherAddress) (fs : List Packet)
    (hi : t.Inv) (hst : t.station s = some (ta, fs)) :
    ∃ q, HashTable.find t._queues s = some q ∧ q._size = fs.length := by
  unfold TrafficRuleQueue.station at hst
  cases hf : HashTable.find t._queues s with
  | none => simp [hf] at hst
  | some q =>
    rw [hf] at hst
    have hq : (q._ta, q.frames) = (ta, fs) := by simpa using hst
    have hqfr : q.frames = fs := congrArg Prod.snd hq
    exact ⟨q, rfl, by rw [← frames_length q (hi.qinv.queues s q hf).1, hqfr]⟩

/-- Repeated accepted enqueues for one station. -/
theorem enqueueN_fill (p : Packet) (ra ta : EtherAddress) (n : Nat) :
    ∀ t : TrafficRuleQueue, t.ReachableOk →
      (((t.station ra).map Prod.snd).getD []).length + n ≤ t._capacity →
      (TrafficRuleQueue.enqueueN n p ra ta t).ReachableOk ∧
      (TrafficRuleQueue.enqueueN n p ra ta t)._capacity = t._capacity ∧
      (TrafficRuleQueue.enqueueN n p ra ta t).sum_sizes = t.sum_sizes + n ∧
      (((TrafficRuleQueue.enqueueN n p ra ta t).station ra).map Prod.snd).getD []
        = ((t.station ra).map Prod.snd).getD [] ++ List.replicate n p ∧
      ∀ s, s ≠ ra → (TrafficRuleQueue.enqueueN n p ra ta t).station s = t.station s := by
  induction n with
  | zero =>
    intro t hr _
    exact ⟨hr, rfl, rfl, by simp [TrafficRuleQueue.enqueueN], fun _ _ => rfl⟩
  | succ n ih =>
    intro t hr hroom
    have hi := trq_reachable_inv (reachableOk_reachable hr)
    obtain ⟨hacc, _, hst⟩ := station_enqueue t p ra ta hi (by omega)
    have hsum : (t.enqueue p ra ta).1.sum_sizes = t.sum_sizes + 1 := by
      rcases enqueue_sums p ra ta t hi with ⟨_, _, _, h3, _⟩ | ⟨h0, _⟩
      · exact h3
      · rw [hacc] at h0
        exact absurd h0 (by simp)
    have hcap := enqueue_capacity p ra ta t
    have hfr : (((t.enqueue p ra ta).1.station ra).map Prod.snd).getD []
        = ((t.station ra).map Prod.snd).getD [] ++ [p] := by
      rw [hst ra]
      simp
    obtain ⟨r1, c1, s1, f1, o1⟩ := ih (t.enqueue p ra ta).1
      (TrafficRuleQueue.ReachableOk.enqueue p ra ta t hr)
      (by rw [hfr, hcap]; simp; omega)
    refine ⟨r1, by rw [← hcap]; exact c1, ?_, ?_, ?_⟩
    · show (TrafficRuleQueue.enqueueN n p ra ta (t.enqueue p ra ta).1).sum_sizes = _
      rw [s1, hsum]
      omega
    · show (((TrafficRuleQueue.enqueueN n p ra ta (t.enqueue p ra ta).1).station ra).map
        Prod.snd).getD [] = _
      rw [f1, hfr, List.replicate_succ]
      simp
    · intro s hs
      show (TrafficRuleQueue.enqueueN n p ra ta (t.enqueue p ra ta).1).station s = _
      rw [o1 s hs, hst s]
      simp [hs]

/-- Two stations filled with `N` frames each on a queue of capacity `N`, where
`2 N = 2^32`: the aggregate size has wrapped to 0 and the next dequeue takes it
below 0. -/
theorem aggregate_size_wraps (tr : TrafficRule) (quantum N : Nat) (p : Packet)
    (A B ta tb : EtherAddress) (hN : N < UINT32) (hNN : N + N = UINT32) (hAB : A ≠ B) :
    (TrafficRuleQueue.enqueueN N p B tb
        (TrafficRuleQueue.enqueueN N p A ta (TrafficRuleQueue.ctor tr N quantum))).ReachableOk ∧
    (TrafficRuleQueue.enqueueN N p B tb
        (TrafficRuleQueue.enqueueN N p A ta (TrafficRuleQueue.ctor tr N quantum))).sum_sizes
      = UINT32 ∧
    (TrafficRuleQueue.enqueueN N p B tb
        (TrafficRuleQueue.enqueueN N p A ta (TrafficRuleQueue.ctor tr N quantum)))._size = 0 ∧
    (∃ f, ((TrafficRuleQueue.enqueueN N p B tb
        (TrafficRuleQueue.enqueueN N p A ta (TrafficRuleQueue.ctor tr N quantum))).dequeue
          (fun _ => Alloc.plain)).2 = Outcome.frame f) ∧
    ((TrafficRuleQueue.enqueueN N p B tb
        (TrafficRuleQueue.enqueueN N p A ta (TrafficRuleQueue.ctor tr N quantum))).dequeue
          (fun _ => Alloc.plain)).1._size = UINT32 - 1 := by
  have hBA : B ≠ A := Ne.symm hAB
  have hN0 : 0 < N := by
    unfold UINT32 at hNN
    omega
  have r0 := TrafficRuleQueue.ReachableOk.ctor tr N quantum hN
  obtain ⟨r1, c1, s1, f1, o1⟩ := enqueueN_fill p A ta N _ r0
    (by rw [station_ctor]; simp [TrafficRuleQueue.ctor])
  obtain ⟨r2, c2, s2, f2, o2⟩ := enqueueN_fill p B tb N _ r1
    (by rw [o1 B hBA, station_ctor, c1]; simp [TrafficRuleQueue.ctor])
  have hsum0 : (TrafficRuleQueue.ctor tr N quantum).sum_sizes = 0 := rfl
  have hsum : (TrafficRuleQueue.enqueueN N p B tb
      (TrafficRuleQueue.enqueueN N p A ta (TrafficRuleQueue.ctor tr N quantum))).sum_sizes
      = UINT32 := by
    rw [s2, s1, hsum0]
    omega
  have hsize := (reachableOk_counters r2).1
  rw [hsum, Nat.mod_self] at hsize
  have hi2 := trq_reachable_inv (reachableOk_reachable r2)
  have hos : ∀ n : Nat, ((fun _ => Alloc.plain) n : Alloc).Succeeds :=
    fun _ => by simp [Alloc.Succeeds, Alloc.plain]
  refine ⟨r2, hsum, hsize, ?_⟩
  rcases dequeue_sums _ (fun _ => Alloc.plain) hi2 hos with
    ⟨hnull, _, _, h3, _⟩ | ⟨hfr, h1, _, _, _⟩
  · exfalso
    rcases dequeue_cases _ (fun _ => Alloc.plain) hi2 hos with
      ⟨hall, _⟩ | ⟨pre, b, post, qb, p', f, _, _, _, _, _, e⟩
    · -- station B has frames and is listed, so it is pending
      have hstB : ∃ tb', (TrafficRuleQueue.enqueueN N p B tb
          (TrafficRuleQueue.enqueueN N p A ta (TrafficRuleQueue.ctor tr N quantum))).station B
          = some (tb', List.replicate N p) := by
        have f2' : (((TrafficRuleQueue.enqueueN N p B tb
            (TrafficRuleQueue.enqueueN N p A ta (TrafficRuleQueue.ctor tr N quantum))).station
              B).map Prod.snd).getD [] = List.replicate N p := by
          rw [f2, o1 B hBA, station_ctor]
          simp
        cases hs : (TrafficRuleQueue.enqueueN N p B tb
          (TrafficRuleQueue.enqueueN N p A ta (TrafficRuleQueue.ctor tr N quantum))).station B with
        | none =>
          rw [hs] at f2'
          have hlen := congrArg List.length f2'
          simp at hlen
          omega
        | some x =>
          rw [hs] at f2'
          have hx : x.2 = List.replicate N p := by simpa using f2'
          exact ⟨x.1, by rw [← hx]⟩
      obtain ⟨tb', hstB'⟩ := hstB
      obtain ⟨q, hfq, hqs⟩ := station_frames_size _ B tb' _ hi2 hstB'
      have hpos : 0 < q._size := by rw [hqs]; simpa using hN0
      have hlisted := reachableOk_pending_listed r2 B q hfq hpos
      have := pending_false_size _ B q hfq (hall B hlisted)
      omega
    · rw [e] at hnull
      exact absurd hnull (by simp)
  · refine ⟨hfr, ?_⟩
    rw [h1, hsize]
    unfold UINT32
    rfl

/-- C19, as stated, fails: on a traffic-rule queue of capacity 2^31, after 2^31
accepted frames for each of two stations (encapsulation succeeding throughout),
the station queues hold 2^32 frames while the 32-bit aggregate size is 0, and
the next `dequeue` returns a frame and decrements the aggregate size from 0 to
2^32 - 1. -/
theorem C19_counterexample :
    (TrafficRuleQueue.enqueueN 2147483648 [1, 1, 1, 1, 1, 1, 2, 2, 2, 2, 2, 2, 8, 0, 41]
        ⟨5, 5, 5, 5, 5, 2⟩ ⟨7, 7, 7, 7, 7, 7⟩
        (TrafficRuleQueue.enqueueN 2147483648 [1, 1, 1, 1, 1, 1, 2, 2, 2, 2, 2, 2, 8, 0, 41]
          ⟨5, 5, 5, 5, 5, 1⟩ ⟨7, 7, 7, 7, 7, 7⟩
          (TrafficRuleQueue.ctor ⟨"net", 0⟩ 2147483648 100))).ReachableOk ∧
    (TrafficRuleQueue.enqueueN 2147483648 [1, 1, 1, 1, 1, 1, 2, 2, 2, 2, 2, 2, 8, 0, 41]
        ⟨5, 5, 5, 5, 5, 2⟩ ⟨7, 7, 7, 7, 7, 7⟩
        (TrafficRuleQueue.enqueueN 2147483648 [1, 1, 1, 1, 1, 1, 2, 2, 2, 2, 2, 2, 8, 0, 41]
          ⟨5, 5, 5, 5, 5, 1⟩ ⟨7, 7, 7, 7, 7, 7⟩
          (TrafficRuleQueue.ctor ⟨"net", 0⟩ 2147483648 100))).sum_sizes = UINT32 ∧
    (TrafficRuleQueue.enqueueN 2147483648 [1, 1, 1, 1, 1, 1, 2, 2, 2, 2, 2, 2, 8, 0, 41]
        ⟨5, 5, 5, 5, 5, 2⟩ ⟨7, 7, 7, 7, 7, 7⟩
        (TrafficRuleQueue.enqueueN 2147483648 [1, 1, 1, 1, 1, 1, 2, 2, 2, 2, 2, 2, 8, 0, 41]
          ⟨5, 5, 5, 5, 5, 1⟩ ⟨7, 7, 7, 7, 7, 7⟩
          (TrafficRuleQueue.ctor ⟨"net", 0⟩ 2147483648 100)))._size = 0 ∧
    (∃ f, ((TrafficRuleQueue.enqueueN 2147483648
        [1, 1, 1, 1, 1, 1, 2, 2, 2, 2, 2, 2, 8, 0, 41]
        ⟨5, 5, 5, 5, 5, 2⟩ ⟨7, 7, 7, 7, 7, 7⟩
        (TrafficRuleQueue.enqueueN 2147483648 [1, 1, 1, 1, 1, 1, 2, 2, 2, 2, 2, 2, 8, 0, 41]
          ⟨5, 5, 5, 5, 5, 1⟩ ⟨7, 7, 7, 7, 7, 7⟩
          (TrafficRuleQueue.ctor ⟨"net", 0⟩ 2147483648 100))).dequeue
            (fun _ => Alloc.plain)).2 = Outcome.frame f) ∧
    ((TrafficRuleQueue.enqueueN 2147483648 [1, 1, 1, 1, 1, 1, 2, 2, 2, 2, 2, 2, 8, 0, 41]
        ⟨5, 5, 5, 5, 5, 2⟩ ⟨7, 7, 7, 7, 7, 7⟩
        (TrafficRuleQueue.enqueueN 2147483648 [1, 1, 1, 1, 1, 1, 2, 2, 2, 2, 2, 2, 8, 0, 41]
          ⟨5, 5, 5, 5, 5, 1⟩ ⟨7, 7, 7, 7, 7, 7⟩
          (TrafficRuleQueue.ctor ⟨"net", 0⟩ 2147483648 100))).dequeue
            (fun _ => Alloc.plain)).1._size = UINT32 - 1 :=
  aggregate_size_wraps ⟨"net", 0⟩ 100 2147483648 [1, 1, 1, 1, 1, 1, 2, 2, 2, 2, 2, 2, 8, 0, 41]
    ⟨5, 5, 5, 5, 5, 1⟩ ⟨5, 5, 5, 5, 5, 2⟩ ⟨7, 7, 7, 7, 7, 7⟩ ⟨7, 7, 7, 7, 7, 7⟩
    (by decide) (by decide) (by decide)

/-- C19, amended: in a traffic-rule queue state reachable from the constructor
with encapsulation succeeding, the aggregate size and the aggregate drop
counter equal, modulo 2^32, the sums of the sizes and of the drop counters of
the station queues; and while the station queues hold fewer than 2^32 frames in
all, the aggregate size is exactly that sum and a `dequeue` that returns a frame
decrements a positive aggregate size, by exactly one. -/
theorem C19_aggregate_counters (t : TrafficRuleQueue) (os : Nat → Alloc)
    (hr : t.ReachableOk) (hos : ∀ n, (os n).Succeeds) :
    t._size = t.sum_sizes % UINT32 ∧
    t._drops = t.sum_drops % UINT32 ∧
    (t.sum_sizes < UINT32 →
      t._size = t.sum_sizes ∧
      ((t.dequeue os).2 ≠ Outcome.null →
        0 < t._size ∧ (t.dequeue os).1._size + 1 = t._size)) := by
  obtain ⟨h1, h2⟩ := reachableOk_counters hr
  have hi := trq_reachable_inv (reachableOk_reachable hr)
  refine ⟨h1, h2, ?_⟩
  intro hlt
  have hex : t._size = t.sum_sizes := by rw [h1, Nat.mod_eq_of_lt hlt]
  refine ⟨hex, ?_⟩
  intro hne
  rcases dequeue_sums t os hi hos with ⟨h0, _⟩ | ⟨_, h3, _, h5, _⟩
  · exact absurd h0 hne
  · rw [h3, hex]
    unfold UINT32 at hlt ⊢
    omega

/-- C19 amended, at the state reached by two accepted enqueues. -/
theorem C19_aggregate_counters_witness :
    (((TrafficRuleQueue.ctor ⟨"net", 0⟩ 2 100).enqueue [1] ⟨5, 5, 5, 5, 5, 5⟩
        ⟨7, 7, 7, 7, 7, 7⟩).1.enqueue [2] ⟨5, 5, 5, 5, 5, 6⟩ ⟨7, 7, 7, 7, 7, 7⟩).1.sum_sizes
      < UINT32 ∧
    (((TrafficRuleQueue.ctor ⟨"net", 0⟩ 2 100).enqueue [1] ⟨5, 5, 5, 5, 5, 5⟩
        ⟨7, 7, 7, 7, 7, 7⟩).1.enqueue [2] ⟨5, 5, 5, 5, 5, 6⟩ ⟨7, 7, 7, 7, 7, 7⟩).1._size
      = (((TrafficRuleQueue.ctor ⟨"net", 0⟩ 2 100).enqueue [1] ⟨5, 5, 5, 5, 5, 5⟩
        ⟨7, 7, 7, 7, 7, 7⟩).1.enqueue [2] ⟨5, 5, 5, 5, 5, 6⟩
          ⟨7, 7, 7, 7, 7, 7⟩).1.sum_sizes :=
  ⟨by decide,
   ((C19_aggregate_counters _ (fun _ => Alloc.plain)
      (TrafficRuleQueue.ReachableOk.enqueue [2] ⟨5, 5, 5, 5, 5, 6⟩ ⟨7, 7, 7, 7, 7, 7⟩ _
        (TrafficRuleQueue.ReachableOk.enqueue [1] ⟨5, 5, 5, 5, 5, 5⟩ ⟨7, 7, 7, 7, 7, 7⟩ _
          (TrafficRuleQueue.ReachableOk.ctor ⟨"net", 0⟩ 2 100 (by decide))))
      (fun _ => by simp [Alloc.Succeeds, Alloc.plain])).2.2 (by decide)).1⟩

/-! ## Addresses of the delivered frames -/

theorem wifi_encap_addresses (o : Alloc) (p : Packet) (ra sa ta : EtherAddress) (f : Packet)
    (h : AggregationQueue.wifi_encap o p ra sa ta = Outcome.frame f) :
    readBytes f 4 6 = ra.data ∧ readBytes f 10 6 = ta.data := by
  unfold AggregationQueue.wifi_encap at h
  by_cases hu : o.uniqueify = false
  · simp [hu] at h
  · simp only [hu, if_false] at h
    cases hl : o.llc with
    | none => simp [hl, Packet.push] at h
    | some g =>
      cases hw : o.wifi with
      | none => simp [hl, hw, Packet.push] at h
      | some g' =>
        simp only [hl, hw, Packet.push] at h
        generalize memcpy (memcpy (List.map g (List.range SIZEOF_CLICK_LLC) ++
          Packet.pull p SIZEOF_CLICK_ETHER) 0 WIFI_LLC_HEADER) 6 (readBytes p 12 2) = L at h
        have hf : f = _ := (Outcome.frame.inj h).symm
        rw [hf]
        simp [memcpy, memset, readBytes, SIZEOF_CLICK_WIFI, OFF_I_FC, OFF_I_ADDR1,
          OFF_I_ADDR2, OFF_I_ADDR3, EtherAddress.data, List.range_succ]

theorem pull_frame_source (o : Alloc) (s : AggregationQueue) (hi : s.Inv) (f : Packet)
    (h : (s.pull o).2 = Outcome.frame f) :
    ∃ p, p ∈ s.frames ∧
      AggregationQueue.wifi_encap o p s._ra (EtherAddress.ofBytes p 6) s._ta
        = Outcome.frame f := by
  by_cases h0 : s._size = 0
  · rw [pull_empty o s h0] at h
    exact absurd h (by simp)
  · obtain ⟨p, _, hfr, hr⟩ := frames_pull_some o s hi (Nat.pos_of_ne_zero h0)
    exact ⟨p, by rw [hfr]; exact List.mem_cons_self _ _, by rw [← hr]; exact h⟩

theorem pull_frames_subset (o : Alloc) (s : AggregationQueue) (hi : s.Inv) :
    ∀ p, p ∈ (s.pull o).1.frames → p ∈ s.frames := by
  intro p hp
  by_cases h0 : s._size = 0
  · rw [frames_pull_empty o s h0] at hp
    exact hp
  · obtain ⟨p', _, hfr, _⟩ := frames_pull_some o s hi (Nat.pos_of_ne_zero h0)
    rw [hfr]
    exact List.mem_cons_of_mem _ hp

theorem push_frames_subset (p : Packet) (s : AggregationQueue) (hi : s.Inv) :
    ∀ x, x ∈ (s.push p).1.frames → x ∈ s.frames ∨ x = p := by
  intro x hx
  by_cases hroom : s._size < s._capacity
  · rw [frames_push_room p s hi hroom] at hx
    rcases List.mem_append.mp hx with h1 | h1
    · exact Or.inl h1
    · exact Or.inr (by simpa using h1)
  · have hfull : s._size = s._capacity := Nat.le_antisymm hi.size_le (Nat.le_of_not_lt hroom)
    rw [frames_push_full p s hfull] at hx
    exact Or.inl hx

theorem enqueue_queues (p : Packet) (ra ta : EtherAddress) (t : TrafficRuleQueue) :
    (t.enqueue p ra ta).1._queues =
      HashTable.set t._queues ra
        (((HashTable.find t._queues ra).getD (AggregationQueue.ctor t._capacity ra ta)).push
          p).1 := by
  unfold TrafficRuleQueue.enqueue
  cases hf : HashTable.find t._queues ra <;> simp only [Option.getD_none, Option.getD_some] <;>
    split <;> (try split) <;> simp [set_set]

/-- What `dequeue` leaves in the table: for every station the same addresses
and capacity, and no frame that was not there before. -/
theorem dequeueFrom_table (al : List EtherAddress) :
    ∀ (os : Nat → Alloc) (t : TrafficRuleQueue), t.QInv →
      ∀ a q', HashTable.find (TrafficRuleQueue.dequeueFrom al os t).1._queues a = some q' →
        ∃ q, HashTable.find t._queues a = some q ∧ q'._ra = q._ra ∧ q'._ta = q._ta ∧
          q'._capacity = q._capacity ∧ ∀ p, p ∈ q'.frames → p ∈ q.frames := by
  induction al with
  | nil =>
    intro os t _ a q' h
    exact ⟨q', h, rfl, rfl, rfl, fun _ hp => hp⟩
  | cons ra rest ih =>
    intro os t hq a q' h
    cases hf : HashTable.find t._queues ra with
    | none =>
      simp only [TrafficRuleQueue.dequeueFrom, hf] at h
      exact ⟨q', h, rfl, rfl, rfl, fun _ hp => hp⟩
    | some queue =>
      obtain ⟨qi, qra, qcap⟩ := hq.queues ra queue hf
      have hpf := pull_fields (os 0) queue
      have hsub := pull_frames_subset (os 0) queue qi
      have hstep : ∀ q1, HashTable.find (HashTable.set t._queues ra (queue.pull (os 0)).1) a
          = some q1 →
          ∃ q, HashTable.find t._queues a = some q ∧ q1._ra = q._ra ∧ q1._ta = q._ta ∧
            q1._capacity = q._capacity ∧ ∀ p, p ∈ q1.frames → p ∈ q.frames := by
        intro q1 h1
        rw [find_set] at h1
        by_cases e : a = ra
        · simp only [e, if_true, Option.some.injEq] at h1
          subst h1
          exact ⟨queue, by rw [e]; exact hf, hpf.1, hpf.2.1, hpf.2.2.1, hsub⟩
        · simp only [e, if_false] at h1
          exact ⟨q1, h1, rfl, rfl, rfl, fun _ hp => hp⟩
      cases hr : (queue.pull (os 0)).2 with
      | frame g =>
        simp only [TrafficRuleQueue.dequeueFrom, hf, hr] at h
        exact hstep q' h
      | fault =>
        simp only [TrafficRuleQueue.dequeueFrom, hf, hr] at h
        exact hstep q' h
      | null =>
        simp only [TrafficRuleQueue.dequeueFrom, hf, hr] at h
        have hq1 : ({ t with
            _queues := HashTable.set t._queues ra (queue.pull (os 0)).1
            _active_list := rest } : TrafficRuleQueue).QInv :=
          qinv_set t _ hq ra _
            ⟨aq_inv_pull _ _ qi, by rw [hpf.1, qra], by rw [hpf.2.2.1, qcap]⟩ rfl rfl
        obtain ⟨q1, h1, e1, e2, e3, e4⟩ := ih _ _ hq1 a q' h
        obtain ⟨q, h2, e5, e6, e7, e8⟩ := hstep q1 h1
        exact ⟨q, h2, e1.trans e5, e2.trans e6, e3.trans e7, fun p hp => e8 p (e4 p hp)⟩

/-- Where a frame returned by `dequeue` comes from: it is the encapsulation,
with the addresses of a listed station's queue, of a frame buffered there. -/
theorem dequeueFrom_frame_source (al : List EtherAddress) :
    ∀ (os : Nat → Alloc) (t : TrafficRuleQueue) (f : Packet), t.QInv →
      (TrafficRuleQueue.dequeueFrom al os t).2 = Outcome.frame f →
      ∃ a q p o, a ∈ al ∧ HashTable.find t._queues a = some q ∧ p ∈ q.frames ∧
        AggregationQueue.wifi_encap o p q._ra (EtherAddress.ofBytes p 6) q._ta
          = Outcome.frame f := by
  induction al with
  | nil =>
    intro os t f _ h
    simp [TrafficRuleQueue.dequeueFrom] at h
  | cons ra rest ih =>
    intro os t f hq h
    cases hf : HashTable.find t._queues ra with
    | none =>
      simp [TrafficRuleQueue.dequeueFrom, hf] at h
    | some queue =>
      obtain ⟨qi, qra, qcap⟩ := hq.queues ra queue hf
      have hpf := pull_fields (os 0) queue
      cases hr : (queue.pull (os 0)).2 with
      | frame g =>
        simp only [TrafficRuleQueue.dequeueFrom, hf, hr] at h
        have hg : g = f := Outcome.frame.inj h
        subst hg
        obtain ⟨p, hp, he⟩ := pull_frame_source (os 0) queue qi g hr
        exact ⟨ra, queue, p, os 0, List.mem_cons_self _ _, hf, hp, he⟩
      | fault =>
        simp [TrafficRuleQueue.dequeueFrom, hf, hr] at h
      | null =>
        simp only [TrafficRuleQueue.dequeueFrom, hf, hr] at h
        have hq1 : ({ t with
            _queues := HashTable.set t._queues ra (queue.pull (os 0)).1
            _active_list := rest } : TrafficRuleQueue).QInv :=
          qinv_set t _ hq ra _
            ⟨aq_inv_pull _ _ qi, by rw [hpf.1, qra], by rw [hpf.2.2.1, qcap]⟩ rfl rfl
        obtain ⟨a, q1, p, o, ha, h1, hp, he⟩ := ih _ _ f hq1 h
        have h1' : HashTable.find (HashTable.set t._queues ra (queue.pull (os 0)).1) a
            = some q1 := h1
        rw [find_set] at h1'
        by_cases e : a = ra
        · simp only [e, if_true, Option.some.injEq] at h1'
          subst h1'
          refine ⟨ra, queue, p, o, List.mem_cons_self _ _, hf,
            pull_frames_subset (os 0) queue qi p hp, ?_⟩
          rw [← hpf.1, ← hpf.2.1]
          exact he
        · simp only [e, if_false] at h1'
          exact ⟨a, q1, p, o, List.mem_cons_of_mem _ ha, h1', hp, he⟩

theorem dequeueFrom_keys (al : List EtherAddress) :
    ∀ (os : Nat → Alloc) (t : TrafficRuleQueue) (a : EtherAddress),
      (HashTable.find t._queues a).isSome = true →
      (HashTable.find (TrafficRuleQueue.dequeueFrom al os t).1._queues a).isSome = true := by
  induction al with
  | nil => intro os t a h; exact h
  | cons ra rest ih =>
    intro os t a h
    cases hf : HashTable.find t._queues ra with
    | none =>
      simp only [TrafficRuleQueue.dequeueFrom, hf]
      exact h
    | some queue =>
      have hstep : (HashTable.find (HashTable.set t._queues ra (queue.pull (os 0)).1) a).isSome
          = true := by
        rw [find_set]
        by_cases e : a = ra
        · simp [e]
        · simp only [e, if_false]; exact h
      cases hr : (queue.pull (os 0)).2 with
      | frame g =>
        simp only [TrafficRuleQueue.dequeueFrom, hf, hr]
        exact hstep
      | fault =>
        simp only [TrafficRuleQueue.dequeueFrom, hf, hr]
        exact hstep
      | null =>
        simp only [TrafficRuleQueue.dequeueFrom, hf, hr]
        exact ih _ _ a hstep

theorem run_append (cs ds : List TrafficRuleQueue.Call) :
    ∀ t : TrafficRuleQueue,
      TrafficRuleQueue.run (cs ++ ds) t = TrafficRuleQueue.run ds (TrafficRuleQueue.run cs t) := by
  induction cs with
  | nil => intro t; rfl
  | cons c cs ih => intro t; exact ih (t.call c)

theorem first_ta_append (cs ds : List TrafficRuleQueue.Call) (a : EtherAddress) :
    TrafficRuleQueue.first_ta (cs ++ ds) a
      = (TrafficRuleQueue.first_ta cs a).orElse (fun _ => TrafficRuleQueue.first_ta ds a) := by
  induction cs with
  | nil => simp [TrafficRuleQueue.first_ta]
  | cons c cs ih =>
    cases c with
    | enqueue p ra ta =>
      by_cases h : ra = a
      · simp [TrafficRuleQueue.first_ta, h]
      · simp [TrafficRuleQueue.first_ta, h, ih]
    | dequeue os => simp [TrafficRuleQueue.first_ta, ih]

/-- The invariant of a history: the table holds, for every station, a queue
with the transmitter address of the first `enqueue` for that station, and only
frames that some `enqueue` of the history passed for that station. -/
theorem run_history (tr : TrafficRule) (c quantum : Nat) (hc : c < UINT32)
    (cs : List TrafficRuleQueue.Call) :
    (TrafficRuleQueue.run cs (TrafficRuleQueue.ctor tr c quantum)).Inv ∧
    (TrafficRuleQueue.run cs (TrafficRuleQueue.ctor tr c quantum))._capacity = c ∧
    (∀ a, (HashTable.find (TrafficRuleQueue.run cs
        (TrafficRuleQueue.ctor tr c quantum))._queues a).map (fun q => q._ta)
      = TrafficRuleQueue.first_ta cs a) ∧
    (∀ a q, HashTable.find (TrafficRuleQueue.run cs
        (TrafficRuleQueue.ctor tr c quantum))._queues a = some q →
      ∀ p, p ∈ q.frames → ∃ ta', TrafficRuleQueue.Call.enqueue p a ta' ∈ cs) := by
  induction cs using List.reverseRecOn with
  | nil =>
    refine ⟨trq_inv_ctor tr c quantum hc, rfl, ?_, ?_⟩
    · intro a
      simp [TrafficRuleQueue.run, TrafficRuleQueue.ctor, HashTable.find,
        TrafficRuleQueue.first_ta]
    · intro a q h
      simp [TrafficRuleQueue.run, TrafficRuleQueue.ctor, HashTable.find] at h
  | append_singleton cs call ih =>
    obtain ⟨hi, hcap, hta, hsrc⟩ := ih
    rw [run_append]
    generalize TrafficRuleQueue.run cs (TrafficRuleQueue.ctor tr c quantum) = T at hi hcap hta hsrc
    cases call with
    | enqueue p ra ta =>
      show (T.enqueue p ra ta).1.Inv ∧ (T.enqueue p ra ta).1._capacity = c ∧
        (∀ a, (HashTable.find (T.enqueue p ra ta).1._queues a).map (fun q => q._ta)
          = TrafficRuleQueue.first_ta (cs ++ [TrafficRuleQueue.Call.enqueue p ra ta]) a) ∧
        (∀ a q, HashTable.find (T.enqueue p ra ta).1._queues a = some q →
          ∀ x, x ∈ q.frames →
            ∃ ta', TrafficRuleQueue.Call.enqueue x a ta'
              ∈ cs ++ [TrafficRuleQueue.Call.enqueue p ra ta])
      obtain ⟨qi, _, _⟩ := enqueue_queue_inv ra ta T hi.qinv
      have hpf := push_fields p
        ((HashTable.find T._queues ra).getD (AggregationQueue.ctor T._capacity ra ta))
      refine ⟨trq_inv_enqueue p ra ta T hi, by rw [enqueue_capacity]; exact hcap, ?_, ?_⟩
      · intro a
        rw [enqueue_queues, find_set, first_ta_append, ← hta a]
        by_cases e : a = ra
        · subst e
          simp only [if_true, Option.map_some', hpf.2.1]
          cases hf : HashTable.find T._queues a with
          | none => simp [TrafficRuleQueue.first_ta, AggregationQueue.ctor]
          | some q => simp
        · have e' : ra ≠ a := fun h => e h.symm
          simp only [e, if_false]
          simp [TrafficRuleQueue.first_ta, e']
      · intro a q h x hx
        rw [enqueue_queues, find_set] at h
        by_cases e : a = ra
        · subst e
          simp only [if_true, Option.some.injEq] at h
          subst h
          rcases push_frames_subset p _ qi x hx with h1 | h1
          · cases hf : HashTable.find T._queues a with
            | none =>
              rw [hf] at h1
              simp [frames_ctor] at h1
            | some q0 =>
              rw [hf] at h1
              obtain ⟨ta', hm⟩ := hsrc a q0 hf x h1
              exact ⟨ta', List.mem_append_left _ hm⟩
          · exact ⟨ta, by rw [h1]; simp⟩
        · simp only [e, if_false] at h
          obtain ⟨ta', hm⟩ := hsrc a q h x hx
          exact ⟨ta', List.mem_append_left _ hm⟩
    | dequeue os =>
      show (T.dequeue os).1.Inv ∧ (T.dequeue os).1._capacity = c ∧
        (∀ a, (HashTable.find (T.dequeue os).1._queues a).map (fun q => q._ta)
          = TrafficRuleQueue.first_ta (cs ++ [TrafficRuleQueue.Call.dequeue os]) a) ∧
        (∀ a q, HashTable.find (T.dequeue os).1._queues a = some q →
          ∀ x, x ∈ q.frames →
            ∃ ta', TrafficRuleQueue.Call.enqueue x a ta'
              ∈ cs ++ [TrafficRuleQueue.Call.dequeue os])
      refine ⟨trq_inv_dequeue os T hi, ?_, ?_, ?_⟩
      · unfold TrafficRuleQueue.dequeue
        rw [dequeueFrom_capacity]; exact hcap
      · intro a
        rw [first_ta_append, ← hta a]
        cases hf' : HashTable.find (T.dequeue os).1._queues a with
        | some q' =>
          obtain ⟨q, hq, _, e2, _, _⟩ := dequeueFrom_table T._active_list os T hi.qinv a q' hf'
          simp [hq, e2, TrafficRuleQueue.first_ta]
        | none =>
          cases hf : HashTable.find T._queues a with
          | none => simp [TrafficRuleQueue.first_ta]
          | some q =>
            have := dequeueFrom_keys T._active_list os T a (by rw [hf]; rfl)
            have hf'' : HashTable.find (TrafficRuleQueue.dequeueFrom T._active_list os T).1._queues a
                = none := hf'
            rw [hf''] at this
            simp at this
      · intro a q' h x hx
        obtain ⟨q, hq, _, _, _, hsub⟩ := dequeueFrom_table T._active_list os T hi.qinv a q' h
        obtain ⟨ta', hm⟩ := hsrc a q hq x (hsub x hx)
        exact ⟨ta', List.mem_append_left _ hm⟩

/-- C20: after any history of `enqueue` and `dequeue` calls on a new
traffic-rule queue, every station queue is stored under its own receiver
address, has the capacity the traffic-rule queue was configured with, and has
the transmitter address passed with the first `enqueue` for its station; a
frame returned by `dequeue` is the encapsulation of a frame that an `enqueue` of
the history passed for some station `a`, its address 1 is `a` and its address 2
is the transmitter address of the first `enqueue` for `a`, whatever addresses
later calls passed; and no call changes the receiver address, transmitter
address or capacity of an existing station queue. -/
theorem C20_addresses_fixed_at_creation (tr : TrafficRule) (c quantum : Nat)
    (cs : List TrafficRuleQueue.Call) (hc : c < UINT32) :
    (∀ a q, HashTable.find (TrafficRuleQueue.run cs
        (TrafficRuleQueue.ctor tr c quantum))._queues a = some q →
      q._ra = a ∧ TrafficRuleQueue.first_ta cs a = some q._ta ∧ q._capacity = c) ∧
    (∀ os f, ((TrafficRuleQueue.run cs (TrafficRuleQueue.ctor tr c quantum)).dequeue os).2
        = Outcome.frame f →
      ∃ a p ta' ta o, TrafficRuleQueue.Call.enqueue p a ta' ∈ cs ∧
        TrafficRuleQueue.first_ta cs a = some ta ∧
        AggregationQueue.wifi_encap o p a (EtherAddress.ofBytes p 6) ta = Outcome.frame f ∧
        readBytes f 4 6 = a.data ∧ readBytes f 10 6 = ta.data) ∧
    (∀ call a q, HashTable.find (TrafficRuleQueue.run cs
        (TrafficRuleQueue.ctor tr c quantum))._queues a = some q →
      ∃ q', HashTable.find ((TrafficRuleQueue.run cs
          (TrafficRuleQueue.ctor tr c quantum)).call call)._queues a = some q' ∧
        q'._ra = q._ra ∧ q'._ta = q._ta ∧ q'._capacity = q._capacity) := by
  obtain ⟨hi, hcap, hta, hsrc⟩ := run_history tr c quantum hc cs
  have h1 : ∀ a q, HashTable.find (TrafficRuleQueue.run cs
      (TrafficRuleQueue.ctor tr c quantum))._queues a = some q →
      q._ra = a ∧ TrafficRuleQueue.first_ta cs a = some q._ta ∧ q._capacity = c := by
    intro a q hf
    obtain ⟨_, e1, e2⟩ := hi.qinv.queues a q hf
    refine ⟨e1, ?_, by rw [e2, hcap]⟩
    rw [← hta a, hf]
    rfl
  refine ⟨h1, ?_, ?_⟩
  · intro os f hf
    obtain ⟨a, q, p, o, _, hfq, hp, he⟩ :=
      dequeueFrom_frame_source _ os _ f hi.qinv hf
    obtain ⟨e1, e2, _⟩ := h1 a q hfq
    obtain ⟨ta', hm⟩ := hsrc a q hfq p hp
    obtain ⟨ha1, ha2⟩ := wifi_encap_addresses o p q._ra _ q._ta f he
    rw [e1] at he ha1
    exact ⟨a, p, ta', q._ta, o, hm, e2, he, ha1, ha2⟩
  · intro call a q hf
    obtain ⟨e1, e2, e3⟩ := h1 a q hf
    obtain ⟨hi', hcap', hta', _⟩ := run_history tr c quantum hc (cs ++ [call])
    rw [run_append] at hi' hcap' hta'
    have hfirst : TrafficRuleQueue.first_ta (cs ++ [call]) a = some q._ta := by
      rw [first_ta_append, e2]
      rfl
    have hmap := hta' a
    rw [hfirst] at hmap
    cases hf' : HashTable.find ((TrafficRuleQueue.run cs
        (TrafficRuleQueue.ctor tr c quantum)).call call)._queues a with
    | none =>
      have hf'' : HashTable.find (TrafficRuleQueue.run [call] (TrafficRuleQueue.run cs
          (TrafficRuleQueue.ctor tr c quantum)))._queues a = none := hf'
      rw [hf''] at hmap
      simp at hmap
    | some q' =>
      have hf'' : HashTable.find (TrafficRuleQueue.run [call] (TrafficRuleQueue.run cs
          (TrafficRuleQueue.ctor tr c quantum)))._queues a = some q' := hf'
      rw [hf''] at hmap
      obtain ⟨_, e1', e2'⟩ := hi'.qinv.queues a q' hf''
      refine ⟨q', rfl, by rw [e1', e1], by simpa using hmap, ?_⟩
      rw [e2', hcap', e3]

/-- C20 at a history in which the second frame for a station is passed with
another transmitter address: the frame is delivered with the first one. -/
theorem C20_addresses_fixed_at_creation_witness :
    ((TrafficRuleQueue.run
        [TrafficRuleQueue.Call.enqueue [1, 1, 1, 1, 1, 1, 2, 2, 2, 2, 2, 2, 8, 0, 41]
           ⟨5, 5, 5, 5, 5, 5⟩ ⟨7, 7, 7, 7, 7, 7⟩,
         TrafficRuleQueue.Call.enqueue [1, 1, 1, 1, 1, 1, 2, 2, 2, 2, 2, 2, 8, 0, 42]
           ⟨5, 5, 5, 5, 5, 5⟩ ⟨9, 9, 9, 9, 9, 9⟩,
         TrafficRuleQueue.Call.dequeue (fun _ => Alloc.plain)]
        (TrafficRuleQueue.ctor ⟨"net", 0⟩ 2 100)).dequeue (fun _ => Alloc.plain)).2
      = Outcome.frame [8, 2, 0, 0, 5, 5, 5, 5, 5, 5, 7, 7, 7, 7, 7, 7, 2, 2, 2, 2, 2, 2,
          0, 0, 0xaa, 0xaa, 3, 0, 0, 0, 8, 0, 42] ∧
    ∃ a p ta' ta o,
      TrafficRuleQueue.Call.enqueue p a ta' ∈
        [TrafficRuleQueue.Call.enqueue [1, 1, 1, 1, 1, 1, 2, 2, 2, 2, 2, 2, 8, 0, 41]
           ⟨5, 5, 5, 5, 5, 5⟩ ⟨7, 7, 7, 7, 7, 7⟩,
         TrafficRuleQueue.Call.enqueue [1, 1, 1, 1, 1, 1, 2, 2, 2, 2, 2, 2, 8, 0, 42]
           ⟨5, 5, 5, 5, 5, 5⟩ ⟨9, 9, 9, 9, 9, 9⟩,
         TrafficRuleQueue.Call.dequeue (fun _ => Alloc.plain)] ∧
      TrafficRuleQueue.first_ta
        [TrafficRuleQueue.Call.enqueue [1, 1, 1, 1, 1, 1, 2, 2, 2, 2, 2, 2, 8, 0, 41]
           ⟨5, 5, 5, 5, 5, 5⟩ ⟨7, 7, 7, 7, 7, 7⟩,
         TrafficRuleQueue.Call.enqueue [1, 1, 1, 1, 1, 1, 2, 2, 2, 2, 2, 2, 8, 0, 42]
           ⟨5, 5, 5, 5, 5, 5⟩ ⟨9, 9, 9, 9, 9, 9⟩,
         TrafficRuleQueue.Call.dequeue (fun _ => Alloc.plain)] a = some ta ∧
      AggregationQueue.wifi_encap o p a (EtherAddress.ofBytes p 6) ta
        = Outcome.frame [8, 2, 0, 0, 5, 5, 5, 5, 5, 5, 7, 7, 7, 7, 7, 7, 2, 2, 2, 2, 2, 2,
          0, 0, 0xaa, 0xaa, 3, 0, 0, 0, 8, 0, 42] ∧
      readBytes [8, 2, 0, 0, 5, 5, 5, 5, 5, 5, 7, 7, 7, 7, 7, 7, 2, 2, 2, 2, 2, 2,
          0, 0, 0xaa, 0xaa, 3, 0, 0, 0, 8, 0, 42] 4 6 = a.data ∧
      readBytes [8, 2, 0, 0, 5, 5, 5, 5, 5, 5, 7, 7, 7, 7, 7, 7, 2, 2, 2, 2, 2, 2,
          0, 0, 0xaa, 0xaa, 3, 0, 0, 0, 8, 0, 42] 10 6 = ta.data :=
  ⟨by decide,
   (C20_addresses_fixed_at_creation ⟨"net", 0⟩ 2 100
      [TrafficRuleQueue.Call.enqueue [1, 1, 1, 1, 1, 1, 2, 2, 2, 2, 2, 2, 8, 0, 41]
         ⟨5, 5, 5, 5, 5, 5⟩ ⟨7, 7, 7, 7, 7, 7⟩,
       TrafficRuleQueue.Call.enqueue [1, 1, 1, 1, 1, 1, 2, 2, 2, 2, 2, 2, 8, 0, 42]
         ⟨5, 5, 5, 5, 5, 5⟩ ⟨9, 9, 9, 9, 9, 9⟩,
       TrafficRuleQueue.Call.dequeue (fun _ => Alloc.plain)]
      (by decide)).2.1 (fun _ => Alloc.plain) _ (by decide)⟩

/-! ## The scheduler: deficit and credit -/

